import Mathlib

/-!
# Verification of the path-planning graph library and search algorithms

Shallow embedding of the `algorithms` Python package:
* `graph_lib/base_graph.py`, `directed_graph.py`, `undirected_graph.py`
  (nodes, edges, graphs, `add_node`, `add_edge`, `get_node`,
  `get_neighbors`, `get_edge_between`),
* `dijkstra/dijkstra.py` (`Dijkstra.find_shortest_paths`),
* `astar/astar.py` (`AStar.heuristic`, `AStar.find_shortest_path`,
  `AStar.reconstruct_path`).

Conventions of the embedding:
* Node and edge identifiers (`int | str` in Python) are modelled by `Nat`.
* Python `float` weights and coordinates are modelled by `ℚ`; the value
  `float('inf')` used by the searches is modelled by `⊤ : WithTop ℚ`.
* A raised Python exception is modelled by an error value (`Except.error`,
  `Option.none`, or `Res.exn`), which the callers propagate exactly where
  the exception would propagate.
* The Python loops are unbounded `while` loops; they are embedded with an
  explicit fuel argument, and running out of fuel is the distinct outcome
  `Res.fuel`, never confused with a normal return or a raised exception.
  Lemmas below discharge the fuel for the executions the claims are about.
* Python object identity: `BaseNode.__eq__` compares ids, so wherever the
  source compares node objects the embedding compares `.id` fields.  Edges
  hold references to their endpoint node objects; only the identity and
  coordinates of those objects are ever read through an edge, so an edge
  stores the `NodeData` view of its endpoints.
-/

namespace PathPlanning

/-- The identity-plus-coordinates part of a `BaseNode`:
`id`, and the optional coordinates `x`, `y` (absent = Python `None`). -/
structure NodeData where
  id : Nat
  x : Option ℚ := none
  y : Option ℚ := none
deriving DecidableEq, Repr

/-- A `DirectedEdge`: id, weight, and the source/target node references
(only the data view of the referenced nodes is observable through the edge). -/
structure DEdge where
  id : Nat
  source : NodeData
  target : NodeData
  weight : ℚ
deriving DecidableEq, Repr

/-- An `UndirectedEdge`: id, weight and the two endpoint node references. -/
structure UEdge where
  id : Nat
  node1 : NodeData
  node2 : NodeData
  weight : ℚ
deriving DecidableEq, Repr

/-- A node object as stored in a graph's `nodes` dict.  `base` is a plain
`BaseNode`; `dnode` is a `DirectedNode` with its `outgoing_edges` and
`incoming_edges` lists; `unode` is an `UndirectedNode` with its `edges`
list.  The adjacency lists are populated by edge construction in Python;
well-formedness (`DirectedGraph.WF` below) states the resulting
consistency with the graph's edge dict. -/
inductive PNode where
  | base (data : NodeData)
  | dnode (data : NodeData) (outgoing incoming : List DEdge)
  | unode (data : NodeData) (edges : List UEdge)
deriving DecidableEq, Repr

/-- The `id`/coordinate view of any node object. -/
def PNode.data : PNode → NodeData
  | .base d => d
  | .dnode d _ _ => d
  | .unode d _ => d

/-- Errors raised by the graph container (`ValueError` in the source, with
messages distinguishing the three situations the spec names
`DuplicateIdError`, `NodeNotFoundError` and `TypeMismatchError`). -/
inductive GraphErr where
  | dup
  | notFound
  | typeMismatch
deriving DecidableEq, Repr

/-- `DirectedGraph`: the `nodes` dict (insertion order, keyed by
`node.id`) and the `edges` dict (insertion order, keyed by `edge.id`). -/
structure DirectedGraph where
  nodes : List PNode
  edges : List DEdge
deriving DecidableEq, Repr

/-- `UndirectedGraph`: the `nodes` dict and the `edges` dict. -/
structure UndirectedGraph where
  nodes : List PNode
  edges : List UEdge
deriving DecidableEq, Repr

/-- `BaseGraph.get_node` (shared by both variants): dictionary lookup by id,
`None` when absent. -/
def DirectedGraph.getNode (g : DirectedGraph) (i : Nat) : Option PNode :=
  g.nodes.find? (fun n => n.data.id = i)

/-- `BaseGraph.get_node` on an undirected graph. -/
def UndirectedGraph.getNode (g : UndirectedGraph) (i : Nat) : Option PNode :=
  g.nodes.find? (fun n => n.data.id = i)

/-- `BaseGraph.add_node`: raises (`ValueError`, duplicate id) if `node.id`
is already a key of the nodes dict, otherwise inserts the binding.  The
raise happens before any mutation, so on error the dicts are unchanged. -/
def DirectedGraph.addNode (g : DirectedGraph) (n : PNode) :
    Except GraphErr DirectedGraph :=
  if g.nodes.any (fun m => m.data.id = n.data.id) then .error .dup
  else .ok { g with nodes := g.nodes ++ [n] }

/-- `BaseGraph.add_edge` on a directed graph: raises if `edge.id` is
already a key of the edges dict, otherwise inserts the binding. -/
def DirectedGraph.addEdge (g : DirectedGraph) (e : DEdge) :
    Except GraphErr DirectedGraph :=
  if g.edges.any (fun f => f.id = e.id) then .error .dup
  else .ok { g with edges := g.edges ++ [e] }

/-- `BaseGraph.add_node` on an undirected graph (same inherited code). -/
def UndirectedGraph.addNode (g : UndirectedGraph) (n : PNode) :
    Except GraphErr UndirectedGraph :=
  if g.nodes.any (fun m => m.data.id = n.data.id) then .error .dup
  else .ok { g with nodes := g.nodes ++ [n] }

/-- `BaseGraph.add_edge` on an undirected graph (same inherited code). -/
def UndirectedGraph.addEdge (g : UndirectedGraph) (e : UEdge) :
    Except GraphErr UndirectedGraph :=
  if g.edges.any (fun f => f.id = e.id) then .error .dup
  else .ok { g with edges := g.edges ++ [e] }

/-- `DirectedGraph.get_neighbors`: look the node up; `ValueError` if absent
(`NodeNotFoundError`) or if it is not a `DirectedNode`
(`TypeMismatchError`); otherwise `DirectedNode.get_successors`, i.e. the
targets of the stored `outgoing_edges` list. -/
def DirectedGraph.getNeighbors (g : DirectedGraph) (i : Nat) :
    Except GraphErr (List NodeData) :=
  match g.getNode i with
  | none => .error .notFound
  | some (.dnode _ out _) => .ok (out.map (fun e => e.target))
  | some _ => .error .typeMismatch

/-- `UndirectedGraph.get_neighbors`: look the node up; errors as in the
directed case; otherwise the comprehension
`[edge.node1 if edge.node2 == node else edge.node2 for edge in node.edges]`. -/
def UndirectedGraph.getNeighbors (g : UndirectedGraph) (i : Nat) :
    Except GraphErr (List NodeData) :=
  match g.getNode i with
  | none => .error .notFound
  | some (.unode d es) =>
      .ok (es.map (fun e => if e.node2.id = d.id then e.node1 else e.node2))
  | some _ => .error .typeMismatch

/-- An argument to `get_edge_between`: a node id or a node instance
(`Union[int, str, BaseNode]` in the source). -/
inductive NodeRef where
  | byId (i : Nat)
  | byNode (d : NodeData)
deriving DecidableEq, Repr

/-- The `node if isinstance(node, BaseNode) else self.get_node(node)`
resolution step of `get_edge_between` (directed graph). -/
def DirectedGraph.resolveRef (g : DirectedGraph) : NodeRef → Option NodeData
  | .byNode d => some d
  | .byId i => (g.getNode i).map PNode.data

/-- Resolution step of `get_edge_between` (undirected graph). -/
def UndirectedGraph.resolveRef (g : UndirectedGraph) : NodeRef → Option NodeData
  | .byNode d => some d
  | .byId i => (g.getNode i).map PNode.data

/-- `DirectedGraph.get_edge_between(node1, node2)`: resolve both arguments;
if both are found, scan `self.edges.values()` in insertion order for the
first edge with `edge.source == source_node and edge.target == target_node`
(node equality is by id); otherwise `None`. -/
def DirectedGraph.getEdgeBetween (g : DirectedGraph) (a b : NodeRef) :
    Option DEdge :=
  match g.resolveRef a, g.resolveRef b with
  | some na, some nb =>
      g.edges.find? (fun e => e.source.id = na.id ∧ e.target.id = nb.id)
  | _, _ => none

/-- `UndirectedEdge.has_nodes(node1, node2)`: the edge connects the two
nodes in either role. -/
def UEdge.hasNodes (e : UEdge) (a b : Nat) : Prop :=
  (e.node1.id = a ∧ e.node2.id = b) ∨ (e.node1.id = b ∧ e.node2.id = a)

instance (e : UEdge) (a b : Nat) : Decidable (e.hasNodes a b) := by
  unfold UEdge.hasNodes; infer_instance

/-- `UndirectedGraph.get_edge_between(node1, node2)`: resolve both
arguments; scan the edges dict for the first edge with
`edge.has_nodes(node_1, node_2)`; otherwise `None`. -/
def UndirectedGraph.getEdgeBetween (g : UndirectedGraph) (a b : NodeRef) :
    Option UEdge :=
  match g.resolveRef a, g.resolveRef b with
  | some na, some nb => g.edges.find? (fun e => e.hasNodes na.id nb.id)
  | _, _ => none

/-- The node object is a `DirectedNode` whose stored `outgoing_edges` and
`incoming_edges` lists agree with the graph's edge dict (the state that
constructing each edge on existing nodes, in edge-insertion order,
produces). -/
def PNode.dirConsistent (n : PNode) (edges : List DEdge) : Prop :=
  match n with
  | .dnode d out inc =>
      out = edges.filter (fun e => e.source.id = d.id) ∧
      inc = edges.filter (fun e => e.target.id = d.id)
  | _ => False

instance (n : PNode) (edges : List DEdge) : Decidable (n.dirConsistent edges) := by
  cases n <;> unfold PNode.dirConsistent <;> infer_instance

/-- The node object is an `UndirectedNode` whose stored `edges` list agrees
with the graph's edge dict (each `UndirectedEdge` registers itself with
both endpoints at construction; a self-loop is registered once). -/
def PNode.undConsistent (n : PNode) (edges : List UEdge) : Prop :=
  match n with
  | .unode d es =>
      es = edges.filter (fun e => e.node1.id = d.id ∨ e.node2.id = d.id)
  | _ => False

instance (n : PNode) (edges : List UEdge) : Decidable (n.undConsistent edges) := by
  cases n <;> unfold PNode.undConsistent <;> infer_instance

/-- Well-formedness of a directed graph, i.e. the state reached by building
the graph through the public API in the intended way (construct
`DirectedNode`s, then construct each `DirectedEdge` on already-created
nodes — which registers the edge in `source.outgoing_edges` and
`target.incoming_edges` — and add it to the graph): node ids are unique,
edge ids are unique, every node is a consistent `DirectedNode`, and every
edge endpoint is (the data view of) a node of the graph. -/
def DirectedGraph.WF (g : DirectedGraph) : Prop :=
  (g.nodes.map (fun n => n.data.id)).Nodup ∧
  (g.edges.map (fun e => e.id)).Nodup ∧
  (∀ e ∈ g.edges,
    (∃ n ∈ g.nodes, n.data = e.source) ∧ (∃ n ∈ g.nodes, n.data = e.target)) ∧
  (∀ n ∈ g.nodes, n.dirConsistent g.edges)

/-- Well-formedness of an undirected graph (the analogous construction
invariant). -/
def UndirectedGraph.WF (g : UndirectedGraph) : Prop :=
  (g.nodes.map (fun n => n.data.id)).Nodup ∧
  (g.edges.map (fun e => e.id)).Nodup ∧
  (∀ e ∈ g.edges,
    (∃ n ∈ g.nodes, n.data = e.node1) ∧ (∃ n ∈ g.nodes, n.data = e.node2)) ∧
  (∀ n ∈ g.nodes, n.undConsistent g.edges)

instance (g : DirectedGraph) : Decidable g.WF := by
  unfold DirectedGraph.WF; infer_instance

instance (g : UndirectedGraph) : Decidable g.WF := by
  unfold UndirectedGraph.WF; infer_instance

/-!
## The polymorphic graph surface

`Dijkstra` and `AStar` are written against the `BaseGraph` interface and
dispatch dynamically to the directed or undirected implementation.  A
`PGraph` is a graph of either variant; the methods below dispatch exactly
as Python's virtual calls do.
-/

/-- A graph of either variant, as the search algorithms receive it. -/
inductive PGraph where
  | dir (g : DirectedGraph)
  | und (g : UndirectedGraph)
deriving DecidableEq, Repr

/-- `self.graph.nodes.keys()`. -/
def PGraph.nodeIds : PGraph → List Nat
  | .dir g => g.nodes.map (fun n => n.data.id)
  | .und g => g.nodes.map (fun n => n.data.id)

/-- `self.graph.get_node(id)` (virtual dispatch). -/
def PGraph.getNode : PGraph → Nat → Option PNode
  | .dir g, i => g.getNode i
  | .und g, i => g.getNode i

/-- `self.graph.get_neighbors(id)` (virtual dispatch). -/
def PGraph.getNeighbors : PGraph → Nat → Except GraphErr (List NodeData)
  | .dir g, i => g.getNeighbors i
  | .und g, i => g.getNeighbors i

/-- The weight of the edge `self.graph.get_edge_between(u, v)` returns, or
`none` when that call returns `None` (in which case the searches crash on
`edge.weight` with an `AttributeError`).  Dijkstra passes the neighbour
node object and A* passes its id; both resolve to the same node data, and
only the weight of the found edge is read. -/
def PGraph.edgeWeightBetween : PGraph → Nat → Nat → Option ℚ
  | .dir g, u, v => (g.getEdgeBetween (.byId u) (.byId v)).map (fun e => e.weight)
  | .und g, u, v => (g.getEdgeBetween (.byId u) (.byId v)).map (fun e => e.weight)

/-- The list of node objects of the graph, whichever the variant. -/
def PGraph.nodesList : PGraph → List PNode
  | .dir g => g.nodes
  | .und g => g.nodes

/-- Well-formedness, dispatched. -/
def PGraph.WF : PGraph → Prop
  | .dir g => g.WF
  | .und g => g.WF

instance (G : PGraph) : Decidable G.WF := by
  cases G <;> unfold PGraph.WF <;> infer_instance

/-- All edge weights of the graph are non-negative (the documented
precondition of both search algorithms). -/
def PGraph.nonnegWeights : PGraph → Prop
  | .dir g => ∀ e ∈ g.edges, 0 ≤ e.weight
  | .und g => ∀ e ∈ g.edges, 0 ≤ e.weight

instance (G : PGraph) : Decidable G.nonnegWeights := by
  cases G <;> unfold PGraph.nonnegWeights <;> infer_instance

/-- Any two edges of the graph that connect the same (ordered, for the
directed variant; unordered, for the undirected variant) pair of nodes
have the same weight.  Holds in particular when there is at most one edge
per node pair. -/
def PGraph.noParallelWeights : PGraph → Prop
  | .dir g => ∀ e ∈ g.edges, ∀ f ∈ g.edges,
      e.source.id = f.source.id → e.target.id = f.target.id → e.weight = f.weight
  | .und g => ∀ e ∈ g.edges, ∀ f ∈ g.edges,
      ((e.node1.id = f.node1.id ∧ e.node2.id = f.node2.id) ∨
       (e.node1.id = f.node2.id ∧ e.node2.id = f.node1.id)) → e.weight = f.weight

instance (G : PGraph) : Decidable G.noParallelWeights := by
  cases G <;> unfold PGraph.noParallelWeights <;> infer_instance

/-- Every node of the graph has both coordinates set. -/
def PGraph.allCoords : PGraph → Prop
  | .dir g => ∀ n ∈ g.nodes, n.data.x.isSome ∧ n.data.y.isSome
  | .und g => ∀ n ∈ g.nodes, n.data.x.isSome ∧ n.data.y.isSome

instance (G : PGraph) : Decidable G.allCoords := by
  cases G <;> unfold PGraph.allCoords <;> infer_instance

/-!
## The path metric

A single traversal step between node ids, together with the weight of an
edge realising it, and the cost of a path as the sum of the weights of its
(freely chosen) edges.  This is the specification-level notion of "a path
and the sum of its edge weights" that the claims about the search
algorithms refer to.
-/

/-- `G.EdgeStep u v w`: some edge of the graph lets a traversal move from
node `u` to node `v` at cost `w` — for the directed variant an edge with
source `u` and target `v`, for the undirected variant an edge whose
endpoints are `u` and `v` in either role. -/
def PGraph.EdgeStep : PGraph → Nat → Nat → ℚ → Prop
  | .dir g, u, v, w => ∃ e ∈ g.edges, e.source.id = u ∧ e.target.id = v ∧ e.weight = w
  | .und g, u, v, w => ∃ e ∈ g.edges, e.hasNodes u v ∧ e.weight = w

instance (G : PGraph) (u v : Nat) (w : ℚ) : Decidable (G.EdgeStep u v w) := by
  cases G <;> unfold PGraph.EdgeStep <;> infer_instance

/-- `CostPath G a b c`: there is a path from node `a` to node `b` in the
graph whose edge weights sum to `c`. -/
inductive CostPath (G : PGraph) : Nat → Nat → ℚ → Prop where
  | refl (u : Nat) : CostPath G u u 0
  | cons {u v t : Nat} {w c : ℚ} :
      G.EdgeStep u v w → CostPath G v t c → CostPath G u t (w + c)

/-- `b` is reachable from `a` through the graph's edges. -/
def PGraph.Reachable (G : PGraph) (a b : Nat) : Prop :=
  ∃ c, CostPath G a b c

/-- The set of costs of paths from `a` to `b`. -/
def costSet (G : PGraph) (a b : Nat) : Set ℚ :=
  {c | CostPath G a b c}

/-- `ListSteps G p c`: the id sequence `p` is a path through the graph
(each consecutive pair is joined by an edge) whose chosen edge weights sum
to `c`. -/
inductive ListSteps (G : PGraph) : List Nat → ℚ → Prop where
  | single (u : Nat) : ListSteps G [u] 0
  | cons {u v : Nat} {l : List Nat} {w c : ℚ} :
      G.EdgeStep u v w → ListSteps G (v :: l) c → ListSteps G (u :: v :: l) (w + c)

/-!
## The search algorithms

Both searches drive a `heapq` binary heap of `(priority, node_id)` pairs.
`heapq.heappop` returns the lexicographically smallest pair of the heap
(ties between equal pairs are immaterial since equal pairs are identical);
`popMin` below is exactly that multiset semantics.  The outcome of a call
is a `Res`: a normal return, a raised exception (`exn`), or — an artifact
of embedding the unbounded `while` loop — exhausted fuel (`fuel`).
-/

/-- Outcome of an embedded call: normal return, raised exception, or out
of fuel (the last never occurs at the fuel values the wrappers pass, as
proved where the claims need it). -/
inductive Res (α : Type) where
  | ok (a : α)
  | exn
  | fuel
deriving DecidableEq, Repr

/-- Strict lexicographic order on heap entries, as Python compares the
tuples `(priority, node_id)`. -/
def entryLt (a b : WithTop ℚ × Nat) : Prop :=
  a.1 < b.1 ∨ (a.1 = b.1 ∧ a.2 < b.2)

instance (a b : WithTop ℚ × Nat) : Decidable (entryLt a b) := by
  unfold entryLt; infer_instance

/-- The lexicographically least entry of a nonempty heap. -/
def minEntry : List (WithTop ℚ × Nat) → Option (WithTop ℚ × Nat)
  | [] => none
  | x :: xs => some (xs.foldl (fun a y => if entryLt y a then y else a) x)

/-- `heapq.heappop`: remove and return the least entry. -/
def popMin (q : List (WithTop ℚ × Nat)) :
    Option ((WithTop ℚ × Nat) × List (WithTop ℚ × Nat)) :=
  (minEntry q).map (fun m => (m, q.erase m))

/-- The neighbour-relaxation loop body of `Dijkstra.find_shortest_paths`:
for each neighbour of `u` in order, look up the connecting edge (`none`
models the `AttributeError` on `edge.weight` if no edge is found), compute
`potential_distance = distances[current] + edge.weight`, and on strict
improvement update the distance and predecessor and push the new entry. -/
def relaxD (G : PGraph) (u : Nat) :
    List NodeData → (Nat → WithTop ℚ) → (Nat → Option Nat) →
    List (WithTop ℚ × Nat) →
    Option ((Nat → WithTop ℚ) × (Nat → Option Nat) × List (WithTop ℚ × Nat))
  | [], dist, pred, queue => some (dist, pred, queue)
  | nd :: rest, dist, pred, queue =>
    match G.edgeWeightBetween u nd.id with
    | none => none
    | some w =>
      let pot := dist u + (w : WithTop ℚ)
      if pot < dist nd.id then
        relaxD G u rest
          (fun i => if i = nd.id then pot else dist i)
          (fun i => if i = nd.id then some u else pred i)
          (queue ++ [(pot, nd.id)])
      else relaxD G u rest dist pred queue

/-- The `while unvisited_nodes:` loop of `Dijkstra.find_shortest_paths`.
Popping an empty heap raises `IndexError` (`Res.exn`); a popped node
already removed from `unvisited` is a stale entry and is skipped;
otherwise the node is removed from `unvisited` and its neighbours are
relaxed (`get_neighbors` may raise for a malformed graph). -/
def dijkstraLoop (G : PGraph) :
    Nat → (Nat → WithTop ℚ) → (Nat → Option Nat) → List (WithTop ℚ × Nat) →
    List Nat → Res ((Nat → WithTop ℚ) × (Nat → Option Nat))
  | 0, _, _, _, _ => .fuel
  | fuel + 1, dist, pred, queue, unvisited =>
    if unvisited.isEmpty then .ok (dist, pred)
    else
      match popMin queue with
      | none => .exn
      | some ((_, u), rest) =>
        if u ∈ unvisited then
          match G.getNeighbors u with
          | .error _ => .exn
          | .ok nbrs =>
            match relaxD G u nbrs dist pred rest with
            | none => .exn
            | some (dist', pred', queue') =>
                dijkstraLoop G fuel dist' pred' queue' (unvisited.erase u)
        else dijkstraLoop G fuel dist pred rest unvisited

/-- Sum over all graph nodes of the lengths of their neighbour lists: an
upper bound on the number of pushes either search can perform after the
initial one. -/
def totalNbrLen (G : PGraph) : Nat :=
  (G.nodeIds.map (fun u =>
    match G.getNeighbors u with
    | .ok l => l.length
    | .error _ => 0)).sum

/-- Fuel that the Dijkstra loop can never exhaust. -/
def dijkstraFuel (G : PGraph) : Nat := totalNbrLen G + 2

/-- `Dijkstra.find_shortest_paths(source_node_id)`.  Distances start at
`inf` with the source at `0` and the heap at `[(0, source)]`; the loop
runs; the result lists `(node_id, (distance, predecessor))` for every
node.  When the source id is not a key of the nodes dict the Python call
always raises (`IndexError` from popping the drained heap if the graph has
nodes, otherwise `KeyError` building the result), modelled by `.exn`. -/
def findShortestPaths (G : PGraph) (s : Nat) :
    Res (List (Nat × (WithTop ℚ × Option Nat))) :=
  if s ∈ G.nodeIds then
    match dijkstraLoop G (dijkstraFuel G)
        (fun i => if i = s then 0 else ⊤) (fun _ => none)
        [((0 : WithTop ℚ), s)] G.nodeIds with
    | .ok (dist, pred) => .ok (G.nodeIds.map (fun i => (i, (dist i, pred i))))
    | .exn => .exn
    | .fuel => .fuel
  else .exn

/-- The four heuristic modes of `HeuristicType`. -/
inductive HeuristicType where
  | manhattan
  | euclidean
  | chebyshev
  | zero
deriving DecidableEq, Repr

/-- `AStar.heuristic(start_node, goal_node)`: first compute
`dx = abs(start_node.x - goal_node.x)` and `dy = abs(start_node.y -
goal_node.y)` — raising `TypeError` (`none`) if any coordinate is `None` —
then dispatch on the configured mode.  `math.sqrt` is irrational-valued
and is abstracted by the parameter `sq`. -/
def heuristic (sq : ℚ → ℚ) (ht : HeuristicType) (a b : NodeData) : Option ℚ :=
  (a.x).bind fun ax => (b.x).bind fun bx =>
  (a.y).bind fun ay => (b.y).bind fun yb =>
  let dx := |ax - bx|
  let dy := |ay - yb|
  some (match ht with
    | .manhattan => dx + dy
    | .euclidean => sq (dx * dx + dy * dy)
    | .chebyshev => max dx dy
    | .zero => 0)

/-- Python dict assignment `d[k] = v` on an association list. -/
def updateAssoc (l : List (Nat × Nat)) (k v : Nat) : List (Nat × Nat) :=
  match l with
  | [] => [(k, v)]
  | (k', v') :: rest =>
      if k' = k then (k, v) :: rest else (k', v') :: updateAssoc rest k v

/-- The neighbour loop of `AStar.find_shortest_path`: skip neighbours in
the closed list; look up the connecting edge; on strict `g_cost`
improvement update `g_costs` and `self.predecessors`, compute
`f_cost = tentative_g_cost + self.heuristic(neighbor, self.goal)` (which
raises if `self.goal` is `None` or a coordinate is missing) and push. -/
def relaxA (G : PGraph) (sq : ℚ → ℚ) (ht : HeuristicType)
    (goalD : Option NodeData) (u : Nat) (closed : List Nat) :
    List NodeData → (Nat → WithTop ℚ) → List (Nat × Nat) →
    List (WithTop ℚ × Nat) →
    Option ((Nat → WithTop ℚ) × List (Nat × Nat) × List (WithTop ℚ × Nat))
  | [], g, pred, queue => some (g, pred, queue)
  | nd :: rest, g, pred, queue =>
    if nd.id ∈ closed then relaxA G sq ht goalD u closed rest g pred queue
    else
      match G.edgeWeightBetween u nd.id with
      | none => none
      | some w =>
        let tent := g u + (w : WithTop ℚ)
        if tent < g nd.id then
          match goalD with
          | none => none
          | some gd =>
            match heuristic sq ht nd gd with
            | none => none
            | some h =>
                relaxA G sq ht goalD u closed rest
                  (fun i => if i = nd.id then tent else g i)
                  (updateAssoc pred nd.id u)
                  (queue ++ [(tent + (h : WithTop ℚ), nd.id)])
        else relaxA G sq ht goalD u closed rest g pred queue

/-- The `while current in predecessors:` walk of `AStar.reconstruct_path`,
from `current = goal` backwards; returns the appended ids in order.
`none` models the walk not terminating within `fuel` steps (a
predecessor-cycle would loop forever in Python). -/
def walkPred (pred : List (Nat × Nat)) : Nat → Nat → Option (List Nat)
  | fuel, cur =>
    match pred.lookup cur with
    | none => some []
    | some nxt =>
      match fuel with
      | 0 => none
      | f + 1 => (walkPred pred f nxt).map (fun l => cur :: l)

/-- `AStar.reconstruct_path(predecessors)`: returns `None` when the
predecessor dict is empty (the defensive guard); otherwise walks the
predecessor links from `self.goal.id`, appends `self.start.id`, and
reverses. -/
def reconstructPath (G : PGraph) (sId goalId : Nat) (pred : List (Nat × Nat)) :
    Res (Option (List Nat)) :=
  if pred.isEmpty then .ok none
  else
    match walkPred pred (G.nodeIds.length + 1) goalId with
    | none => .fuel
    | some l => .ok (some ((l ++ [sId]).reverse))

/-- The `while open_list:` loop of `AStar.find_shortest_path`: pop the
least `(f_cost, node_id)` entry; if it is the goal id, reconstruct and
return (raising if `self.goal` is `None`); otherwise add the node to the
closed list and relax its neighbours.  An emptied heap returns `None`. -/
def astarLoop (G : PGraph) (sq : ℚ → ℚ) (ht : HeuristicType)
    (sId gId : Nat) (goalN : Option PNode) :
    Nat → (Nat → WithTop ℚ) → List (Nat × Nat) → List Nat →
    List (WithTop ℚ × Nat) → Res (Option (List Nat))
  | 0, _, _, _, _ => .fuel
  | fuel + 1, g, pred, closed, queue =>
    match popMin queue with
    | none => .ok none
    | some ((_, u), rest) =>
      if u = gId then
        match goalN with
        | none => .exn
        | some gn => reconstructPath G sId gn.data.id pred
      else
        let closed' := if u ∈ closed then closed else u :: closed
        match G.getNeighbors u with
        | .error _ => .exn
        | .ok nbrs =>
          match relaxA G sq ht (goalN.map PNode.data) u closed' nbrs g pred rest with
          | none => .exn
          | some (g', pred', queue') =>
              astarLoop G sq ht sId gId goalN fuel g' pred' closed' queue'

/-- Fuel that the A* loop can never exhaust. -/
def astarFuel (G : PGraph) : Nat := totalNbrLen G + 2

/-- `AStar.find_shortest_path(start_id, goal_id)`.  `self.start` and
`self.goal` are looked up (a missing start raises `AttributeError` on
`self.start.id` at once); `g_costs` starts at `inf` with the start at `0`;
`self.predecessors` is reset; the heap starts at `[(0.0, start_id)]`. -/
def findShortestPath (G : PGraph) (sq : ℚ → ℚ) (ht : HeuristicType)
    (sId gId : Nat) : Res (Option (List Nat)) :=
  match G.getNode sId with
  | none => .exn
  | some _ =>
      astarLoop G sq ht sId gId (G.getNode gId) (astarFuel G)
        (fun i => if i = sId then 0 else ⊤) [] []
        [((0 : WithTop ℚ), sId)]

/-!
## Auxiliary measures and relations used by the proofs
-/

/-- Length of the neighbour list of `u` (0 if `get_neighbors` raises). -/
def nbrLen (G : PGraph) (u : Nat) : Nat :=
  match G.getNeighbors u with
  | .ok l => l.length
  | .error _ => 0

/-- Termination measure of the Dijkstra loop: queue length plus the
neighbour budget of the still unvisited nodes. -/
def phiD (G : PGraph) (queue : List (WithTop ℚ × Nat)) (unvisited : List Nat) :
    Nat :=
  queue.length + (unvisited.map (nbrLen G)).sum

/-- Termination measure of the A* loop: queue length plus the neighbour
budget of the not-yet-closed nodes. -/
def phiA (G : PGraph) (queue : List (WithTop ℚ × Nat)) (closed : List Nat) :
    Nat :=
  queue.length + ((G.nodeIds.filter (fun u => u ∉ closed)).map (nbrLen G)).sum

/-- The walk along `predecessors` from `v` reaches a node with no
predecessor entry (`st` in the uses below) in finitely many steps. -/
inductive WalksTo (pred : List (Nat × Nat)) : Nat → Prop where
  | done {v : Nat} : pred.lookup v = none → WalksTo pred v
  | step {v u : Nat} : pred.lookup v = some u → WalksTo pred u → WalksTo pred v

/-- Specification of the predecessor walk: from `v`, following the
`predecessors` entries appends exactly the list `l` and stops at the first
node `t` with no entry. -/
inductive IsWalk (pred : List (Nat × Nat)) : Nat → List Nat → Nat → Prop where
  | nil {v : Nat} : pred.lookup v = none → IsWalk pred v [] v
  | cons {v u t : Nat} {l : List Nat} :
      pred.lookup v = some u → IsWalk pred u l t → IsWalk pred v (v :: l) t

/-- Coherence facts about the graph surface that the search algorithms
rely on, all proved below for well-formed graphs (`step_w` additionally
needs `noParallelWeights`, `step_nonneg` needs `nonnegWeights`).  They are
bundled so that the loop-invariant lemmas can be stated once for both
graph variants. -/
structure Good (G : PGraph) : Prop where
  ids_nodup : G.nodeIds.Nodup
  nbr_ok : ∀ u ∈ G.nodeIds, ∃ l, G.getNeighbors u = .ok l
  nbr_mem : ∀ u l, G.getNeighbors u = .ok l → ∀ nd ∈ l, nd.id ∈ G.nodeIds
  nbr_w : ∀ u l, G.getNeighbors u = .ok l → ∀ nd ∈ l,
      ∃ w, G.edgeWeightBetween u nd.id = some w
  w_step : ∀ u v w, G.edgeWeightBetween u v = some w → G.EdgeStep u v w
  w_cover : ∀ u l, G.getNeighbors u = .ok l → ∀ v w,
      G.edgeWeightBetween u v = some w → ∃ nd ∈ l, nd.id = v
  step_cover : ∀ u l, G.getNeighbors u = .ok l → ∀ v w,
      G.EdgeStep u v w → ∃ nd ∈ l, nd.id = v
  step_mem : ∀ u v w, G.EdgeStep u v w → u ∈ G.nodeIds ∧ v ∈ G.nodeIds
  nbr_data : ∀ u l, G.getNeighbors u = .ok l → ∀ nd ∈ l,
      ∃ n ∈ G.nodesList, n.data = nd

/-- Postcondition of one `relaxD` pass from the visited node `u` over the
neighbour list `nbrs`, relating entry state `(dist, queue)` to exit state
`(dist', queue')`. -/
structure RelaxDOut (G : PGraph) (u : Nat) (nbrs : List NodeData)
    (dist : Nat → WithTop ℚ) (queue : List (WithTop ℚ × Nat))
    (dist' : Nat → WithTop ℚ) (queue' : List (WithTop ℚ × Nat)) : Prop where
  mono : ∀ v, dist' v ≤ dist v
  same_u : dist' u = dist u
  pointwise : ∀ v, dist' v = dist v ∨
      ((dist' v, v) ∈ queue' ∧ ∃ w, G.edgeWeightBetween u v = some w ∧
        dist' v = dist u + (w : WithTop ℚ) ∧ dist' v < dist v)
  relaxed : ∀ nd ∈ nbrs, ∀ w, G.edgeWeightBetween u nd.id = some w →
      dist' nd.id ≤ dist u + (w : WithTop ℚ)
  qold : ∀ e ∈ queue, e ∈ queue'
  qnew : ∀ e ∈ queue', e ∈ queue ∨
      (dist' e.2 ≤ e.1 ∧ e.1 ≠ ⊤ ∧ ∃ nd ∈ nbrs, nd.id = e.2)
  qlen : queue'.length ≤ queue.length + nbrs.length

/-- The loop invariant of `Dijkstra.find_shortest_paths`. -/
structure DInv (G : PGraph) (s : Nat) (dist : Nat → WithTop ℚ)
    (queue : List (WithTop ℚ × Nat)) (unvisited : List Nat) : Prop where
  unvis_sub : ∀ v ∈ unvisited, v ∈ G.nodeIds
  unvis_nodup : unvisited.Nodup
  dist_s : dist s = 0
  dist_nonneg : ∀ v, 0 ≤ dist v
  ach : ∀ v (c : ℚ), dist v = (c : WithTop ℚ) → CostPath G s v c
  settled : ∀ v ∈ G.nodeIds, v ∉ unvisited →
      ∃ c : ℚ, dist v = (c : WithTop ℚ) ∧ IsLeast (costSet G s v) c
  relaxed : ∀ u ∈ G.nodeIds, u ∉ unvisited → ∀ v w, G.EdgeStep u v w →
      dist v ≤ dist u + (w : WithTop ℚ)
  qbound : ∀ e ∈ queue, dist e.2 ≤ e.1 ∧ e.1 ≠ ⊤ ∧ e.2 ∈ G.nodeIds
  qexact : ∀ v ∈ unvisited, dist v ≠ ⊤ → (dist v, v) ∈ queue

/-- The graph nodes not yet on the A* closed list, in `nodeIds` order. -/
def unclosed (G : PGraph) (closed : List Nat) : List Nat :=
  G.nodeIds.filter (fun u => u ∉ closed)

/-- Postcondition of one `relaxA` pass from the (already closed) node `u`
over the neighbour list `nbrs`, relating the entry state
`(g, pred, queue)` to the exit state `(g', pred', queue')`.  These facts
hold for every heuristic mode. -/
structure RelaxAOut (G : PGraph) (u : Nat) (closed : List Nat)
    (nbrs : List NodeData) (g : Nat → WithTop ℚ) (pred : List (Nat × Nat))
    (queue : List (WithTop ℚ × Nat)) (g' : Nat → WithTop ℚ)
    (pred' : List (Nat × Nat)) (queue' : List (WithTop ℚ × Nat)) : Prop where
  mono : ∀ v, g' v ≤ g v
  frozen : ∀ v ∈ closed, g' v = g v
  keep : ∀ v, g' v = g v → pred'.lookup v = pred.lookup v
  dom : ∀ v, (pred.lookup v).isSome → (pred'.lookup v).isSome
  pnew : ∀ v x, pred'.lookup v = some x →
      (pred.lookup v = some x ∧ g' v = g v) ∨
      (x = u ∧ v ∉ closed ∧ ∃ w : ℚ, G.edgeWeightBetween u v = some w ∧
        g' v = g u + (w : WithTop ℚ) ∧ g' v ≠ ⊤)
  relaxed : ∀ nd ∈ nbrs, nd.id ∉ closed → ∀ w : ℚ,
      G.edgeWeightBetween u nd.id = some w → g' nd.id ≤ g u + (w : WithTop ℚ)
  qold : ∀ e ∈ queue, e ∈ queue'
  qnew : ∀ e ∈ queue', e ∈ queue ∨
      (e.2 ∉ closed ∧ (pred'.lookup e.2).isSome ∧ g' e.2 < g e.2 ∧
        ∃ nd ∈ nbrs, nd.id = e.2)
  qlen : queue'.length ≤ queue.length + nbrs.length

/-- Additional facts about a `relaxA` pass that hold in the `Zero`
heuristic mode, where every pushed priority is exactly the pushed node's
updated `g_cost` — the pass then behaves as Dijkstra's (restricted to the
not-yet-closed neighbours). -/
structure RelaxZOut (G : PGraph) (u : Nat) (closed : List Nat)
    (nbrs : List NodeData) (g : Nat → WithTop ℚ)
    (queue : List (WithTop ℚ × Nat)) (g' : Nat → WithTop ℚ)
    (queue' : List (WithTop ℚ × Nat)) : Prop where
  pointwise : ∀ v, g' v = g v ∨
      ((g' v, v) ∈ queue' ∧ v ∉ closed ∧ ∃ w : ℚ,
        G.edgeWeightBetween u v = some w ∧
        g' v = g u + (w : WithTop ℚ) ∧ g' v < g v)
  qzb : ∀ e ∈ queue', e ∈ queue ∨ (g' e.2 ≤ e.1 ∧ e.1 ≠ ⊤)

/-- The part of the A* loop invariant that holds for every heuristic
mode: structural facts about the closed list, the open heap, and the
predecessor dict.  `sId` is the start node's id. -/
structure ABase (G : PGraph) (sId : Nat) (g : Nat → WithTop ℚ)
    (pred : List (Nat × Nat)) (closed : List Nat)
    (queue : List (WithTop ℚ × Nat)) : Prop where
  closed_sub : ∀ v ∈ closed, v ∈ G.nodeIds
  closed_nodup : closed.Nodup
  q_sub : ∀ e ∈ queue, e.2 ∈ G.nodeIds
  q_reach : ∀ e ∈ queue, G.Reachable sId e.2
  q_gfin : ∀ e ∈ queue, g e.2 ≠ ⊤
  b_I8 : ∀ u ∈ closed, ∀ v, v ∉ closed → ∀ w : ℚ,
      G.edgeWeightBetween u v = some w → g v ≤ g u + (w : WithTop ℚ)
  b_g : ∀ v x, pred.lookup v = some x → x ∈ closed ∧ ∃ w : ℚ,
      G.edgeWeightBetween x v = some w ∧ g v = g x + (w : WithTop ℚ) ∧
      g v ≠ ⊤
  b_closed_pred : ∀ x ∈ closed, x = sId ∨ (pred.lookup x).isSome
  b_walks : ∀ x ∈ closed, WalksTo pred x
  b_init : (pred = [] ∧ closed = [] ∧ queue = [((0 : WithTop ℚ), sId)]) ∨
      (sId ∈ closed ∧ ∀ e ∈ queue, (pred.lookup e.2).isSome)

/-- The full A* loop invariant in `Zero` heuristic mode: the base facts
plus the Dijkstra-style optimality facts (the closed list plays the role
of the visited set). -/
structure AZInv (G : PGraph) (sId : Nat) (g : Nat → WithTop ℚ)
    (pred : List (Nat × Nat)) (closed : List Nat)
    (queue : List (WithTop ℚ × Nat)) extends
      ABase G sId g pred closed queue : Prop where
  z_dist_s : g sId = 0
  z_nonneg : ∀ v, 0 ≤ g v
  z_ach : ∀ v (c : ℚ), g v = (c : WithTop ℚ) → CostPath G sId v c
  z_settled : ∀ v ∈ closed, ∃ c : ℚ, g v = (c : WithTop ℚ) ∧
      IsLeast (costSet G sId v) c
  z_relaxed : ∀ u ∈ closed, ∀ v w, G.EdgeStep u v w →
      g v ≤ g u + (w : WithTop ℚ)
  z_qbound : ∀ e ∈ queue, g e.2 ≤ e.1 ∧ e.1 ≠ ⊤
  z_qexact : ∀ v ∈ G.nodeIds, v ∉ closed → g v ≠ ⊤ → (g v, v) ∈ queue

/-!
## Concrete graphs used by the witnesses and counterexamples

`gM` is the directed graph of the repository's A* test (`test_astar.py`):
nodes 1–4 with coordinates, edges 1→2 (w 1), 2→3 (w 2), 3→4 (w 1); it is
also, up to renaming, the weighted Dijkstra example of the spec.  The
others exercise the failure modes described with the claims.
-/

def m1 : NodeData := ⟨1, some 0, some 0⟩
def m2 : NodeData := ⟨2, some 1, some 0⟩
def m3 : NodeData := ⟨3, some 1, some 2⟩
def m4 : NodeData := ⟨4, some 2, some 2⟩
def m5 : NodeData := ⟨5, some 4, some 4⟩
def f12 : DEdge := ⟨20, m1, m2, 1⟩
def f23 : DEdge := ⟨21, m2, m3, 2⟩
def f34 : DEdge := ⟨22, m3, m4, 1⟩

/-- The A* test graph: 1 → 2 → 3 → 4. -/
def gM : DirectedGraph :=
  { nodes := [
      .dnode m1 [f12] [],
      .dnode m2 [f23] [f12],
      .dnode m3 [f34] [f23],
      .dnode m4 [] [f34]],
    edges := [f12, f23, f34] }

/-- `gM` plus the isolated node 5 (the `test_astar_search_no_path`
scenario). -/
def gM5 : DirectedGraph := { gM with nodes := gM.nodes ++ [.dnode m5 [] []] }

/-- Two isolated nodes (no edges at all). -/
def gC2 : DirectedGraph :=
  { nodes := [.dnode ⟨1, none, none⟩ [] [], .dnode ⟨2, none, none⟩ [] []],
    edges := [] }

def p1 : NodeData := ⟨1, none, none⟩
def p2 : NodeData := ⟨2, none, none⟩
def pe5 : DEdge := ⟨30, p1, p2, 5⟩
def pe1 : DEdge := ⟨31, p1, p2, 1⟩

/-- Two parallel edges 1→2, the heavier one inserted first. -/
def gP : DirectedGraph :=
  { nodes := [.dnode p1 [pe5, pe1] [], .dnode p2 [] [pe5, pe1]],
    edges := [pe5, pe1] }

def q1 : NodeData := ⟨1, some 0, some 0⟩
def q2 : NodeData := ⟨2, none, none⟩
def q3 : NodeData := ⟨3, some 0, some 0⟩
def qe : DEdge := ⟨40, q1, q2, 1⟩

/-- Start and goal have coordinates, the goal is unreachable, but the
reachable node 2 has no coordinates. -/
def gQ : DirectedGraph :=
  { nodes := [.dnode q1 [qe] [], .dnode q2 [] [qe], .dnode q3 [] []],
    edges := [qe] }

/-- A single node with coordinates. -/
def gS : DirectedGraph :=
  { nodes := [.dnode ⟨1, some 0, some 0⟩ [] []], edges := [] }

def u1 : NodeData := ⟨1, some 0, some 0⟩
def u2 : NodeData := ⟨2, some 1, some 0⟩
def ue : UEdge := ⟨50, u1, u2, 3⟩

/-- An undirected graph with one edge 1 – 2. -/
def gU : UndirectedGraph :=
  { nodes := [.unode u1 [ue], .unode u2 [ue]], edges := [ue] }

/-- A directed graph whose nodes dict also holds an `UndirectedNode`
(cross-variant misuse). -/
def gMix : DirectedGraph :=
  { nodes := [.dnode ⟨1, none, none⟩ [] [], .unode ⟨2, none, none⟩ []],
    edges := [] }

/-! ### Theorems -/

/-! #### Basic facts about the graph surface -/

lemma dir_getNode_isSome {g : DirectedGraph} {i : Nat}
    (h : i ∈ g.nodes.map (fun n => n.data.id)) : ∃ n, g.getNode i = some n := by
  rcases List.mem_map.1 h with ⟨n, hn, hid⟩
  have : (g.nodes.find? (fun n => n.data.id = i)).isSome :=
    List.find?_isSome.2 ⟨n, hn, by simp [hid]⟩
  rcases Option.isSome_iff_exists.1 this with ⟨m, hm⟩
  exact ⟨m, hm⟩

lemma dir_getNode_mem {g : DirectedGraph} {i : Nat} {n : PNode}
    (h : g.getNode i = some n) : n ∈ g.nodes ∧ n.data.id = i := by
  refine ⟨List.mem_of_find?_eq_some h, ?_⟩
  have := List.find?_some h
  simpa using this

lemma und_getNode_isSome {g : UndirectedGraph} {i : Nat}
    (h : i ∈ g.nodes.map (fun n => n.data.id)) : ∃ n, g.getNode i = some n := by
  rcases List.mem_map.1 h with ⟨n, hn, hid⟩
  have : (g.nodes.find? (fun n => n.data.id = i)).isSome :=
    List.find?_isSome.2 ⟨n, hn, by simp [hid]⟩
  rcases Option.isSome_iff_exists.1 this with ⟨m, hm⟩
  exact ⟨m, hm⟩

lemma und_getNode_mem {g : UndirectedGraph} {i : Nat} {n : PNode}
    (h : g.getNode i = some n) : n ∈ g.nodes ∧ n.data.id = i := by
  refine ⟨List.mem_of_find?_eq_some h, ?_⟩
  have := List.find?_some h
  simpa using this

lemma PGraph.getNode_isSome {G : PGraph} {i : Nat}
    (h : i ∈ G.nodeIds) : ∃ n, G.getNode i = some n := by
  cases G with
  | dir g => exact dir_getNode_isSome h
  | und g => exact und_getNode_isSome h

lemma PGraph.getNode_mem_ids {G : PGraph} {i : Nat} {n : PNode}
    (h : G.getNode i = some n) : i ∈ G.nodeIds ∧ n.data.id = i := by
  cases G with
  | dir g =>
      rcases dir_getNode_mem h with ⟨hm, hid⟩
      exact ⟨List.mem_map.2 ⟨n, hm, hid⟩, hid⟩
  | und g =>
      rcases und_getNode_mem h with ⟨hm, hid⟩
      exact ⟨List.mem_map.2 ⟨n, hm, hid⟩, hid⟩

/-! #### C10: the heuristic needs all four coordinates in every mode -/

/-- **C10.**  `AStar.heuristic` computes `dx` and `dy` before dispatching
on the configured mode, so for every mode — the `Zero` mode included — the
call succeeds exactly when both nodes have both coordinates set, and fails
(raises `TypeError`, modelled by `none`) as soon as any of the four
coordinates is missing, rather than returning `0` in `Zero` mode. -/
theorem heuristic_defined_iff_coords (sq : ℚ → ℚ) (ht : HeuristicType)
    (a b : NodeData) :
    (heuristic sq ht a b).isSome ↔
      (a.x.isSome ∧ b.x.isSome ∧ a.y.isSome ∧ b.y.isSome) := by
  unfold heuristic
  rcases a with ⟨ia, ax, ay⟩
  rcases b with ⟨ib, bx, yb⟩
  cases ax <;> cases bx <;> cases ay <;> cases yb <;> simp

/-! #### C8: duplicate-id behaviour of `add_node` / `add_edge` -/

/-- **C8.**  On either graph variant, `add_node` raises exactly when the
node's id is already a key of the nodes dict and `add_edge` raises exactly
when the edge's id is already a key of the edges dict; on success exactly
the one new binding is appended and the other dict is untouched.  (In the
error case the Python dicts are unchanged because the `raise` precedes the
assignment; the embedding returns `Except.error` without any new graph
state.) -/
theorem addNode_addEdge_spec (dg : DirectedGraph) (ug : UndirectedGraph)
    (n : PNode) (de : DEdge) (ue : UEdge) :
    ((dg.addNode n = .error .dup ↔ n.data.id ∈ dg.nodes.map (fun m => m.data.id)) ∧
      (∀ g', dg.addNode n = .ok g' →
        g'.nodes = dg.nodes ++ [n] ∧ g'.edges = dg.edges)) ∧
    ((dg.addEdge de = .error .dup ↔ de.id ∈ dg.edges.map (fun f => f.id)) ∧
      (∀ g', dg.addEdge de = .ok g' →
        g'.edges = dg.edges ++ [de] ∧ g'.nodes = dg.nodes)) ∧
    ((ug.addNode n = .error .dup ↔ n.data.id ∈ ug.nodes.map (fun m => m.data.id)) ∧
      (∀ g', ug.addNode n = .ok g' →
        g'.nodes = ug.nodes ++ [n] ∧ g'.edges = ug.edges)) ∧
    ((ug.addEdge ue = .error .dup ↔ ue.id ∈ ug.edges.map (fun f => f.id)) ∧
      (∀ g', ug.addEdge ue = .ok g' →
        g'.edges = ug.edges ++ [ue] ∧ g'.nodes = ug.nodes)) := by
  have hif : ∀ {β : Type} (c : Prop) [Decidable c] (x : β),
      ((if c then (Except.error GraphErr.dup : Except GraphErr β) else .ok x)
        = .error .dup ↔ c) := by
    intro β c hc x
    split <;> rename_i h <;> simp [h]
  have hok : ∀ {β : Type} (c : Prop) [Decidable c] (x g' : β),
      (if c then (Except.error GraphErr.dup : Except GraphErr β) else .ok x)
        = .ok g' → g' = x := by
    intro β c hc x g' h
    split at h
    · cases h
    · exact (Except.ok.inj h).symm
  have hmem : ∀ {α : Type} (l : List α) (f : α → Nat) (i : Nat),
      (i ∈ l.map f ↔ (l.any (fun x => f x = i)) = true) := by
    intro α l f i
    simp [List.any_eq_true, List.mem_map]
  refine ⟨⟨?_, ?_⟩, ⟨?_, ?_⟩, ⟨?_, ?_⟩, ⟨?_, ?_⟩⟩
  · exact (hif _ _).trans (hmem _ _ _).symm
  · intro g' h
    have := hok _ _ _ h
    exact ⟨by rw [this], by rw [this]⟩
  · exact (hif _ _).trans (hmem _ _ _).symm
  · intro g' h
    have := hok _ _ _ h
    exact ⟨by rw [this], by rw [this]⟩
  · exact (hif _ _).trans (hmem _ _ _).symm
  · intro g' h
    have := hok _ _ _ h
    exact ⟨by rw [this], by rw [this]⟩
  · exact (hif _ _).trans (hmem _ _ _).symm
  · intro g' h
    have := hok _ _ _ h
    exact ⟨by rw [this], by rw [this]⟩

/-- **C8 witness**: concrete instances — adding node 1 to `gM` (already
present) errors, adding node 5 succeeds and appends exactly that binding,
and similarly for edges. -/
theorem addNode_addEdge_spec_witness :
    (gM.addNode (.dnode m5 [] []) = .ok gM5 →
      gM5.nodes = gM.nodes ++ [.dnode m5 [] []] ∧ gM5.edges = gM.edges) ∧
    (gM.addNode (.dnode m1 [] []) = .error .dup ↔
      (PNode.dnode m1 [] []).data.id ∈ gM.nodes.map (fun m => m.data.id)) := by
  refine ⟨?_, ?_⟩
  · exact fun h => ((addNode_addEdge_spec gM gU (.dnode m5 [] []) f12 ue).1.2 gM5 h)
  · exact (addNode_addEdge_spec gM gU (.dnode m1 [] []) f12 ue).1.1

/-! #### C2: Dijkstra crashes when some node is unreachable -/

/-! #### C6: `get_neighbors` on a directed graph -/

/-- **C6.**  On a well-formed directed graph, `get_neighbors(node_id)`
succeeds for every present node id and returns exactly the target nodes of
the edges whose source is that node (and nothing else); it raises when the
id is absent from the nodes dict (`NodeNotFoundError`) and when the stored
node is not a `DirectedNode` (`TypeMismatchError`). -/
theorem directed_getNeighbors_spec (g : DirectedGraph) :
    (g.WF → ∀ u ∈ g.nodes.map (fun n => n.data.id),
      ∃ l, g.getNeighbors u = .ok l ∧
        ∀ nd, nd ∈ l ↔ ∃ e ∈ g.edges, e.source.id = u ∧ e.target = nd) ∧
    (∀ u, (∀ n ∈ g.nodes, n.data.id ≠ u) →
      g.getNeighbors u = .error .notFound) ∧
    (∀ u n, g.getNode u = some n → (∀ d out inc, n ≠ .dnode d out inc) →
      g.getNeighbors u = .error .typeMismatch) := by
  refine ⟨?_, ?_, ?_⟩
  · intro hwf u hu
    rcases dir_getNode_isSome hu with ⟨n, hn⟩
    rcases dir_getNode_mem hn with ⟨hmem, hid⟩
    have hcons := hwf.2.2.2 n hmem
    rcases n with d | ⟨d, out, inc⟩ | ⟨d, es⟩
    · exact absurd hcons (by simp [PNode.dirConsistent])
    · rcases hcons with ⟨hout, _⟩
      refine ⟨out.map (fun e => e.target), ?_, ?_⟩
      · unfold DirectedGraph.getNeighbors
        rw [hn]
      · intro nd
        subst hout
        simp only [List.mem_map, List.mem_filter, decide_eq_true_eq]
        constructor
        · rintro ⟨e, ⟨he, hsrc⟩, rfl⟩
          exact ⟨e, he, by simpa [PNode.data] using hsrc ▸ congrArg (fun x => x) (by rw [← hid]; rfl), rfl⟩
        · rintro ⟨e, he, hsrc, rfl⟩
          exact ⟨e, ⟨he, by simp [PNode.data] at hid; rw [hsrc, hid]⟩, rfl⟩
    · exact absurd hcons (by simp [PNode.dirConsistent])
  · intro u habs
    have : g.getNode u = none := by
      unfold DirectedGraph.getNode
      exact List.find?_eq_none.2 (fun n hn => by simpa using habs n hn)
    unfold DirectedGraph.getNeighbors
    rw [this]
  · intro u n hn hnd
    unfold DirectedGraph.getNeighbors
    rw [hn]
    rcases n with d | ⟨d, out, inc⟩ | ⟨d, es⟩
    · rfl
    · exact absurd rfl (hnd d out inc)
    · rfl

/-- **C6 witness**: on the A* test graph the neighbours of node 1 are
exactly the targets of its outgoing edges; on the mixed graph, id 7 is
absent (error) and id 2 holds an `UndirectedNode` (error). -/
theorem directed_getNeighbors_spec_witness :
    (∃ l, gM.getNeighbors 1 = .ok l ∧
      ∀ nd, nd ∈ l ↔ ∃ e ∈ gM.edges, e.source.id = 1 ∧ e.target = nd) ∧
    gMix.getNeighbors 7 = .error .notFound ∧
    gMix.getNeighbors 2 = .error .typeMismatch := by
  refine ⟨?_, ?_, ?_⟩
  · exact (directed_getNeighbors_spec gM).1 (by decide) 1 (by decide)
  · exact (directed_getNeighbors_spec gMix).2.1 7 (by decide)
  · exact (directed_getNeighbors_spec gMix).2.2 2 (.unode ⟨2, none, none⟩ [])
      (by rfl) (fun d out inc h => PNode.noConfusion h)

/-! #### C7: `get_edge_between`, directed vs undirected -/

/-- **C7.**  `get_edge_between(a, b)` — with `a`, `b` given as ids or node
instances — returns on a directed graph only an edge of the graph whose
source id is `a`'s and whose target id is `b`'s (argument order matters);
on an undirected graph it is symmetric in its two arguments; and on both
variants it returns `None` when no edge of the graph matches. -/
theorem getEdgeBetween_spec (dg : DirectedGraph) (ug : UndirectedGraph)
    (a b : NodeRef) :
    (∀ e, dg.getEdgeBetween a b = some e →
      ∃ na nb, dg.resolveRef a = some na ∧ dg.resolveRef b = some nb ∧
        e ∈ dg.edges ∧ e.source.id = na.id ∧ e.target.id = nb.id) ∧
    (ug.getEdgeBetween a b = ug.getEdgeBetween b a) ∧
    ((∀ na nb, dg.resolveRef a = some na → dg.resolveRef b = some nb →
        ∀ e ∈ dg.edges, ¬(e.source.id = na.id ∧ e.target.id = nb.id)) →
      dg.getEdgeBetween a b = none) ∧
    ((∀ na nb, ug.resolveRef a = some na → ug.resolveRef b = some nb →
        ∀ e ∈ ug.edges, ¬e.hasNodes na.id nb.id) →
      ug.getEdgeBetween a b = none) := by
  refine ⟨?_, ?_, ?_, ?_⟩
  · intro e he
    unfold DirectedGraph.getEdgeBetween at he
    rcases hra : dg.resolveRef a with _ | na <;> rw [hra] at he
    · cases he
    rcases hrb : dg.resolveRef b with _ | nb <;> rw [hrb] at he
    · cases he
    refine ⟨na, nb, rfl, rfl, List.mem_of_find?_eq_some he, ?_⟩
    have := List.find?_some he
    simpa using this
  · unfold UndirectedGraph.getEdgeBetween
    rcases hra : ug.resolveRef a with _ | na <;>
      rcases hrb : ug.resolveRef b with _ | nb <;> simp
    have : (fun e => decide (e.hasNodes na.id nb.id)) =
        (fun e : UEdge => decide (e.hasNodes nb.id na.id)) := by
      funext e
      apply decide_eq_decide.2
      unfold UEdge.hasNodes
      tauto
    rw [this]
  · intro h
    unfold DirectedGraph.getEdgeBetween
    rcases hra : dg.resolveRef a with _ | na
    · rfl
    rcases hrb : dg.resolveRef b with _ | nb
    · rfl
    exact List.find?_eq_none.2 (fun e he => by simpa using h na nb hra hrb e he)
  · intro h
    unfold UndirectedGraph.getEdgeBetween
    rcases hra : ug.resolveRef a with _ | na
    · rfl
    rcases hrb : ug.resolveRef b with _ | nb
    · rfl
    exact List.find?_eq_none.2 (fun e he => by simpa using h na nb hra hrb e he)

/-! #### Unfolding equations for the two loops -/

lemma dijkstraLoop_succ (G : PGraph) (fuel : Nat) (dist : Nat → WithTop ℚ)
    (pred : Nat → Option Nat) (queue : List (WithTop ℚ × Nat))
    (unvisited : List Nat) :
    dijkstraLoop G (fuel + 1) dist pred queue unvisited =
      (if unvisited.isEmpty then .ok (dist, pred)
       else
        match popMin queue with
        | none => .exn
        | some ((_, u), rest) =>
          if u ∈ unvisited then
            match G.getNeighbors u with
            | .error _ => .exn
            | .ok nbrs =>
              match relaxD G u nbrs dist pred rest with
              | none => .exn
              | some (dist', pred', queue') =>
                  dijkstraLoop G fuel dist' pred' queue' (unvisited.erase u)
          else dijkstraLoop G fuel dist pred rest unvisited) := rfl

lemma astarLoop_succ (G : PGraph) (sq : ℚ → ℚ) (ht : HeuristicType)
    (sId gId : Nat) (goalN : Option PNode) (fuel : Nat)
    (g : Nat → WithTop ℚ) (pred : List (Nat × Nat)) (closed : List Nat)
    (queue : List (WithTop ℚ × Nat)) :
    astarLoop G sq ht sId gId goalN (fuel + 1) g pred closed queue =
      (match popMin queue with
       | none => .ok none
       | some ((_, u), rest) =>
         if u = gId then
           match goalN with
           | none => .exn
           | some gn => reconstructPath G sId gn.data.id pred
         else
           let closed' := if u ∈ closed then closed else u :: closed
           match G.getNeighbors u with
           | .error _ => .exn
           | .ok nbrs =>
             match relaxA G sq ht (goalN.map PNode.data) u closed' nbrs g pred rest with
             | none => .exn
             | some (g', pred', queue') =>
                 astarLoop G sq ht sId gId goalN fuel g' pred' closed' queue') := rfl

/-! #### C9: `find_shortest_path(s, s)` returns `None` -/

/-- **C9.**  For any graph (of either variant) and any node id present in
it, `AStar.find_shortest_path(s, s)` returns `None`, not the one-node path
`[s]`: the only heap entry `(0.0, s)` is popped on the first iteration, it
equals the goal id while `self.predecessors` is still empty, and
`reconstruct_path` returns `None` on an empty predecessor dict. -/
theorem astar_start_eq_goal_none (G : PGraph) (sq : ℚ → ℚ)
    (ht : HeuristicType) (s : Nat) (hs : s ∈ G.nodeIds) :
    findShortestPath G sq ht s s = .ok none := by
  rcases PGraph.getNode_isSome hs with ⟨n, hn⟩
  unfold findShortestPath
  rw [hn]
  show astarLoop G sq ht s s (some n) (totalNbrLen G + 1 + 1)
      (fun i => if i = s then 0 else ⊤) [] [] [((0 : WithTop ℚ), s)] = .ok none
  rw [astarLoop_succ]
  have hpop : popMin [((0 : WithTop ℚ), s)] = some (((0 : WithTop ℚ), s), []) := by
    unfold popMin minEntry
    simp
  rw [hpop]
  simp only [if_pos rfl]
  unfold reconstructPath
  simp

/-- **C9 witness**: on the A* test graph, `find_shortest_path(1, 1)` with
the Manhattan heuristic returns `None`. -/
theorem astar_start_eq_goal_none_witness :
    (1 ∈ (PGraph.dir gM).nodeIds) ∧
      findShortestPath (.dir gM) id .manhattan 1 1 = .ok none :=
  ⟨by decide, astar_start_eq_goal_none (.dir gM) id .manhattan 1 (by decide)⟩

/-- **C7 witness**: concrete instances — on the A* test graph the edge
found between 1 and 2 has source 1 and target 2; on the undirected graph
`gU` the lookup is symmetric; and the reversed directed query 2 → 1 finds
nothing. -/
theorem getEdgeBetween_spec_witness :
    (∃ na nb, gM.resolveRef (.byId 1) = some na ∧
      gM.resolveRef (.byId 2) = some nb ∧
      f12 ∈ gM.edges ∧ f12.source.id = na.id ∧ f12.target.id = nb.id) ∧
    (gU.getEdgeBetween (.byId 1) (.byId 2) = gU.getEdgeBetween (.byId 2) (.byId 1)) ∧
    gM.getEdgeBetween (.byId 2) (.byId 1) = none := by
  refine ⟨?_, ?_, ?_⟩
  · exact (getEdgeBetween_spec gM gU (.byId 1) (.byId 2)).1 f12 (by rfl)
  · exact (getEdgeBetween_spec gM gU (.byId 1) (.byId 2)).2.1
  · refine (getEdgeBetween_spec gM gU (.byId 2) (.byId 1)).2.2.1 ?_
    intro na nb hna hnb
    have h2 : some m2 = some na := hna
    have h1 : some m1 = some nb := hnb
    cases h2
    cases h1
    exact (by decide : ∀ e ∈ gM.edges, ¬(e.source.id = m2.id ∧ e.target.id = m1.id))

/-- **C2** (failing input): on the graph with nodes 1 and 2 and no edges,
`find_shortest_paths(1)` does not return the complete
`{1: (0, None), 2: (inf, None)}` map the spec describes: after node 1 is
visited the heap is empty while node 2 is still unvisited, and
`heapq.heappop` raises `IndexError`. -/
theorem dijkstra_unreachable_raises :
    findShortestPaths (.dir gC2) 1 = .exn := by rfl

/-! #### The heap: `popMin` facts -/

lemma minEntry_fold_spec (xs : List (WithTop ℚ × Nat)) :
    ∀ a : WithTop ℚ × Nat,
      (xs.foldl (fun acc y => if entryLt y acc then y else acc) a = a ∨
        xs.foldl (fun acc y => if entryLt y acc then y else acc) a ∈ xs) ∧
      (xs.foldl (fun acc y => if entryLt y acc then y else acc) a).1 ≤ a.1 ∧
      (∀ y ∈ xs, (xs.foldl (fun acc y => if entryLt y acc then y else acc) a).1 ≤ y.1) := by
  induction xs with
  | nil => intro a; exact ⟨Or.inl rfl, le_refl _, by simp⟩
  | cons x xs ih =>
    intro a
    simp only [List.foldl_cons]
    set a' := if entryLt x a then x else a with ha'
    have haa : a'.1 ≤ a.1 ∧ a'.1 ≤ x.1 := by
      rw [ha']
      split
      · rename_i h
        rcases h with h | ⟨h, _⟩
        · exact ⟨le_of_lt h, le_refl _⟩
        · exact ⟨le_of_eq h, le_refl _⟩
      · rename_i h
        refine ⟨le_refl _, ?_⟩
        unfold entryLt at h
        push_neg at h
        exact h.1
    have ha'mem : a' = a ∨ a' = x := by
      rw [ha']; split
      · exact Or.inr rfl
      · exact Or.inl rfl
    rcases ih a' with ⟨hm, hle, hall⟩
    refine ⟨?_, ?_, ?_⟩
    · rcases hm with hm | hm
      · rcases ha'mem with h | h
        · exact Or.inl (hm.trans h)
        · exact Or.inr (by rw [hm, h]; exact List.mem_cons_self x xs)
      · exact Or.inr (List.mem_cons_of_mem x hm)
    · exact hle.trans haa.1
    · intro y hy
      rcases List.mem_cons.1 hy with rfl | hy
      · exact hle.trans haa.2
      · exact hall y hy

lemma popMin_none {q : List (WithTop ℚ × Nat)} :
    popMin q = none ↔ q = [] := by
  unfold popMin minEntry
  cases q <;> simp

lemma popMin_some {q : List (WithTop ℚ × Nat)} {m : WithTop ℚ × Nat}
    {r : List (WithTop ℚ × Nat)} (h : popMin q = some (m, r)) :
    m ∈ q ∧ r = q.erase m ∧ ∀ x ∈ q, m.1 ≤ x.1 := by
  unfold popMin minEntry at h
  cases q with
  | nil => cases h
  | cons x xs =>
    simp only [Option.map_some] at h
    have h' := Prod.mk.injEq .. ▸ Option.some.inj h
    have hm : m = xs.foldl (fun acc y => if entryLt y acc then y else acc) x :=
      h'.1.symm
    have hr : r = (x :: xs).erase m := by rw [← h'.2, hm]
    rcases minEntry_fold_spec xs x with ⟨hmem, hle, hall⟩
    refine ⟨?_, hr, ?_⟩
    · rw [hm]
      rcases hmem with h'' | h''
      · rw [h'']; exact List.mem_cons_self x xs
      · exact List.mem_cons_of_mem x h''
    · intro y hy
      rcases List.mem_cons.1 hy with rfl | hy
      · rw [hm]; exact hle
      · rw [hm]; exact hall y hy

lemma popMin_length {q : List (WithTop ℚ × Nat)} {m : WithTop ℚ × Nat}
    {r : List (WithTop ℚ × Nat)} (h : popMin q = some (m, r)) :
    r.length + 1 = q.length := by
  rcases popMin_some h with ⟨hm, hr, _⟩
  rw [hr, List.length_erase_of_mem hm]
  have : 0 < q.length := List.length_pos.2 (List.ne_nil_of_mem hm)
  omega

lemma popMin_rest_subset {q : List (WithTop ℚ × Nat)} {m : WithTop ℚ × Nat}
    {r : List (WithTop ℚ × Nat)} (h : popMin q = some (m, r)) :
    ∀ x ∈ r, x ∈ q := by
  rcases popMin_some h with ⟨_, hr, _⟩
  intro x hx
  rw [hr] at hx
  exact List.mem_of_mem_erase hx

lemma popMin_rest_mem {q : List (WithTop ℚ × Nat)} {m : WithTop ℚ × Nat}
    {r : List (WithTop ℚ × Nat)} (h : popMin q = some (m, r)) :
    ∀ x ∈ q, x ≠ m → x ∈ r := by
  rcases popMin_some h with ⟨_, hr, _⟩
  intro x hx hne
  rw [hr]
  exact (List.mem_erase_of_ne hne).2 hx

/-! #### Path facts -/

lemma CostPath.nonneg {G : PGraph} (hnn : ∀ u v w, G.EdgeStep u v w → 0 ≤ w)
    {a b : Nat} {c : ℚ} (h : CostPath G a b c) : 0 ≤ c := by
  induction h with
  | refl => exact le_refl 0
  | cons hs _ ih => exact add_nonneg (hnn _ _ _ hs) ih

lemma CostPath.snoc {G : PGraph} {a b : Nat} {c : ℚ}
    (h : CostPath G a b c) : ∀ {d : Nat} {w : ℚ}, G.EdgeStep b d w →
      CostPath G a d (c + w) := by
  induction h with
  | refl u =>
      intro d w hs
      simpa using CostPath.cons hs (CostPath.refl d)
  | cons hstep _ ih =>
      intro d w hs
      have := CostPath.cons hstep (ih hs)
      simpa [add_assoc] using this

lemma CostPath.last_step {G : PGraph} {a b : Nat} {c : ℚ}
    (h : CostPath G a b c) (hne : a ≠ b) : ∃ u w, G.EdgeStep u b w := by
  induction h with
  | refl u => exact absurd rfl hne
  | cons hstep htail ih =>
      rename_i u v t w c'
      by_cases hvt : v = t
      · exact ⟨u, _, hvt ▸ hstep⟩
      · exact ih hvt

lemma ListSteps.append_step {G : PGraph} {p : List Nat} {c w : ℚ} {u v : Nat}
    (h : ListSteps G p c) (hlast : p.getLast? = some u)
    (hs : G.EdgeStep u v w) : ListSteps G (p ++ [v]) (c + w) := by
  induction h with
  | single x =>
      have : x = u := by simpa using hlast
      subst this
      simpa using ListSteps.cons hs (ListSteps.single v)
  | cons hstep htail ih =>
      rename_i x y l w' c'
      have hlast' : (y :: l).getLast? = some u := by
        simpa [List.getLast?_cons_cons] using hlast
      have := ListSteps.cons hstep (ih hlast')
      simpa [add_assoc] using this

lemma ListSteps.head {G : PGraph} {p : List Nat} {c : ℚ}
    (h : ListSteps G p c) : ∃ u l, p = u :: l := by
  cases h with
  | single u => exact ⟨u, [], rfl⟩
  | cons _ _ => exact ⟨_, _, rfl⟩

/-! #### Association list and predecessor-walk facts -/

lemma lookup_updateAssoc (l : List (Nat × Nat)) (k v k' : Nat) :
    (updateAssoc l k v).lookup k' = if k' = k then some v else l.lookup k' := by
  induction l with
  | nil =>
      show ([(k, v)] : List (Nat × Nat)).lookup k' = _
      by_cases h : k' = k
      · simp [List.lookup_cons, show (k' == k) = true from beq_iff_eq.mpr h, h]
      · simp [List.lookup_cons, show (k' == k) = false from beq_eq_false_iff_ne.2 h, h]
  | cons x rest ih =>
      rcases x with ⟨a, b⟩
      unfold updateAssoc
      by_cases hak : a = k
      · subst hak
        rw [if_pos rfl]
        by_cases h : k' = a
        · simp [List.lookup_cons, show (k' == a) = true from beq_iff_eq.mpr h, h]
        · simp [List.lookup_cons, show (k' == a) = false from beq_eq_false_iff_ne.2 h, h]
      · rw [if_neg hak]
        by_cases h2 : k' = a
        · subst h2
          have hkk : ¬k' = k := fun hh => hak hh
          simp [List.lookup_cons, show (k' == k') = true from beq_iff_eq.mpr rfl, hkk]
        · simp [List.lookup_cons,
            show (k' == a) = false from beq_eq_false_iff_ne.2 h2, ih]

lemma updateAssoc_ne_nil (l : List (Nat × Nat)) (k v : Nat) :
    updateAssoc l k v ≠ [] := by
  cases l with
  | nil => simp [updateAssoc]
  | cons x rest =>
      rcases x with ⟨a, b⟩
      unfold updateAssoc
      split <;> simp

lemma walkPred_lookup_none {pred : List (Nat × Nat)} {f v : Nat}
    (h : pred.lookup v = none) : walkPred pred f v = some [] := by
  unfold walkPred
  rw [h]

lemma walkPred_lookup_some {pred : List (Nat × Nat)} {f v u : Nat}
    (h : pred.lookup v = some u) :
    walkPred pred (f + 1) v = (walkPred pred f u).map (fun l => v :: l) := by
  conv_lhs => unfold walkPred
  rw [h]

lemma walkPred_isWalk {pred : List (Nat × Nat)} :
    ∀ {f v l}, walkPred pred f v = some l → ∃ t, IsWalk pred v l t := by
  intro f
  induction f with
  | zero =>
      intro v l h
      unfold walkPred at h
      rcases hl : pred.lookup v with _ | u <;> rw [hl] at h
      · cases h
        exact ⟨v, IsWalk.nil hl⟩
      · cases h
  | succ f ih =>
      intro v l h
      rcases hl : pred.lookup v with _ | u
      · rw [walkPred_lookup_none hl] at h
        cases h
        exact ⟨v, IsWalk.nil hl⟩
      · rw [walkPred_lookup_some hl] at h
        rcases hw : walkPred pred f u with _ | l' <;> rw [hw] at h
        · cases h
        · cases h
          rcases ih hw with ⟨t, hwalk⟩
          exact ⟨t, IsWalk.cons hl hwalk⟩

lemma IsWalk.walkPred_eq {pred : List (Nat × Nat)} :
    ∀ {v l t}, IsWalk pred v l t → ∀ {f}, l.length ≤ f →
      walkPred pred f v = some l := by
  intro v l t h
  induction h with
  | nil hl => intro f _; exact walkPred_lookup_none hl
  | cons hl htail ih =>
      rename_i v' u t' l'
      intro f hf
      cases f with
      | zero => simp at hf
      | succ f =>
          rw [walkPred_lookup_some hl, ih (by simpa using hf)]
          rfl

lemma IsWalk.deterministic {pred : List (Nat × Nat)} :
    ∀ {v l t l' t'}, IsWalk pred v l t → IsWalk pred v l' t' →
      l = l' ∧ t = t' := by
  intro v l t l' t' h
  induction h generalizing l' t' with
  | nil hl =>
      intro h'
      cases h' with
      | nil hl' => exact ⟨rfl, rfl⟩
      | cons hl' _ => rw [hl] at hl'; cases hl'
  | cons hl htail ih =>
      intro h'
      cases h' with
      | nil hl' => rw [hl] at hl'; cases hl'
      | cons hl' htail' =>
          rw [hl] at hl'
          cases hl'
          rcases ih htail' with ⟨h1, h2⟩
          exact ⟨by rw [h1], h2⟩

lemma IsWalk.sub {pred : List (Nat × Nat)} :
    ∀ {v l t}, IsWalk pred v l t → ∀ x ∈ l,
      ∃ lx, IsWalk pred x lx t ∧ lx.length ≤ l.length := by
  intro v l t h
  induction h with
  | nil _ => intro x hx; cases hx
  | cons hl htail ih =>
      rename_i v' u t' l'
      intro x hx
      rcases List.mem_cons.1 hx with rfl | hx
      · exact ⟨x :: l', IsWalk.cons hl htail, le_refl _⟩
      · rcases ih x hx with ⟨lx, hw, hlen⟩
        exact ⟨lx, hw, hlen.trans (by simp)⟩

lemma IsWalk.nodup {pred : List (Nat × Nat)} :
    ∀ {v l t}, IsWalk pred v l t → l.Nodup := by
  intro v l t h
  induction h with
  | nil _ => exact List.nodup_nil
  | cons hl htail ih =>
      rename_i v' u t' l'
      refine List.nodup_cons.2 ⟨?_, ih⟩
      intro hv
      rcases htail.sub v' hv with ⟨lx, hw, hlen⟩
      rcases hw.deterministic (IsWalk.cons hl htail) with ⟨h1, _⟩
      rw [h1] at hlen
      simp at hlen

lemma IsWalk.mem_struct {pred : List (Nat × Nat)} :
    ∀ {v l t}, IsWalk pred v l t → ∀ x ∈ l,
      x = v ∨ ∃ y, pred.lookup y = some x := by
  intro v l t h
  induction h with
  | nil _ => intro x hx; cases hx
  | cons hl htail ih =>
      rename_i v' u t' l'
      intro x hx
      rcases List.mem_cons.1 hx with rfl | hx
      · exact Or.inl rfl
      · rcases ih x hx with rfl | hy
        · exact Or.inr ⟨v', hl⟩
        · exact Or.inr hy

lemma IsWalk.terminal_none {pred : List (Nat × Nat)} :
    ∀ {v l t}, IsWalk pred v l t → pred.lookup t = none := by
  intro v l t h
  induction h with
  | nil hl => exact hl
  | cons _ _ ih => exact ih

lemma WalksTo.isWalk {pred : List (Nat × Nat)} {v : Nat}
    (h : WalksTo pred v) : ∃ l t, IsWalk pred v l t := by
  induction h with
  | done hl => exact ⟨[], _, IsWalk.nil hl⟩
  | step hl _ ih =>
      rcases ih with ⟨l, t, hw⟩
      exact ⟨_, t, IsWalk.cons hl hw⟩

/-! #### Coherence of the two graph variants (instantiating `Good`) -/

lemma dir_getNeighbors_ok {g : DirectedGraph} (hwf : g.WF) {u : Nat}
    {l : List NodeData} (h : g.getNeighbors u = .ok l) :
    ∃ d out inc, g.getNode u = some (.dnode d out inc) ∧ d.id = u ∧
      out = g.edges.filter (fun e => e.source.id = d.id) ∧
      l = out.map (fun e => e.target) := by
  unfold DirectedGraph.getNeighbors at h
  rcases hn : g.getNode u with _ | n <;> rw [hn] at h
  · cases h
  rcases n with d | ⟨d, out, inc⟩ | ⟨d, es⟩
  · cases h
  · rcases dir_getNode_mem hn with ⟨hmem, hid⟩
    have hcons := hwf.2.2.2 _ hmem
    rcases hcons with ⟨hout, _⟩
    refine ⟨d, out, inc, hn ▸ rfl, by simpa [PNode.data] using hid, hout, ?_⟩
    have h' : Except.ok (ε := GraphErr) (out.map (fun e => e.target)) = .ok l := h
    exact (Except.ok.inj h').symm
  · cases h

lemma dir_edge_target_mem {g : DirectedGraph} (hwf : g.WF) {e : DEdge}
    (he : e ∈ g.edges) : e.target.id ∈ g.nodes.map (fun n => n.data.id) := by
  rcases (hwf.2.2.1 e he).2 with ⟨n, hn, hd⟩
  exact List.mem_map.2 ⟨n, hn, by rw [hd]⟩

lemma dir_edge_source_mem {g : DirectedGraph} (hwf : g.WF) {e : DEdge}
    (he : e ∈ g.edges) : e.source.id ∈ g.nodes.map (fun n => n.data.id) := by
  rcases (hwf.2.2.1 e he).1 with ⟨n, hn, hd⟩
  exact List.mem_map.2 ⟨n, hn, by rw [hd]⟩

lemma dir_resolve_byId {g : DirectedGraph} {u : Nat}
    (hu : u ∈ g.nodes.map (fun n => n.data.id)) :
    ∃ na, g.resolveRef (.byId u) = some na ∧ na.id = u := by
  rcases dir_getNode_isSome hu with ⟨n, hn⟩
  rcases dir_getNode_mem hn with ⟨_, hid⟩
  exact ⟨n.data, by simp [DirectedGraph.resolveRef, hn], hid⟩

lemma dir_edgeWeightBetween_some {g : DirectedGraph} (hwf : g.WF)
    {u v : Nat} {w : ℚ} (h : (PGraph.dir g).edgeWeightBetween u v = some w) :
    ∃ e ∈ g.edges, e.source.id = u ∧ e.target.id = v ∧ e.weight = w := by
  replace h : (g.getEdgeBetween (.byId u) (.byId v)).map (fun e => e.weight)
      = some w := h
  unfold DirectedGraph.getEdgeBetween at h
  rcases hra : g.resolveRef (.byId u) with _ | na <;> rw [hra] at h
  · cases h
  rcases hrb : g.resolveRef (.byId v) with _ | nb <;> rw [hrb] at h
  · cases h
  replace h : (g.edges.find?
      (fun e => e.source.id = na.id ∧ e.target.id = nb.id)).map
        (fun e => e.weight) = some w := h
  rcases hf : g.edges.find? (fun e => e.source.id = na.id ∧ e.target.id = nb.id)
    with _ | e <;> rw [hf] at h
  · cases h
  have hmem := List.mem_of_find?_eq_some hf
  have hpred := List.find?_some hf
  simp only [decide_eq_true_eq] at hpred
  have hna : na.id = u := by
    have hra' : (g.getNode u).map PNode.data = some na := hra
    rcases hn : g.getNode u with _ | n <;> rw [hn] at hra'
    · cases hra'
    · have hd := Option.some.inj (show some n.data = some na from hra')
      rw [← hd]
      exact (dir_getNode_mem hn).2
  have hnb : nb.id = v := by
    have hrb' : (g.getNode v).map PNode.data = some nb := hrb
    rcases hn : g.getNode v with _ | n <;> rw [hn] at hrb'
    · cases hrb'
    · have hd := Option.some.inj (show some n.data = some nb from hrb')
      rw [← hd]
      exact (dir_getNode_mem hn).2
  exact ⟨e, hmem, hna ▸ hpred.1, hnb ▸ hpred.2,
    Option.some.inj (show some e.weight = some w from h)⟩

lemma dir_edgeWeightBetween_isSome {g : DirectedGraph} (hwf : g.WF)
    {u v : Nat} {e : DEdge} (he : e ∈ g.edges) (hs : e.source.id = u)
    (ht : e.target.id = v) :
    ∃ w, (PGraph.dir g).edgeWeightBetween u v = some w := by
  rcases dir_resolve_byId (hs ▸ dir_edge_source_mem hwf he) with ⟨na, hna, hnaid⟩
  rcases dir_resolve_byId (ht ▸ dir_edge_target_mem hwf he) with ⟨nb, hnb, hnbid⟩
  have : (g.edges.find? (fun e => e.source.id = na.id ∧ e.target.id = nb.id)).isSome :=
    List.find?_isSome.2 ⟨e, he, by simp [hnaid, hnbid, hs, ht]⟩
  rcases Option.isSome_iff_exists.1 this with ⟨e', he'⟩
  refine ⟨e'.weight, ?_⟩
  show (g.getEdgeBetween (.byId u) (.byId v)).map (fun e => e.weight)
    = some e'.weight
  unfold DirectedGraph.getEdgeBetween
  rw [hna, hnb]
  show (g.edges.find?
    (fun e => e.source.id = na.id ∧ e.target.id = nb.id)).map
      (fun e => e.weight) = some e'.weight
  rw [he']
  rfl

lemma und_getNeighbors_ok {g : UndirectedGraph} (hwf : g.WF) {u : Nat}
    {l : List NodeData} (h : g.getNeighbors u = .ok l) :
    ∃ d es, g.getNode u = some (.unode d es) ∧ d.id = u ∧
      es = g.edges.filter (fun e => e.node1.id = d.id ∨ e.node2.id = d.id) ∧
      l = es.map (fun e => if e.node2.id = d.id then e.node1 else e.node2) := by
  unfold UndirectedGraph.getNeighbors at h
  rcases hn : g.getNode u with _ | n <;> rw [hn] at h
  · cases h
  rcases n with d | ⟨d, out, inc⟩ | ⟨d, es⟩
  · cases h
  · cases h
  · rcases und_getNode_mem hn with ⟨hmem, hid⟩
    have hcons := hwf.2.2.2 _ hmem
    refine ⟨d, es, hn ▸ rfl, by simpa [PNode.data] using hid, hcons, ?_⟩
    have h' : Except.ok (ε := GraphErr)
        (es.map (fun e => if e.node2.id = d.id then e.node1 else e.node2))
        = .ok l := h
    exact (Except.ok.inj h').symm

lemma und_edge_node1_mem {g : UndirectedGraph} (hwf : g.WF) {e : UEdge}
    (he : e ∈ g.edges) : e.node1.id ∈ g.nodes.map (fun n => n.data.id) := by
  rcases (hwf.2.2.1 e he).1 with ⟨n, hn, hd⟩
  exact List.mem_map.2 ⟨n, hn, by rw [hd]⟩

lemma und_edge_node2_mem {g : UndirectedGraph} (hwf : g.WF) {e : UEdge}
    (he : e ∈ g.edges) : e.node2.id ∈ g.nodes.map (fun n => n.data.id) := by
  rcases (hwf.2.2.1 e he).2 with ⟨n, hn, hd⟩
  exact List.mem_map.2 ⟨n, hn, by rw [hd]⟩

lemma und_hasNodes_mem {g : UndirectedGraph} (hwf : g.WF) {e : UEdge}
    {u v : Nat} (he : e ∈ g.edges) (h : e.hasNodes u v) :
    u ∈ g.nodes.map (fun n => n.data.id) ∧
      v ∈ g.nodes.map (fun n => n.data.id) := by
  rcases h with ⟨h1, h2⟩ | ⟨h1, h2⟩
  · exact ⟨h1 ▸ und_edge_node1_mem hwf he, h2 ▸ und_edge_node2_mem hwf he⟩
  · exact ⟨h2 ▸ und_edge_node2_mem hwf he, h1 ▸ und_edge_node1_mem hwf he⟩

lemma und_resolve_byId {g : UndirectedGraph} {u : Nat}
    (hu : u ∈ g.nodes.map (fun n => n.data.id)) :
    ∃ na, g.resolveRef (.byId u) = some na ∧ na.id = u := by
  rcases und_getNode_isSome hu with ⟨n, hn⟩
  rcases und_getNode_mem hn with ⟨_, hid⟩
  exact ⟨n.data, by simp [UndirectedGraph.resolveRef, hn], hid⟩

lemma und_edgeWeightBetween_some {g : UndirectedGraph}
    {u v : Nat} {w : ℚ} (h : (PGraph.und g).edgeWeightBetween u v = some w) :
    ∃ e ∈ g.edges, e.hasNodes u v ∧ e.weight = w := by
  replace h : (g.getEdgeBetween (.byId u) (.byId v)).map (fun e => e.weight)
      = some w := h
  unfold UndirectedGraph.getEdgeBetween at h
  rcases hra : g.resolveRef (.byId u) with _ | na <;> rw [hra] at h
  · cases h
  rcases hrb : g.resolveRef (.byId v) with _ | nb <;> rw [hrb] at h
  · cases h
  replace h : (g.edges.find? (fun e => e.hasNodes na.id nb.id)).map
      (fun e => e.weight) = some w := h
  rcases hf : g.edges.find? (fun e => e.hasNodes na.id nb.id)
    with _ | e <;> rw [hf] at h
  · cases h
  have hmem := List.mem_of_find?_eq_some hf
  have hpred := List.find?_some hf
  simp only [decide_eq_true_eq] at hpred
  have hna : na.id = u := by
    have hra' : (g.getNode u).map PNode.data = some na := hra
    rcases hn : g.getNode u with _ | n <;> rw [hn] at hra'
    · cases hra'
    · have hd := Option.some.inj (show some n.data = some na from hra')
      rw [← hd]
      exact (und_getNode_mem hn).2
  have hnb : nb.id = v := by
    have hrb' : (g.getNode v).map PNode.data = some nb := hrb
    rcases hn : g.getNode v with _ | n <;> rw [hn] at hrb'
    · cases hrb'
    · have hd := Option.some.inj (show some n.data = some nb from hrb')
      rw [← hd]
      exact (und_getNode_mem hn).2
  exact ⟨e, hmem, hna ▸ hnb ▸ hpred,
    Option.some.inj (show some e.weight = some w from h)⟩

lemma und_edgeWeightBetween_isSome {g : UndirectedGraph} (hwf : g.WF)
    {u v : Nat} {e : UEdge} (he : e ∈ g.edges) (hn : e.hasNodes u v) :
    ∃ w, (PGraph.und g).edgeWeightBetween u v = some w := by
  rcases und_hasNodes_mem hwf he hn with ⟨hu, hv⟩
  rcases und_resolve_byId hu with ⟨na, hna, hnaid⟩
  rcases und_resolve_byId hv with ⟨nb, hnb, hnbid⟩
  have : (g.edges.find? (fun e => e.hasNodes na.id nb.id)).isSome :=
    List.find?_isSome.2 ⟨e, he, by simp [hnaid, hnbid, hn]⟩
  rcases Option.isSome_iff_exists.1 this with ⟨e', he'⟩
  refine ⟨e'.weight, ?_⟩
  show (g.getEdgeBetween (.byId u) (.byId v)).map (fun e => e.weight)
    = some e'.weight
  unfold UndirectedGraph.getEdgeBetween
  rw [hna, hnb]
  show (g.edges.find? (fun e => e.hasNodes na.id nb.id)).map
    (fun e => e.weight) = some e'.weight
  rw [he']
  rfl

lemma und_nbr_step {e : UEdge} {u : Nat} (hmem : e.node1.id = u ∨ e.node2.id = u) :
    e.hasNodes u (if e.node2.id = u then e.node1 else e.node2).id := by
  by_cases h2 : e.node2.id = u
  · rw [if_pos h2]
    exact Or.inr ⟨rfl, h2⟩
  · have h1 : e.node1.id = u := hmem.resolve_right h2
    rw [if_neg h2]
    exact Or.inl ⟨h1, rfl⟩

lemma und_step_nbr {e : UEdge} {u v : Nat} (hn : e.hasNodes u v) :
    (if e.node2.id = u then e.node1 else e.node2).id = v := by
  by_cases h2 : e.node2.id = u
  · rw [if_pos h2]
    rcases hn with ⟨h1, hv⟩ | ⟨h1, _⟩
    · rw [← hv, h2, h1]
    · exact h1
  · rw [if_neg h2]
    rcases hn with ⟨_, hv⟩ | ⟨_, hu⟩
    · exact hv
    · exact absurd hu h2

lemma good_und {g : UndirectedGraph} (hwf : g.WF) : Good (.und g) := by
  constructor
  · exact hwf.1
  · intro u hu
    rcases und_getNode_isSome hu with ⟨n, hn⟩
    rcases und_getNode_mem hn with ⟨hmem, _⟩
    have hcons := hwf.2.2.2 n hmem
    rcases n with d | ⟨d, out, inc⟩ | ⟨d, es⟩
    · exact absurd hcons (by simp [PNode.undConsistent])
    · exact absurd hcons (by simp [PNode.undConsistent])
    · refine ⟨es.map (fun e => if e.node2.id = d.id then e.node1 else e.node2), ?_⟩
      show g.getNeighbors u = _
      unfold UndirectedGraph.getNeighbors
      rw [hn]
  · intro u l h nd hnd
    rcases und_getNeighbors_ok hwf h with ⟨d, es, _, hid, hes, hl⟩
    rw [hl, hes] at hnd
    rcases List.mem_map.1 hnd with ⟨e, he, rfl⟩
    by_cases h2 : e.node2.id = d.id
    · rw [if_pos h2]
      exact und_edge_node1_mem hwf (List.mem_of_mem_filter he)
    · rw [if_neg h2]
      exact und_edge_node2_mem hwf (List.mem_of_mem_filter he)
  · intro u l h nd hnd
    rcases und_getNeighbors_ok hwf h with ⟨d, es, _, hid, hes, hl⟩
    rw [hl, hes] at hnd
    rcases List.mem_map.1 hnd with ⟨e, he, rfl⟩
    have hf := List.of_mem_filter he
    simp only [decide_eq_true_eq] at hf
    have hstep : e.hasNodes u (if e.node2.id = d.id then e.node1 else e.node2).id := by
      rw [hid] at hf ⊢
      exact und_nbr_step hf
    exact und_edgeWeightBetween_isSome hwf (List.mem_of_mem_filter he) hstep
  · intro u v w h
    rcases und_edgeWeightBetween_some h with ⟨e, he, hn, hw⟩
    exact ⟨e, he, hn, hw⟩
  · intro u l h v w hw
    rcases und_edgeWeightBetween_some hw with ⟨e, he, hn, _⟩
    rcases und_getNeighbors_ok hwf h with ⟨d, es, _, hid, hes, hl⟩
    refine ⟨(if e.node2.id = d.id then e.node1 else e.node2), ?_, ?_⟩
    · rw [hl, hes]
      refine List.mem_map.2 ⟨e, List.mem_filter.2 ⟨he, ?_⟩, rfl⟩
      rcases hn with ⟨h1, _⟩ | ⟨_, h2⟩
      · simp [hid, h1]
      · simp [hid, h2]
    · rw [hid]
      exact und_step_nbr hn
  · intro u l h v w hw
    rcases hw with ⟨e, he, hn, _⟩
    rcases und_getNeighbors_ok hwf h with ⟨d, es, _, hid, hes, hl⟩
    refine ⟨(if e.node2.id = d.id then e.node1 else e.node2), ?_, ?_⟩
    · rw [hl, hes]
      refine List.mem_map.2 ⟨e, List.mem_filter.2 ⟨he, ?_⟩, rfl⟩
      rcases hn with ⟨h1, _⟩ | ⟨_, h2⟩
      · simp [hid, h1]
      · simp [hid, h2]
    · rw [hid]
      exact und_step_nbr hn
  · intro u v w h
    rcases h with ⟨e, he, hn, _⟩
    exact und_hasNodes_mem hwf he hn
  · intro u l h nd hnd
    rcases und_getNeighbors_ok hwf h with ⟨d, es, _, _, hes, hl⟩
    rw [hl, hes] at hnd
    rcases List.mem_map.1 hnd with ⟨e, he, rfl⟩
    by_cases h2 : e.node2.id = d.id
    · rw [if_pos h2]
      rcases (hwf.2.2.1 e (List.mem_of_mem_filter he)).1 with ⟨n, hn, hd⟩
      exact ⟨n, hn, hd⟩
    · rw [if_neg h2]
      rcases (hwf.2.2.1 e (List.mem_of_mem_filter he)).2 with ⟨n, hn, hd⟩
      exact ⟨n, hn, hd⟩

lemma good_dir {g : DirectedGraph} (hwf : g.WF) : Good (.dir g) := by
  constructor
  · exact hwf.1
  · intro u hu
    rcases dir_getNode_isSome hu with ⟨n, hn⟩
    rcases dir_getNode_mem hn with ⟨hmem, _⟩
    have hcons := hwf.2.2.2 n hmem
    rcases n with d | ⟨d, out, inc⟩ | ⟨d, es⟩
    · exact absurd hcons (by simp [PNode.dirConsistent])
    · refine ⟨out.map (fun e => e.target), ?_⟩
      show g.getNeighbors u = _
      unfold DirectedGraph.getNeighbors
      rw [hn]
    · exact absurd hcons (by simp [PNode.undConsistent, PNode.dirConsistent])
  · intro u l h nd hnd
    rcases dir_getNeighbors_ok hwf h with ⟨d, out, inc, _, _, hout, hl⟩
    rw [hl, hout] at hnd
    rcases List.mem_map.1 hnd with ⟨e, he, rfl⟩
    exact dir_edge_target_mem hwf (List.mem_of_mem_filter he)
  · intro u l h nd hnd
    rcases dir_getNeighbors_ok hwf h with ⟨d, out, inc, _, hid, hout, hl⟩
    rw [hl, hout] at hnd
    rcases List.mem_map.1 hnd with ⟨e, he, rfl⟩
    have hsrc : e.source.id = u := by
      have := List.of_mem_filter he
      simpa [hid] using this
    exact dir_edgeWeightBetween_isSome hwf (List.mem_of_mem_filter he) hsrc rfl
  · intro u v w h
    rcases dir_edgeWeightBetween_some hwf h with ⟨e, he, hs, ht, hw⟩
    exact ⟨e, he, hs, ht, hw⟩
  · intro u l h v w hw
    rcases dir_edgeWeightBetween_some hwf hw with ⟨e, he, hs, ht, _⟩
    rcases dir_getNeighbors_ok hwf h with ⟨d, out, inc, _, hid, hout, hl⟩
    refine ⟨e.target, ?_, ht⟩
    rw [hl, hout]
    exact List.mem_map.2 ⟨e, List.mem_filter.2 ⟨he, by simp [hid, hs]⟩, rfl⟩
  · intro u l h v w hw
    rcases hw with ⟨e, he, hs, ht, _⟩
    rcases dir_getNeighbors_ok hwf h with ⟨d, out, inc, _, hid, hout, hl⟩
    refine ⟨e.target, ?_, ht⟩
    rw [hl, hout]
    exact List.mem_map.2 ⟨e, List.mem_filter.2 ⟨he, by simp [hid, hs]⟩, rfl⟩
  · intro u v w h
    rcases h with ⟨e, he, hs, ht, _⟩
    exact ⟨hs ▸ dir_edge_source_mem hwf he, ht ▸ dir_edge_target_mem hwf he⟩
  · intro u l h nd hnd
    rcases dir_getNeighbors_ok hwf h with ⟨d, out, inc, _, _, hout, hl⟩
    rw [hl, hout] at hnd
    rcases List.mem_map.1 hnd with ⟨e, he, rfl⟩
    rcases (hwf.2.2.1 e (List.mem_of_mem_filter he)).2 with ⟨n, hn, hd⟩
    exact ⟨n, hn, hd⟩

lemma PGraph.good_of_wf {G : PGraph} (hwf : G.WF) : Good G := by
  cases G with
  | dir g => exact good_dir hwf
  | und g => exact good_und hwf

lemma step_nonneg_of_nonnegWeights {G : PGraph} (h : G.nonnegWeights) :
    ∀ u v w, G.EdgeStep u v w → 0 ≤ w := by
  intro u v w hs
  cases G with
  | dir g =>
      rcases hs with ⟨e, he, _, _, hw⟩
      exact hw ▸ h e he
  | und g =>
      rcases hs with ⟨e, he, _, hw⟩
      exact hw ▸ h e he

lemma allCoords_nodesList {G : PGraph} (h : G.allCoords) :
    ∀ n ∈ G.nodesList, n.data.x.isSome ∧ n.data.y.isSome := by
  cases G with
  | dir g => exact h
  | und g => exact h

lemma step_w_of_noParallel {G : PGraph} (hwf : G.WF)
    (hnp : G.noParallelWeights) :
    ∀ u v w, G.EdgeStep u v w → G.edgeWeightBetween u v = some w := by
  intro u v w hs
  cases G with
  | dir g =>
      rcases hs with ⟨e, he, hsrc, htgt, hw⟩
      rcases dir_edgeWeightBetween_isSome hwf he hsrc htgt with ⟨w', hw'⟩
      rcases dir_edgeWeightBetween_some hwf hw' with ⟨e', he', hsrc', htgt', hwe'⟩
      rw [hw']
      have : e.weight = e'.weight :=
        hnp e he e' he' (by rw [hsrc, hsrc']) (by rw [htgt, htgt'])
      rw [← hwe', ← this, hw]
  | und g =>
      rcases hs with ⟨e, he, hn, hw⟩
      rcases und_edgeWeightBetween_isSome hwf he hn with ⟨w', hw'⟩
      rcases und_edgeWeightBetween_some hw' with ⟨e', he', hn', hwe'⟩
      rw [hw']
      have : e.weight = e'.weight := by
        refine hnp e he e' he' ?_
        rcases hn with ⟨h1, h2⟩ | ⟨h1, h2⟩ <;>
          rcases hn' with ⟨h1', h2'⟩ | ⟨h1', h2'⟩
        · exact Or.inl ⟨by rw [h1, h1'], by rw [h2, h2']⟩
        · exact Or.inr ⟨by rw [h1, h2'], by rw [h2, h1']⟩
        · exact Or.inr ⟨by rw [h1, h2'], by rw [h2, h1']⟩
        · exact Or.inl ⟨by rw [h1, h1'], by rw [h2, h2']⟩
      rw [← hwe', ← this, hw]

lemma Good.w_nonneg {G : PGraph} (HG : Good G) (hnn : G.nonnegWeights) :
    ∀ u v w, G.edgeWeightBetween u v = some w → 0 ≤ w := fun u v w h =>
  step_nonneg_of_nonnegWeights hnn u v w (HG.w_step u v w h)

lemma Good.nbr_coords {G : PGraph} (HG : Good G) (hc : G.allCoords) :
    ∀ u l, G.getNeighbors u = .ok l → ∀ nd ∈ l,
      nd.x.isSome ∧ nd.y.isSome := by
  intro u l h nd hnd
  rcases HG.nbr_data u l h nd hnd with ⟨n, hn, hd⟩
  have := allCoords_nodesList hc n hn
  rw [hd] at this
  exact this

lemma PGraph.getNode_coords {G : PGraph} {i : Nat} {n : PNode}
    (h : G.getNode i = some n) (hc : G.allCoords) :
    n.data.x.isSome ∧ n.data.y.isSome := by
  cases G with
  | dir g =>
      exact allCoords_nodesList hc n (dir_getNode_mem h).1
  | und g =>
      exact allCoords_nodesList hc n (und_getNode_mem h).1

/-! #### The cut/interception argument shared by both searches -/

/-- If every "finished" node has optimal distance and has had its out-edges
relaxed towards unfinished nodes, then every path from `s` to an
unfinished node is intercepted: some unfinished node already carries a
finite distance no larger than the path's cost. -/
lemma intercept {G : PGraph} (Hnn : ∀ u v w, G.EdgeStep u v w → 0 ≤ w)
    {s : Nat} {dst : Nat → WithTop ℚ} {Vis : Nat → Prop}
    (hrel : ∀ u, Vis u → ∀ v w, G.EdgeStep u v w → ¬Vis v →
      dst v ≤ dst u + (w : WithTop ℚ))
    (hlb : ∀ u, Vis u → ∀ c : ℚ, CostPath G s u c → dst u ≤ (c : WithTop ℚ))
    (hs0 : dst s = 0) :
    ∀ v (c : ℚ), CostPath G s v c → ¬Vis v →
      ∃ z, ¬Vis z ∧ ∃ cz : ℚ, dst z = (cz : WithTop ℚ) ∧ cz ≤ c := by
  have aux : ∀ u v (c : ℚ), CostPath G u v c → ¬Vis v → Vis u →
      ∀ cu : ℚ, CostPath G s u cu →
        ∃ z, ¬Vis z ∧ ∃ cz : ℚ, dst z = (cz : WithTop ℚ) ∧ cz ≤ cu + c := by
    intro u v c hp
    induction hp with
    | refl x => intro hnv hv _ _; exact absurd hv hnv
    | cons hstep htail ih =>
        rename_i x m t w c'
        intro hnv hvx cu hpre
        have hpre' : CostPath G s m (cu + w) := hpre.snoc hstep
        by_cases hvm : Vis m
        · rcases ih hnv hvm (cu + w) hpre' with ⟨z, hz, cz, hcz, hle⟩
          refine ⟨z, hz, cz, hcz, ?_⟩
          calc cz ≤ (cu + w) + c' := hle
            _ = cu + (w + c') := by ring
        · have h1 : dst m ≤ dst x + (w : WithTop ℚ) := hrel x hvx m w hstep hvm
          have h2 : dst x ≤ (cu : WithTop ℚ) := hlb x hvx cu hpre
          have h3 : dst m ≤ ((cu + w : ℚ) : WithTop ℚ) := by
            calc dst m ≤ dst x + (w : WithTop ℚ) := h1
              _ ≤ (cu : WithTop ℚ) + (w : WithTop ℚ) := add_le_add_right h2 _
              _ = ((cu + w : ℚ) : WithTop ℚ) := by exact_mod_cast rfl
          rcases WithTop.le_coe_iff.1 h3 with ⟨cm, hcm, hcmle⟩
          refine ⟨m, hvm, cm, hcm, ?_⟩
          have hc' : 0 ≤ c' := htail.nonneg Hnn
          calc cm ≤ cu + w := hcmle
            _ ≤ cu + (w + c') := by linarith
  intro v c hp hnv
  by_cases hvs : Vis s
  · rcases aux s v c hp hnv hvs 0 (CostPath.refl s) with ⟨z, hz, cz, hcz, hle⟩
    exact ⟨z, hz, cz, hcz, by linarith⟩
  · exact ⟨s, hvs, 0, hs0, hp.nonneg Hnn⟩

/-! #### Soundness of the Dijkstra relaxation pass -/

lemma relaxD_cons_some {G : PGraph} {u : Nat} {nd : NodeData} {w : ℚ}
    (h : G.edgeWeightBetween u nd.id = some w) (rest : List NodeData)
    (dist : Nat → WithTop ℚ) (pred : Nat → Option Nat)
    (queue : List (WithTop ℚ × Nat)) :
    relaxD G u (nd :: rest) dist pred queue =
      (if dist u + (w : WithTop ℚ) < dist nd.id then
        relaxD G u rest
          (fun i => if i = nd.id then dist u + (w : WithTop ℚ) else dist i)
          (fun i => if i = nd.id then some u else pred i)
          (queue ++ [(dist u + (w : WithTop ℚ), nd.id)])
      else relaxD G u rest dist pred queue) := by
  have h0 : relaxD G u (nd :: rest) dist pred queue =
      (match G.edgeWeightBetween u nd.id with
       | none => none
       | some w =>
         if dist u + (w : WithTop ℚ) < dist nd.id then
           relaxD G u rest
             (fun i => if i = nd.id then dist u + (w : WithTop ℚ) else dist i)
             (fun i => if i = nd.id then some u else pred i)
             (queue ++ [(dist u + (w : WithTop ℚ), nd.id)])
         else relaxD G u rest dist pred queue) := rfl
  rw [h0, h]

lemma relaxD_sound {G : PGraph}
    (Hnn : ∀ u v w, G.edgeWeightBetween u v = some w → 0 ≤ w) {u : Nat} :
    ∀ (nbrs : List NodeData) (dist : Nat → WithTop ℚ)
      (pred : Nat → Option Nat) (queue : List (WithTop ℚ × Nat)),
      (∀ nd ∈ nbrs, ∃ w, G.edgeWeightBetween u nd.id = some w) →
      ∃ dist' pred' queue',
        relaxD G u nbrs dist pred queue = some (dist', pred', queue') ∧
        RelaxDOut G u nbrs dist queue dist' queue' := by
  intro nbrs
  induction nbrs with
  | nil =>
      intro dist pred queue _
      refine ⟨dist, pred, queue, rfl, ?_⟩
      exact {
        mono := fun v => le_refl _
        same_u := rfl
        pointwise := fun v => Or.inl rfl
        relaxed := fun nd hnd => absurd hnd (List.not_mem_nil nd)
        qold := fun e he => he
        qnew := fun e he => Or.inl he
        qlen := by simp }
  | cons nd rest ih =>
      intro dist pred queue hw
      rcases hw nd (List.mem_cons_self nd rest) with ⟨w, hwnd⟩
      have hw0 : 0 ≤ w := Hnn _ _ _ hwnd
      have hrest : ∀ nd' ∈ rest, ∃ w', G.edgeWeightBetween u nd'.id = some w' :=
        fun nd' h => hw nd' (List.mem_cons_of_mem nd h)
      rw [relaxD_cons_some hwnd rest dist pred queue]
      by_cases hlt : dist u + (w : WithTop ℚ) < dist nd.id
      · rw [if_pos hlt]
        set pot := dist u + (w : WithTop ℚ) with hpot
        set dist₁ := fun i => if i = nd.id then pot else dist i with hdist₁
        have hd₁u : dist₁ u = dist u := by
          by_cases hu : u = nd.id
          · exfalso
            have hle : dist nd.id ≤ pot := by
              rw [hpot, hu]
              exact le_add_of_nonneg_right (by exact_mod_cast hw0)
            exact absurd hlt (not_lt.2 hle)
          · rw [hdist₁]
            simp [hu]
        rcases ih dist₁ (fun i => if i = nd.id then some u else pred i)
            (queue ++ [(pot, nd.id)]) hrest with
          ⟨dist', pred', queue', heq, hout⟩
        refine ⟨dist', pred', queue', heq, ?_⟩
        have hmono₁ : ∀ v, dist₁ v ≤ dist v := by
          intro v
          rw [hdist₁]
          by_cases hv : v = nd.id
          · simp only [hv, if_pos rfl]
            exact le_of_lt (hv ▸ hlt)
          · simp [hv]
        refine {
          mono := fun v => (hout.mono v).trans (hmono₁ v)
          same_u := by rw [hout.same_u, hd₁u]
          pointwise := ?_
          relaxed := ?_
          qold := fun e he => hout.qold e (List.mem_append_left _ he)
          qnew := ?_
          qlen := by
            have h1 := hout.qlen
            simp only [List.length_append, List.length_cons, List.length_nil] at h1 ⊢
            omega }
        · intro v
          rcases hout.pointwise v with hsame | ⟨hq, w', hw', heqv, hlt'⟩
          · by_cases hv : v = nd.id
            · subst hv
              refine Or.inr ⟨?_, w, hwnd, ?_, ?_⟩
              · rw [hsame, hdist₁]
                simp only [if_pos rfl]
                exact hout.qold _ (List.mem_append_right _ (List.mem_singleton_self _))
              · rw [hsame, hdist₁]
                simp [hpot]
              · rw [hsame, hdist₁]
                simpa using hlt
            · refine Or.inl ?_
              rw [hsame, hdist₁]
              simp [hv]
          · refine Or.inr ⟨hq, w', hw', ?_, hlt'.trans_le (hmono₁ v)⟩
            rw [heqv, hd₁u]
        · intro nd' hnd' w' hw'
          rcases List.mem_cons.1 hnd' with rfl | hnd'
          · rw [hwnd] at hw'
            cases Option.some.inj hw'
            calc dist' nd'.id ≤ dist₁ nd'.id := hout.mono _
              _ = pot := by rw [hdist₁]; simp
              _ = dist u + (w : WithTop ℚ) := rfl
          · have := hout.relaxed nd' hnd' w' hw'
            rw [hd₁u] at this
            exact this
        · intro e he
          rcases hout.qnew e he with hold | ⟨hb, ht, nd', hnd', hid⟩
          · rcases List.mem_append.1 hold with h1 | h1
            · exact Or.inl h1
            · rcases List.mem_singleton.1 h1 with rfl
              refine Or.inr ⟨?_, ?_, nd, List.mem_cons_self nd rest, rfl⟩
              · show dist' nd.id ≤ pot
                calc dist' nd.id ≤ dist₁ nd.id := hout.mono _
                  _ = pot := by rw [hdist₁]; simp
              · show pot ≠ ⊤
                intro htop
                rw [htop] at hlt
                exact absurd hlt (by simp)
          · exact Or.inr ⟨hb, ht, nd', List.mem_cons_of_mem nd hnd', hid⟩
      · rw [if_neg hlt]
        rcases ih dist pred queue hrest with ⟨dist', pred', queue', heq, hout⟩
        refine ⟨dist', pred', queue', heq, ?_⟩
        refine {
          mono := hout.mono
          same_u := hout.same_u
          pointwise := hout.pointwise
          relaxed := ?_
          qold := hout.qold
          qnew := ?_
          qlen := hout.qlen.trans (by simp) }
        · intro nd' hnd' w' hw'
          rcases List.mem_cons.1 hnd' with rfl | hnd'
          · rw [hwnd] at hw'
            cases Option.some.inj hw'
            calc dist' nd'.id ≤ dist nd'.id := hout.mono _
              _ ≤ dist u + (w : WithTop ℚ) := not_lt.1 hlt
          · exact hout.relaxed nd' hnd' w' hw'
        · intro e he
          rcases hout.qnew e he with h1 | ⟨hb, ht, nd', hnd', hid⟩
          · exact Or.inl h1
          · exact Or.inr ⟨hb, ht, nd', List.mem_cons_of_mem nd hnd', hid⟩

/-! #### The Dijkstra loop invariant: stale pops and fresh visits -/

lemma DInv.stale {G : PGraph} {s : Nat} {dist : Nat → WithTop ℚ}
    {queue rest : List (WithTop ℚ × Nat)} {unvisited : List Nat}
    {d₀ : WithTop ℚ} {u : Nat}
    (inv : DInv G s dist queue unvisited)
    (hpop : popMin queue = some ((d₀, u), rest)) (hu : u ∉ unvisited) :
    DInv G s dist rest unvisited :=
  { inv with
    qbound := fun e he => inv.qbound e (popMin_rest_subset hpop e he)
    qexact := by
      intro v hv hne
      refine popMin_rest_mem hpop _ (inv.qexact v hv hne) ?_
      intro hcontra
      have : v = u := congrArg Prod.snd hcontra
      exact hu (this ▸ hv) }

/-- At a fresh pop the popped node's distance is already optimal. -/
lemma dijkstra_settles {G : PGraph} (HG : Good G)
    (Hnn : ∀ u v w, G.EdgeStep u v w → 0 ≤ w)
    {s : Nat} (hs : s ∈ G.nodeIds) {dist : Nat → WithTop ℚ}
    {queue rest : List (WithTop ℚ × Nat)} {unvisited : List Nat}
    {d₀ : WithTop ℚ} {u : Nat}
    (inv : DInv G s dist queue unvisited)
    (hpop : popMin queue = some ((d₀, u), rest)) (hu : u ∈ unvisited) :
    ∃ du : ℚ, dist u = (du : WithTop ℚ) ∧ IsLeast (costSet G s u) du := by
  rcases popMin_some hpop with ⟨hmem, _, hmin⟩
  rcases inv.qbound _ hmem with ⟨hb, htop, humem⟩
  rcases WithTop.ne_top_iff_exists.1 htop with ⟨dq, hdq⟩
  have hb' : dist u ≤ (dq : WithTop ℚ) := by rw [hdq]; exact hb
  rcases WithTop.le_coe_iff.1 hb' with ⟨du, hdu, _⟩
  have hlow : ∀ c ∈ costSet G s u, du ≤ c := by
    intro c hc
    have hint := @intercept G Hnn s dist (fun v => v ∉ unvisited)
      (fun u' hv v w hstep _ =>
        inv.relaxed u' (HG.step_mem u' v w hstep).1 hv v w hstep)
      (fun u' hv c' hc' => by
        by_cases hid : u' ∈ G.nodeIds
        · rcases inv.settled u' hid hv with ⟨cu, hcu, hleast⟩
          rw [hcu]
          exact_mod_cast hleast.2 hc'
        · by_cases hsu : s = u'
          · exact absurd (hsu ▸ hs) hid
          · rcases hc'.last_step hsu with ⟨x, w, hstep⟩
            exact absurd (HG.step_mem x u' w hstep).2 hid)
      inv.dist_s u c hc (by simpa using hu)
    rcases hint with ⟨z, hz, cz, hcz, hle⟩
    have hzu : z ∈ unvisited := by simpa using hz
    have hq := inv.qexact z hzu (by rw [hcz]; exact WithTop.coe_ne_top)
    rw [hcz] at hq
    have hd₀ : d₀ ≤ (cz : WithTop ℚ) := hmin _ hq
    have : dist u ≤ (cz : WithTop ℚ) := le_trans hb hd₀
    rw [hdu] at this
    have : du ≤ cz := by exact_mod_cast this
    linarith
  exact ⟨du, hdu, ⟨inv.ach u du hdu, hlow⟩⟩

/-- Visiting a fresh node preserves the loop invariant. -/
lemma dijkstra_fresh_step {G : PGraph} (HG : Good G)
    (HP : ∀ u v w, G.EdgeStep u v w → G.edgeWeightBetween u v = some w)
    (Hnn : ∀ u v w, G.EdgeStep u v w → 0 ≤ w)
    {s : Nat} (hs : s ∈ G.nodeIds) {dist : Nat → WithTop ℚ}
    {queue rest : List (WithTop ℚ × Nat)} {unvisited : List Nat}
    {d₀ : WithTop ℚ} {u : Nat} {nbrs : List NodeData}
    (inv : DInv G s dist queue unvisited)
    (hpop : popMin queue = some ((d₀, u), rest)) (hu : u ∈ unvisited)
    (hnb : G.getNeighbors u = .ok nbrs) (pred : Nat → Option Nat) :
    ∃ dist₁ pred₁ queue₁,
      relaxD G u nbrs dist pred rest = some (dist₁, pred₁, queue₁) ∧
      DInv G s dist₁ queue₁ (unvisited.erase u) ∧
      queue₁.length ≤ rest.length + nbrs.length := by
  have HnnW : ∀ u' v w, G.edgeWeightBetween u' v = some w → 0 ≤ w :=
    fun u' v w h => Hnn u' v w (HG.w_step u' v w h)
  rcases dijkstra_settles HG Hnn hs inv hpop hu with ⟨du, hdu, hleast⟩
  rcases relaxD_sound HnnW nbrs dist pred rest (HG.nbr_w u nbrs hnb) with
    ⟨dist₁, pred₁, queue₁, heq, out⟩
  have hnonneg₁ : ∀ v, 0 ≤ dist₁ v := by
    intro v
    rcases out.pointwise v with hsame | ⟨_, w, hw, heqv, _⟩
    · rw [hsame]; exact inv.dist_nonneg v
    · rw [heqv]
      exact add_nonneg (inv.dist_nonneg u) (by exact_mod_cast HnnW _ _ _ hw)
  have hach₁ : ∀ v (c : ℚ), dist₁ v = (c : WithTop ℚ) → CostPath G s v c := by
    intro v c hc
    rcases out.pointwise v with hsame | ⟨_, w, hw, heqv, _⟩
    · exact inv.ach v c (hsame ▸ hc)
    · have : dist₁ v = ((du + w : ℚ) : WithTop ℚ) := by
        rw [heqv, hdu]
        exact_mod_cast rfl
      rw [hc] at this
      have hcw : c = du + w := by exact_mod_cast this
      rw [hcw]
      exact (inv.ach u du hdu).snoc (HG.w_step _ _ _ hw)
  have hkeep : ∀ v ∈ G.nodeIds, v ∉ unvisited → dist₁ v = dist v := by
    intro v hv hnv
    rcases out.pointwise v with hsame | ⟨_, w, hw, heqv, hlt⟩
    · exact hsame
    · exfalso
      rcases inv.settled v hv hnv with ⟨c, hc, hle⟩
      have hach : (du + w) ∈ costSet G s v :=
        (inv.ach u du hdu).snoc (HG.w_step _ _ _ hw)
      have h1 : c ≤ du + w := hle.2 hach
      have h2 : dist₁ v = ((du + w : ℚ) : WithTop ℚ) := by
        rw [heqv, hdu]
        exact_mod_cast rfl
      rw [h2, hc] at hlt
      have : (du + w : ℚ) < c := by exact_mod_cast hlt
      linarith
  refine ⟨dist₁, pred₁, queue₁, heq, ?_, ?_⟩
  · refine {
      unvis_sub := fun v hv => inv.unvis_sub v (List.mem_of_mem_erase hv)
      unvis_nodup := inv.unvis_nodup.erase u
      dist_s := le_antisymm (by rw [← inv.dist_s]; exact out.mono s) (hnonneg₁ s)
      dist_nonneg := hnonneg₁
      ach := hach₁
      settled := ?_
      relaxed := ?_
      qbound := ?_
      qexact := ?_ }
    · intro v hv hnv
      by_cases hvu : v = u
      · subst hvu
        exact ⟨du, by rw [out.same_u, hdu], hleast⟩
      · have hnv' : v ∉ unvisited := by
          intro hcontra
          exact hnv ((List.mem_erase_of_ne hvu).2 hcontra)
        rcases inv.settled v hv hnv' with ⟨c, hc, hle⟩
        exact ⟨c, by rw [hkeep v hv hnv', hc], hle⟩
    · intro u' hu' hnu' v w hstep
      by_cases huu : u' = u
      · subst huu
        rcases HG.step_cover u' nbrs hnb v w hstep with ⟨nd, hnd, hid⟩
        have := out.relaxed nd hnd w (hid ▸ HP u' v w hstep)
        rw [hid] at this
        rw [out.same_u]
        exact this
      · have hnu'' : u' ∉ unvisited := by
          intro hcontra
          exact hnu' ((List.mem_erase_of_ne huu).2 hcontra)
        have h1 := inv.relaxed u' hu' hnu'' v w hstep
        calc dist₁ v ≤ dist v := out.mono v
          _ ≤ dist u' + (w : WithTop ℚ) := h1
          _ = dist₁ u' + (w : WithTop ℚ) := by rw [hkeep u' hu' hnu'']
    · intro e he
      rcases out.qnew e he with hold | ⟨hb, ht, nd, hnd, hid⟩
      · rcases inv.qbound e (popMin_rest_subset hpop e hold) with ⟨h1, h2, h3⟩
        exact ⟨(out.mono e.2).trans h1, h2, h3⟩
      · exact ⟨hb, ht, hid ▸ HG.nbr_mem u nbrs hnb nd hnd⟩
    · intro v hv hne
      have hvu : v ≠ u := by
        intro hcontra
        subst hcontra
        exact (List.Nodup.not_mem_erase inv.unvis_nodup) hv
      have hv' : v ∈ unvisited := List.mem_of_mem_erase hv
      rcases out.pointwise v with hsame | ⟨hq, _, _, _, _⟩
      · rw [hsame]
        rw [hsame] at hne
        have h1 := inv.qexact v hv' hne
        refine out.qold _ (popMin_rest_mem hpop _ h1 ?_)
        intro hcontra
        exact hvu (congrArg Prod.snd hcontra)
      · exact hq
  · have h1 := out.qlen
    omega

lemma dijkstraLoop_empty {G : PGraph} {fuel : Nat} {dist : Nat → WithTop ℚ}
    {pred : Nat → Option Nat} {queue : List (WithTop ℚ × Nat)}
    {unvisited : List Nat} (hemp : unvisited.isEmpty) :
    dijkstraLoop G (fuel + 1) dist pred queue unvisited = .ok (dist, pred) := by
  rw [dijkstraLoop_succ, if_pos hemp]

lemma dijkstraLoop_exhausted {G : PGraph} {fuel : Nat} {dist : Nat → WithTop ℚ}
    {pred : Nat → Option Nat} {queue : List (WithTop ℚ × Nat)}
    {unvisited : List Nat} (hemp : ¬unvisited.isEmpty)
    (hpop : popMin queue = none) :
    dijkstraLoop G (fuel + 1) dist pred queue unvisited = .exn := by
  rw [dijkstraLoop_succ, if_neg hemp]
  simp only [hpop]

lemma dijkstraLoop_stale {G : PGraph} {fuel : Nat} {dist : Nat → WithTop ℚ}
    {pred : Nat → Option Nat} {queue rest : List (WithTop ℚ × Nat)}
    {unvisited : List Nat} {d₀ : WithTop ℚ} {u : Nat}
    (hemp : ¬unvisited.isEmpty) (hpop : popMin queue = some ((d₀, u), rest))
    (hu : u ∉ unvisited) :
    dijkstraLoop G (fuel + 1) dist pred queue unvisited =
      dijkstraLoop G fuel dist pred rest unvisited := by
  rw [dijkstraLoop_succ, if_neg hemp]
  simp only [hpop, if_neg hu]

lemma dijkstraLoop_fresh {G : PGraph} {fuel : Nat} {dist dist₁ : Nat → WithTop ℚ}
    {pred pred₁ : Nat → Option Nat} {queue rest queue₁ : List (WithTop ℚ × Nat)}
    {unvisited : List Nat} {d₀ : WithTop ℚ} {u : Nat} {nbrs : List NodeData}
    (hemp : ¬unvisited.isEmpty) (hpop : popMin queue = some ((d₀, u), rest))
    (hu : u ∈ unvisited) (hnb : G.getNeighbors u = .ok nbrs)
    (hrel : relaxD G u nbrs dist pred rest = some (dist₁, pred₁, queue₁)) :
    dijkstraLoop G (fuel + 1) dist pred queue unvisited =
      dijkstraLoop G fuel dist₁ pred₁ queue₁ (unvisited.erase u) := by
  rw [dijkstraLoop_succ, if_neg hemp]
  simp only [hpop, if_pos hu, hnb, hrel]

lemma sum_map_erase {l : List Nat} {u : Nat} (f : Nat → Nat) (hu : u ∈ l) :
    (l.map f).sum = f u + ((l.erase u).map f).sum := by
  have hperm : List.Perm l (u :: l.erase u) := List.perm_cons_erase hu
  calc (l.map f).sum = ((u :: l.erase u).map f).sum := (hperm.map f).sum_eq
    _ = f u + ((l.erase u).map f).sum := by simp

/-- Whenever the Dijkstra loop returns normally from an invariant state,
every node of the graph is assigned its exact shortest-path distance. -/
lemma dijkstraLoop_ok {G : PGraph} (HG : Good G)
    (HP : ∀ u v w, G.EdgeStep u v w → G.edgeWeightBetween u v = some w)
    (Hnn : ∀ u v w, G.EdgeStep u v w → 0 ≤ w)
    {s : Nat} (hs : s ∈ G.nodeIds) :
    ∀ (fuel : Nat) (dist : Nat → WithTop ℚ) (pred : Nat → Option Nat)
      (queue : List (WithTop ℚ × Nat)) (unvisited : List Nat),
      DInv G s dist queue unvisited →
      ∀ (dist' : Nat → WithTop ℚ) (pred' : Nat → Option Nat),
        dijkstraLoop G fuel dist pred queue unvisited = .ok (dist', pred') →
        ∀ v ∈ G.nodeIds, ∃ c : ℚ, dist' v = (c : WithTop ℚ) ∧
          IsLeast (costSet G s v) c := by
  intro fuel
  induction fuel with
  | zero => intro dist pred queue unvisited _ dist' pred' h; cases h
  | succ fuel ih =>
      intro dist pred queue unvisited inv dist' pred' h
      by_cases hemp : unvisited.isEmpty
      · rw [dijkstraLoop_empty hemp] at h
        have h1 : dist = dist' := congrArg Prod.fst (Res.ok.inj h)
        intro v hv
        have hnot : v ∉ unvisited := by
          rcases List.isEmpty_iff.1 hemp with rfl
          exact List.not_mem_nil v
        rcases inv.settled v hv hnot with ⟨c, hc, hle⟩
        exact ⟨c, h1 ▸ hc, hle⟩
      · rcases hpop : popMin queue with _ | ⟨⟨d₀, u⟩, rest⟩
        · rw [dijkstraLoop_exhausted hemp hpop] at h
          cases h
        by_cases hu : u ∈ unvisited
        · rcases hnb : G.getNeighbors u with err | nbrs
          · rw [dijkstraLoop_succ, if_neg hemp] at h
            simp only [hpop, if_pos hu, hnb] at h
            cases h
          · rcases dijkstra_fresh_step HG HP Hnn hs inv hpop hu hnb pred with
              ⟨dist₁, pred₁, queue₁, heq, inv₁, _⟩
            rw [dijkstraLoop_fresh hemp hpop hu hnb heq] at h
            exact ih dist₁ pred₁ queue₁ (unvisited.erase u) inv₁ dist' pred' h
        · rw [dijkstraLoop_stale hemp hpop hu] at h
          exact ih dist pred rest unvisited (inv.stale hpop hu) dist' pred' h

/-- With every unvisited node reachable and enough fuel, the Dijkstra loop
returns normally. -/
lemma dijkstraLoop_total {G : PGraph} (HG : Good G)
    (HP : ∀ u v w, G.EdgeStep u v w → G.edgeWeightBetween u v = some w)
    (Hnn : ∀ u v w, G.EdgeStep u v w → 0 ≤ w)
    {s : Nat} (hs : s ∈ G.nodeIds) :
    ∀ (fuel : Nat) (dist : Nat → WithTop ℚ) (pred : Nat → Option Nat)
      (queue : List (WithTop ℚ × Nat)) (unvisited : List Nat),
      DInv G s dist queue unvisited →
      (∀ v ∈ unvisited, G.Reachable s v) →
      queue.length + ((unvisited.map (nbrLen G)).sum) < fuel →
      ∃ dist' pred',
        dijkstraLoop G fuel dist pred queue unvisited = .ok (dist', pred') := by
  intro fuel
  induction fuel with
  | zero => intro dist pred queue unvisited _ _ hlt; omega
  | succ fuel ih =>
      intro dist pred queue unvisited inv hreach hfuel
      by_cases hemp : unvisited.isEmpty
      · rw [dijkstraLoop_empty hemp]
        exact ⟨dist, pred, rfl⟩
      · have hne : unvisited ≠ [] := fun hcontra => hemp (by rw [hcontra]; rfl)
        have hv₀ex : ∃ v₀, v₀ ∈ unvisited := by
          cases unvisited with
          | nil => exact absurd rfl hne
          | cons a tl => exact ⟨a, List.mem_cons_self a tl⟩
        rcases hv₀ex with ⟨v₀, hv₀⟩
        rcases hreach v₀ hv₀ with ⟨c₀, hc₀⟩
        have hint := @intercept G Hnn s dist (fun v => v ∉ unvisited)
          (fun u' hv v w hstep _ =>
            inv.relaxed u' (HG.step_mem u' v w hstep).1 hv v w hstep)
          (fun u' hv c' hc' => by
            by_cases hid : u' ∈ G.nodeIds
            · rcases inv.settled u' hid hv with ⟨cu, hcu, hleast⟩
              rw [hcu]
              exact_mod_cast hleast.2 hc'
            · by_cases hsu : s = u'
              · exact absurd (hsu ▸ hs) hid
              · rcases hc'.last_step hsu with ⟨x, w, hstep⟩
                exact absurd (HG.step_mem x u' w hstep).2 hid)
          inv.dist_s v₀ c₀ hc₀ (by simpa using hv₀)
        rcases hint with ⟨z, hz, cz, hcz, _⟩
        have hzu : z ∈ unvisited := by simpa using hz
        have hq := inv.qexact z hzu (by rw [hcz]; exact WithTop.coe_ne_top)
        have hqne : queue ≠ [] := List.ne_nil_of_mem hq
        rcases hpop : popMin queue with _ | ⟨⟨d₀, u⟩, rest⟩
        · exact absurd (popMin_none.1 hpop) hqne
        have hlen := popMin_length hpop
        by_cases hu : u ∈ unvisited
        · rcases hnb : G.getNeighbors u with err | nbrs
          · rcases HG.nbr_ok u (inv.unvis_sub u hu) with ⟨l, hl⟩
            rw [hl] at hnb
            cases hnb
          rcases dijkstra_fresh_step HG HP Hnn hs inv hpop hu hnb pred with
            ⟨dist₁, pred₁, queue₁, heq, inv₁, hq₁⟩
          rw [dijkstraLoop_fresh hemp hpop hu hnb heq]
          refine ih dist₁ pred₁ queue₁ (unvisited.erase u) inv₁
            (fun v hv => hreach v (List.mem_of_mem_erase hv)) ?_
          have hsum := sum_map_erase (nbrLen G) hu
          have hnlen : nbrs.length = nbrLen G u := by
            unfold nbrLen
            rw [hnb]
          omega
        · rw [dijkstraLoop_stale hemp hpop hu]
          refine ih dist pred rest unvisited (inv.stale hpop hu) hreach ?_
          omega

/-! #### `find_shortest_paths`: assembly -/

lemma lookup_map_of_mem {α : Type} (f : Nat → α) :
    ∀ {ids : List Nat} {v : Nat}, v ∈ ids →
      List.lookup v (ids.map (fun i => (i, f i))) = some (f v) := by
  intro ids
  induction ids with
  | nil => intro v hv; cases hv
  | cons a tl ih =>
      intro v hv
      rcases List.mem_cons.1 hv with rfl | hv
      · simp [List.lookup_cons]
      · by_cases hva : v = a
        · subst hva
          simp [List.lookup_cons]
        · rw [List.map_cons, List.lookup_cons, beq_eq_false_iff_ne.2 hva]
          exact ih hv

lemma dijkstra_init_inv {G : PGraph} (HG : Good G) {s : Nat}
    (hs : s ∈ G.nodeIds) :
    DInv G s (fun i => if i = s then 0 else ⊤)
      [((0 : WithTop ℚ), s)] G.nodeIds := by
  refine {
    unvis_sub := fun v hv => hv
    unvis_nodup := HG.ids_nodup
    dist_s := if_pos rfl
    dist_nonneg := ?_
    ach := ?_
    settled := fun v hv hnv => absurd hv hnv
    relaxed := fun u hu hnu => absurd hu hnu
    qbound := ?_
    qexact := ?_ }
  · intro v
    by_cases hv : v = s <;> simp [hv]
  · intro v c hc
    by_cases hv : v = s
    · subst hv
      rw [if_pos rfl] at hc
      have : (0 : ℚ) = c := by exact_mod_cast hc
      rw [← this]
      exact CostPath.refl v
    · rw [if_neg hv] at hc
      exact absurd hc.symm WithTop.coe_ne_top
  · intro e he
    rcases List.mem_singleton.1 he with rfl
    refine ⟨?_, by simp, hs⟩
    show (if s = s then (0 : WithTop ℚ) else ⊤) ≤ 0
    rw [if_pos rfl]
  · intro v hv hne
    by_cases hvs : v = s
    · subst hvs
      show ((if v = v then (0 : WithTop ℚ) else ⊤), v) ∈ _
      rw [if_pos rfl]
      exact List.mem_singleton_self _
    · rw [if_neg hvs] at hne
      exact absurd rfl hne

lemma totalNbrLen_eq (G : PGraph) :
    totalNbrLen G = ((G.nodeIds.map (nbrLen G)).sum) := rfl

/-- On a well-formed graph with weight-deterministic parallel edges and
non-negative weights, if every node is reachable from the source then
`find_shortest_paths` returns normally and reports, for every node, the
least path cost from the source. -/
lemma findShortestPaths_correct {G : PGraph} (hwf : G.WF)
    (hnp : G.noParallelWeights) (hnn : G.nonnegWeights) {s : Nat}
    (hs : s ∈ G.nodeIds) (hreach : ∀ v ∈ G.nodeIds, G.Reachable s v) :
    ∃ m, findShortestPaths G s = .ok m ∧
      ∀ v ∈ G.nodeIds, ∃ (c : ℚ) (pr : Option Nat),
        List.lookup v m = some ((c : WithTop ℚ), pr) ∧
        IsLeast (costSet G s v) c := by
  have HG := PGraph.good_of_wf hwf
  have HP := step_w_of_noParallel hwf hnp
  have Hnn := step_nonneg_of_nonnegWeights hnn
  have inv := dijkstra_init_inv HG hs
  have hfuel : [((0 : WithTop ℚ), s)].length +
      ((G.nodeIds.map (nbrLen G)).sum) < dijkstraFuel G := by
    rw [dijkstraFuel, totalNbrLen_eq]
    simp only [List.length_cons, List.length_nil]
    omega
  rcases dijkstraLoop_total HG HP Hnn hs (dijkstraFuel G) _ (fun _ => none) _ _
    inv (fun v hv => hreach v hv) hfuel with ⟨dist', pred', hloop⟩
  have hprops := dijkstraLoop_ok HG HP Hnn hs (dijkstraFuel G) _ _ _ _
    inv dist' pred' hloop
  refine ⟨G.nodeIds.map (fun i => (i, (dist' i, pred' i))), ?_, ?_⟩
  · unfold findShortestPaths
    rw [if_pos hs, hloop]
  · intro v hv
    rcases hprops v hv with ⟨c, hc, hle⟩
    exact ⟨c, pred' v,
      by rw [lookup_map_of_mem (fun i => (dist' i, pred' i)) hv, hc], hle⟩

/-- Whenever `find_shortest_paths` returns normally (on a well-formed
graph, weight-deterministic, non-negative) every node is reported with its
least path cost from the source — and is in particular reachable. -/
lemma dijkstra_ok_least {G : PGraph} (hwf : G.WF)
    (hnp : G.noParallelWeights) (hnn : G.nonnegWeights) {s : Nat}
    {m : List (Nat × (WithTop ℚ × Option Nat))}
    (h : findShortestPaths G s = .ok m) :
    s ∈ G.nodeIds ∧
      ∀ v ∈ G.nodeIds, ∃ (c : ℚ) (pr : Option Nat),
        List.lookup v m = some ((c : WithTop ℚ), pr) ∧
        IsLeast (costSet G s v) c := by
  have HG := PGraph.good_of_wf hwf
  have HP := step_w_of_noParallel hwf hnp
  have Hnn := step_nonneg_of_nonnegWeights hnn
  unfold findShortestPaths at h
  by_cases hs : s ∈ G.nodeIds
  · rw [if_pos hs] at h
    rcases hloop : dijkstraLoop G (dijkstraFuel G)
        (fun i => if i = s then 0 else ⊤) (fun _ => none)
        [((0 : WithTop ℚ), s)] G.nodeIds with ⟨dist', pred'⟩ | _ | _ <;>
      rw [hloop] at h
    · have hprops := dijkstraLoop_ok HG HP Hnn hs (dijkstraFuel G) _ _ _ _
        (dijkstra_init_inv HG hs) dist' pred' hloop
      have hm : m = G.nodeIds.map (fun i => (i, (dist' i, pred' i))) :=
        (Res.ok.inj h).symm
      refine ⟨hs, ?_⟩
      intro v hv
      rcases hprops v hv with ⟨c, hc, hle⟩
      refine ⟨c, pred' v, ?_, hle⟩
      rw [hm, lookup_map_of_mem (fun i => (dist' i, pred' i)) hv, hc]
    · cases h
    · cases h
  · rw [if_neg hs] at h
    cases h

/-! #### C1: Dijkstra computes shortest distances -/

/-- **C1 (amended).**  For every graph (of either variant) that is
well-formed, has non-negative weights, has at most one weight per
connected node pair (no parallel edges of differing weight), and in which
every node is reachable from `A` (without this the call raises instead of
returning — see C2), `find_shortest_paths(A)` returns normally and the
distance it reports for every node `B` is the least possible sum of edge
weights over the paths from `A` to `B`. -/
theorem dijkstra_distances_are_shortest (G : PGraph) (A : Nat)
    (hwf : G.WF) (hnp : G.noParallelWeights) (hnn : G.nonnegWeights)
    (hA : A ∈ G.nodeIds) (hreach : ∀ v ∈ G.nodeIds, G.Reachable A v) :
    ∃ m, findShortestPaths G A = .ok m ∧
      ∀ B ∈ G.nodeIds, ∃ (c : ℚ) (pr : Option Nat),
        List.lookup B m = some ((c : WithTop ℚ), pr) ∧
        IsLeast (costSet G A B) c :=
  findShortestPaths_correct hwf hnp hnn hA hreach

/-- **C1 counterexample.**  The claim fails as stated, on two counts.
(1) On the graph `gP` with two parallel edges 1→2 of weights 5 (inserted
first) and 1, node 2 is reachable from 1 and the least path cost is 1, yet
`find_shortest_paths(1)` reports distance 5: the relaxation looks the edge
up with `get_edge_between`, which returns the first inserted edge.
(2) On the graph `gQ` (edge 1→2, isolated node 3), node 2 is reachable
from 1, yet the call raises `IndexError` instead of returning any distance
for 2, because node 3 is unreachable (C2). -/
theorem dijkstra_claim_counterexample :
    (∃ m, findShortestPaths (.dir gP) 1 = .ok m ∧
      List.lookup 2 m = some ((5 : WithTop ℚ), some 1) ∧
      CostPath (.dir gP) 1 2 1 ∧
      ¬IsLeast (costSet (.dir gP) 1 2) 5) ∧
    ((PGraph.dir gQ).Reachable 1 2 ∧ findShortestPaths (.dir gQ) 1 = .exn) := by
  have hstepP : (PGraph.dir gP).EdgeStep 1 2 1 := by decide
  have hstepQ : (PGraph.dir gQ).EdgeStep 1 2 1 := by decide
  have hpath : CostPath (.dir gP) 1 2 1 := by
    have h1 : CostPath (.dir gP) 1 2 (1 + 0) :=
      CostPath.cons hstepP (CostPath.refl 2)
    simpa using h1
  refine ⟨⟨[(1, ((0 : WithTop ℚ), none)), (2, ((5 : WithTop ℚ), some 1))],
    by with_unfolding_all decide, by decide, hpath, ?_⟩, ⟨1 + 0,
      CostPath.cons hstepQ (CostPath.refl 2)⟩, by with_unfolding_all decide⟩
  intro hle
  have : (5 : ℚ) ≤ 1 := hle.2 hpath
  linarith

/-- **C1 witness**: on the A* test graph (all four nodes reachable from
node 1, single edges, weights 1, 2, 1) the amended theorem applies and
yields the shortest-distance map. -/
theorem dijkstra_distances_are_shortest_witness :
    ((PGraph.dir gM).WF ∧ (PGraph.dir gM).noParallelWeights ∧
      (PGraph.dir gM).nonnegWeights ∧ 1 ∈ (PGraph.dir gM).nodeIds) ∧
    (∃ m, findShortestPaths (.dir gM) 1 = .ok m ∧
      ∀ B ∈ (PGraph.dir gM).nodeIds, ∃ (c : ℚ) (pr : Option Nat),
        List.lookup B m = some ((c : WithTop ℚ), pr) ∧
        IsLeast (costSet (.dir gM) 1 B) c) := by
  have h12 : (PGraph.dir gM).EdgeStep 1 2 1 := by decide
  have h23 : (PGraph.dir gM).EdgeStep 2 3 2 := by decide
  have h34 : (PGraph.dir gM).EdgeStep 3 4 1 := by decide
  have hreach : ∀ v ∈ (PGraph.dir gM).nodeIds, (PGraph.dir gM).Reachable 1 v := by
    intro v hv
    have hids : (PGraph.dir gM).nodeIds = [1, 2, 3, 4] := by decide
    rw [hids] at hv
    have hv' : v = 1 ∨ v = 2 ∨ v = 3 ∨ v = 4 := by simpa using hv
    rcases hv' with rfl | rfl | rfl | rfl
    · exact ⟨0, CostPath.refl 1⟩
    · exact ⟨1 + 0, CostPath.cons h12 (CostPath.refl 2)⟩
    · exact ⟨1 + (2 + 0), CostPath.cons h12
        (CostPath.cons h23 (CostPath.refl 3))⟩
    · exact ⟨1 + (2 + (1 + 0)), CostPath.cons h12
        (CostPath.cons h23 (CostPath.cons h34 (CostPath.refl 4)))⟩
  exact ⟨⟨by decide, by decide, by decide, by decide⟩,
    dijkstra_distances_are_shortest (.dir gM) 1 (by decide) (by decide)
      (by decide) (by decide) hreach⟩

/-! #### The A* relaxation pass -/

lemma heuristic_zero_eq {sq : ℚ → ℚ} {a b : NodeData} (hax : a.x.isSome)
    (hay : a.y.isSome) (hbx : b.x.isSome) (hby : b.y.isSome) :
    heuristic sq .zero a b = some 0 := by
  rcases a with ⟨ia, ax, ay⟩
  rcases b with ⟨ib, bx, yb⟩
  cases ax <;> cases bx <;> cases ay <;> cases yb <;> simp_all [heuristic]

lemma heuristic_zero_val {sq : ℚ → ℚ} {a b : NodeData} {h : ℚ}
    (hh : heuristic sq .zero a b = some h) : h = 0 := by
  rcases a with ⟨ia, ax, ay⟩
  rcases b with ⟨ib, bx, yb⟩
  cases ax <;> cases bx <;> cases ay <;> cases yb <;> simp_all [heuristic]

lemma relaxA_cons_eq (G : PGraph) (sq : ℚ → ℚ) (ht : HeuristicType)
    (goalD : Option NodeData) (u : Nat) (closed : List Nat) (nd : NodeData)
    (rest : List NodeData) (g : Nat → WithTop ℚ) (pred : List (Nat × Nat))
    (queue : List (WithTop ℚ × Nat)) :
    relaxA G sq ht goalD u closed (nd :: rest) g pred queue =
      (if nd.id ∈ closed then relaxA G sq ht goalD u closed rest g pred queue
       else
        match G.edgeWeightBetween u nd.id with
        | none => none
        | some w =>
          if g u + (w : WithTop ℚ) < g nd.id then
            match goalD with
            | none => none
            | some gd =>
              match heuristic sq ht nd gd with
              | none => none
              | some hv =>
                  relaxA G sq ht goalD u closed rest
                    (fun i => if i = nd.id then g u + (w : WithTop ℚ) else g i)
                    (updateAssoc pred nd.id u)
                    (queue ++ [(g u + (w : WithTop ℚ) + (hv : WithTop ℚ), nd.id)])
          else relaxA G sq ht goalD u closed rest g pred queue) := rfl

lemma lookup_updateAssoc_isSome (pred : List (Nat × Nat)) (k v x : Nat) :
    (pred.lookup x).isSome → ((updateAssoc pred k v).lookup x).isSome := by
  intro h
  rw [lookup_updateAssoc]
  by_cases hx : x = k
  · rw [if_pos hx]; rfl
  · rw [if_neg hx]; exact h

lemma relaxA_out {G : PGraph} {sq : ℚ → ℚ} {ht : HeuristicType}
    {goalD : Option NodeData} {u : Nat} {closed : List Nat}
    (hu : u ∈ closed) :
    ∀ (nbrs : List NodeData) (g : Nat → WithTop ℚ) (pred : List (Nat × Nat))
      (queue : List (WithTop ℚ × Nat)) {g' : Nat → WithTop ℚ}
      {pred' : List (Nat × Nat)} {queue' : List (WithTop ℚ × Nat)},
      relaxA G sq ht goalD u closed nbrs g pred queue =
        some (g', pred', queue') →
      RelaxAOut G u closed nbrs g pred queue g' pred' queue' := by
  intro nbrs
  induction nbrs with
  | nil =>
      intro g pred queue g' pred' queue' h
      have h' := Option.some.inj h
      have hg : g = g' := congrArg Prod.fst h'
      have hp : pred = pred' := congrArg (fun z => z.2.1) h'
      have hq : queue = queue' := congrArg (fun z => z.2.2) h'
      subst hg; subst hp; subst hq
      exact {
        mono := fun v => le_refl _
        frozen := fun v _ => rfl
        keep := fun v _ => rfl
        dom := fun v h => h
        pnew := fun v x h => Or.inl ⟨h, rfl⟩
        relaxed := fun nd hnd => absurd hnd (List.not_mem_nil nd)
        qold := fun e he => he
        qnew := fun e he => Or.inl he
        qlen := by simp }
  | cons nd rest ih =>
      intro g pred queue g' pred' queue' h
      rw [relaxA_cons_eq] at h
      by_cases hc : nd.id ∈ closed
      · rw [if_pos hc] at h
        have out := ih g pred queue h
        exact {
          mono := out.mono
          frozen := out.frozen
          keep := out.keep
          dom := out.dom
          pnew := out.pnew
          relaxed := by
            intro nd0 hnd0 hnc w0 hw0
            rcases List.mem_cons.1 hnd0 with rfl | hnd0
            · exact absurd hc hnc
            · exact out.relaxed nd0 hnd0 hnc w0 hw0
          qold := out.qold
          qnew := by
            intro e he
            rcases out.qnew e he with he' | ⟨h1, h2, h3, nd0, hnd0, hid⟩
            · exact Or.inl he'
            · exact Or.inr ⟨h1, h2, h3, nd0, List.mem_cons_of_mem nd hnd0, hid⟩
          qlen := out.qlen.trans (by simp) }
      · rw [if_neg hc] at h
        have hune : u ≠ nd.id := fun hh => hc (hh ▸ hu)
        rcases hw : G.edgeWeightBetween u nd.id with _ | w
        · simp only [hw] at h
          cases h
        simp only [hw] at h
        by_cases himp : g u + (w : WithTop ℚ) < g nd.id
        · rw [if_pos himp] at h
          rcases goalD with _ | gd
          · cases h
          rcases hh : heuristic sq ht nd gd with _ | hv
          · simp only [hh] at h
            cases h
          simp only [hh] at h
          have out := ih _ _ _ h
          have hg1le : ∀ v,
              (if v = nd.id then g u + (w : WithTop ℚ) else g v) ≤ g v := by
            intro v
            by_cases hv' : v = nd.id
            · rw [if_pos hv', hv']; exact le_of_lt himp
            · rw [if_neg hv']
          have htne : g u + (w : WithTop ℚ) ≠ ⊤ := by
            intro hcontra
            rw [hcontra] at himp
            exact not_top_lt himp
          have hmono : ∀ v, g' v ≤ g v := by
            intro v
            have h1 : g' v ≤ if v = nd.id then g u + (w : WithTop ℚ) else g v :=
              out.mono v
            exact h1.trans (hg1le v)
          have hgnd : g' nd.id ≤ g u + (w : WithTop ℚ) := by
            have h1 : g' nd.id ≤
                if nd.id = nd.id then g u + (w : WithTop ℚ) else g nd.id :=
              out.mono nd.id
            rwa [if_pos rfl] at h1
          refine {
            mono := hmono
            frozen := ?_
            keep := ?_
            dom := ?_
            pnew := ?_
            relaxed := ?_
            qold := ?_
            qnew := ?_
            qlen := ?_ }
          · intro v hv'
            have hne : v ≠ nd.id := fun hh => hc (hh ▸ hv')
            have h1 : g' v = if v = nd.id then g u + (w : WithTop ℚ) else g v :=
              out.frozen v hv'
            rwa [if_neg hne] at h1
          · intro v hgv
            by_cases hv' : v = nd.id
            · exfalso
              have hlt : g' nd.id < g nd.id := lt_of_le_of_lt hgnd himp
              rw [← hv'] at hlt
              rw [hgv] at hlt
              exact lt_irrefl _ hlt
            · have h2 := out.keep v (by
                show g' v = if v = nd.id then g u + (w : WithTop ℚ) else g v
                rw [if_neg hv']
                exact hgv)
              rw [h2, lookup_updateAssoc, if_neg hv']
          · intro v hdv
            exact out.dom v (lookup_updateAssoc_isSome pred nd.id u v hdv)
          · intro v x hvx
            rcases out.pnew v x hvx with ⟨h1, h2⟩ | ⟨h1, h2, w', hw', h3, h4⟩
            · rw [lookup_updateAssoc] at h1
              have h2' : g' v = if v = nd.id then g u + (w : WithTop ℚ) else g v :=
                h2
              by_cases hv' : v = nd.id
              · rw [if_pos hv'] at h1
                rw [if_pos hv'] at h2'
                have hxu : x = u := (Option.some.inj h1).symm
                refine Or.inr ⟨hxu, by rw [hv']; exact hc, w,
                  by rw [hv']; exact hw, h2', by rw [h2']; exact htne⟩
              · rw [if_neg hv'] at h1
                rw [if_neg hv'] at h2'
                exact Or.inl ⟨h1, h2'⟩
            · have h3' : g' v = (if u = nd.id then g u + (w : WithTop ℚ) else g u)
                  + (w' : WithTop ℚ) := h3
              rw [if_neg hune] at h3'
              exact Or.inr ⟨h1, h2, w', hw', h3', h4⟩
          · intro nd0 hnd0 hnc w0 hw0
            rcases List.mem_cons.1 hnd0 with rfl | hnd0
            · rw [hw] at hw0
              have hww : w = w0 := Option.some.inj hw0
              exact hww ▸ hgnd
            · have h5 : g' nd0.id ≤
                  (if u = nd.id then g u + (w : WithTop ℚ) else g u)
                    + (w0 : WithTop ℚ) :=
                out.relaxed nd0 hnd0 hnc w0 hw0
              rwa [if_neg hune] at h5
          · intro e he
            exact out.qold e (List.mem_append_left _ he)
          · intro e he
            rcases out.qnew e he with he' | ⟨h1, h2, h3, nd0, hnd0, hid⟩
            · rcases List.mem_append.1 he' with he'' | he''
              · exact Or.inl he''
              · rcases List.mem_singleton.1 he'' with rfl
                refine Or.inr ⟨hc, ?_, ?_, nd, List.mem_cons_self nd rest, rfl⟩
                · exact out.dom nd.id
                    (by rw [lookup_updateAssoc, if_pos rfl]; rfl)
                · exact lt_of_le_of_lt hgnd himp
            · refine Or.inr ⟨h1, h2, ?_, nd0, List.mem_cons_of_mem nd hnd0, hid⟩
              have h3' : g' e.2 < if e.2 = nd.id then g u + (w : WithTop ℚ)
                  else g e.2 := h3
              exact lt_of_lt_of_le h3' (hg1le e.2)
          · have h1 := out.qlen
            simp only [List.length_append, List.length_cons,
              List.length_nil] at h1 ⊢
            omega
        · rw [if_neg himp] at h
          have out := ih g pred queue h
          have hle : g nd.id ≤ g u + (w : WithTop ℚ) := le_of_not_lt himp
          exact {
            mono := out.mono
            frozen := out.frozen
            keep := out.keep
            dom := out.dom
            pnew := out.pnew
            relaxed := by
              intro nd0 hnd0 hnc w0 hw0
              rcases List.mem_cons.1 hnd0 with rfl | hnd0
              · rw [hw] at hw0
                have hww : w = w0 := Option.some.inj hw0
                exact hww ▸ ((out.mono nd0.id).trans hle)
              · exact out.relaxed nd0 hnd0 hnc w0 hw0
            qold := out.qold
            qnew := by
              intro e he
              rcases out.qnew e he with he' | ⟨h1, h2, h3, nd0, hnd0, hid⟩
              · exact Or.inl he'
              · exact Or.inr ⟨h1, h2, h3, nd0, List.mem_cons_of_mem nd hnd0, hid⟩
            qlen := out.qlen.trans (by simp) }

lemma relaxA_total {G : PGraph} {sq : ℚ → ℚ} {ht : HeuristicType}
    {gd : NodeData} {u : Nat} {closed : List Nat} :
    ∀ (nbrs : List NodeData) (g : Nat → WithTop ℚ) (pred : List (Nat × Nat))
      (queue : List (WithTop ℚ × Nat)),
      (∀ nd ∈ nbrs, nd.id ∉ closed →
        ∃ w, G.edgeWeightBetween u nd.id = some w) →
      (∀ nd ∈ nbrs, (heuristic sq ht nd gd).isSome) →
      ∃ out, relaxA G sq ht (some gd) u closed nbrs g pred queue = some out := by
  intro nbrs
  induction nbrs with
  | nil => intro g pred queue _ _; exact ⟨(g, pred, queue), rfl⟩
  | cons nd rest ih =>
      intro g pred queue hw hh
      have hw' : ∀ nd0 ∈ rest, nd0.id ∉ closed →
          ∃ w, G.edgeWeightBetween u nd0.id = some w :=
        fun nd0 h0 => hw nd0 (List.mem_cons_of_mem nd h0)
      have hh' : ∀ nd0 ∈ rest, (heuristic sq ht nd0 gd).isSome :=
        fun nd0 h0 => hh nd0 (List.mem_cons_of_mem nd h0)
      rw [relaxA_cons_eq]
      by_cases hc : nd.id ∈ closed
      · rw [if_pos hc]
        exact ih g pred queue hw' hh'
      · rw [if_neg hc]
        rcases hw nd (List.mem_cons_self nd rest) hc with ⟨w, hww⟩
        simp only [hww]
        by_cases himp : g u + (w : WithTop ℚ) < g nd.id
        · rw [if_pos himp]
          rcases Option.isSome_iff_exists.1 (hh nd (List.mem_cons_self nd rest))
            with ⟨hv, hhv⟩
          simp only [hhv]
          exact ih _ _ _ hw' hh'
        · rw [if_neg himp]
          exact ih g pred queue hw' hh'

lemma relaxA_noop {G : PGraph} {sq : ℚ → ℚ} {ht : HeuristicType}
    {goalD : Option NodeData} {u : Nat} {closed : List Nat} :
    ∀ (nbrs : List NodeData) (g : Nat → WithTop ℚ) (pred : List (Nat × Nat))
      (queue : List (WithTop ℚ × Nat)),
      (∀ nd ∈ nbrs, nd.id ∉ closed →
        ∃ w, G.edgeWeightBetween u nd.id = some w ∧
          ¬(g u + (w : WithTop ℚ) < g nd.id)) →
      relaxA G sq ht goalD u closed nbrs g pred queue =
        some (g, pred, queue) := by
  intro nbrs
  induction nbrs with
  | nil => intro g pred queue _; rfl
  | cons nd rest ih =>
      intro g pred queue hyp
      have hyp' : ∀ nd0 ∈ rest, nd0.id ∉ closed →
          ∃ w, G.edgeWeightBetween u nd0.id = some w ∧
            ¬(g u + (w : WithTop ℚ) < g nd0.id) :=
        fun nd0 h0 => hyp nd0 (List.mem_cons_of_mem nd h0)
      rw [relaxA_cons_eq]
      by_cases hc : nd.id ∈ closed
      · rw [if_pos hc]
        exact ih g pred queue hyp'
      · rw [if_neg hc]
        rcases hyp nd (List.mem_cons_self nd rest) hc with ⟨w, hww, himp⟩
        simp only [hww]
        rw [if_neg himp]
        exact ih g pred queue hyp'

lemma relaxA_zero_out {G : PGraph} {sq : ℚ → ℚ} {gd : NodeData} {u : Nat}
    {closed : List Nat} (hu : u ∈ closed) :
    ∀ (nbrs : List NodeData) (g : Nat → WithTop ℚ) (pred : List (Nat × Nat))
      (queue : List (WithTop ℚ × Nat)) {g' : Nat → WithTop ℚ}
      {pred' : List (Nat × Nat)} {queue' : List (WithTop ℚ × Nat)},
      relaxA G sq .zero (some gd) u closed nbrs g pred queue =
        some (g', pred', queue') →
      RelaxZOut G u closed nbrs g queue g' queue' := by
  intro nbrs
  induction nbrs with
  | nil =>
      intro g pred queue g' pred' queue' h
      have h' := Option.some.inj h
      have hg : g = g' := congrArg Prod.fst h'
      have hq : queue = queue' := congrArg (fun z => z.2.2) h'
      subst hg; subst hq
      exact {
        pointwise := fun v => Or.inl rfl
        qzb := fun e he => Or.inl he }
  | cons nd rest ih =>
      intro g pred queue g' pred' queue' h
      rw [relaxA_cons_eq] at h
      by_cases hc : nd.id ∈ closed
      · rw [if_pos hc] at h
        have out := ih g pred queue h
        exact {
          pointwise := out.pointwise
          qzb := out.qzb }
      · rw [if_neg hc] at h
        have hune : u ≠ nd.id := fun hh => hc (hh ▸ hu)
        rcases hw : G.edgeWeightBetween u nd.id with _ | w
        · simp only [hw] at h
          cases h
        simp only [hw] at h
        by_cases himp : g u + (w : WithTop ℚ) < g nd.id
        · rw [if_pos himp] at h
          rcases hh : heuristic sq .zero nd gd with _ | hv
          · simp only [hh] at h
            cases h
          simp only [hh] at h
          have hv0 : hv = 0 := heuristic_zero_val hh
          subst hv0
          have outA := relaxA_out hu rest _ _ _ h
          have out := ih _ _ _ h
          have htne : g u + (w : WithTop ℚ) ≠ ⊤ := by
            intro hcontra
            rw [hcontra] at himp
            exact not_top_lt himp
          have he0 : (g u + (w : WithTop ℚ) + ((0 : ℚ) : WithTop ℚ), nd.id) =
              (g u + (w : WithTop ℚ), nd.id) := by
            rw [WithTop.coe_zero, add_zero]
          have hg1u : (if u = nd.id then g u + (w : WithTop ℚ) else g u) = g u :=
            if_neg hune
          have hgnd : g' nd.id ≤ g u + (w : WithTop ℚ) := by
            have h1 : g' nd.id ≤
                if nd.id = nd.id then g u + (w : WithTop ℚ) else g nd.id :=
              outA.mono nd.id
            rwa [if_pos rfl] at h1
          refine {
            pointwise := ?_
            qzb := ?_ }
          · intro v
            rcases out.pointwise v with hsame | ⟨hmem, hvc, w', hw', heqv, hlt⟩
            · have hsame' : g' v = if v = nd.id then g u + (w : WithTop ℚ)
                  else g v := hsame
              by_cases hv' : v = nd.id
              · rw [if_pos hv'] at hsame'
                subst hv'
                refine Or.inr ⟨?_, hc, w, hw, hsame',
                  by rw [hsame']; exact himp⟩
                have hql : (g u + (w : WithTop ℚ) + ((0 : ℚ) : WithTop ℚ), nd.id)
                    ∈ queue' :=
                  outA.qold _ (List.mem_append_right _ (List.mem_singleton_self _))
                rw [he0] at hql
                rw [hsame']
                exact hql
              · rw [if_neg hv'] at hsame'
                exact Or.inl hsame'
            · have heqv' : g' v = (if u = nd.id then g u + (w : WithTop ℚ)
                  else g u) + (w' : WithTop ℚ) := heqv
              rw [hg1u] at heqv'
              have hlt' : g' v < if v = nd.id then g u + (w : WithTop ℚ)
                  else g v := hlt
              refine Or.inr ⟨hmem, hvc, w', hw', heqv', ?_⟩
              by_cases hv' : v = nd.id
              · rw [if_pos hv'] at hlt'
                exact hlt'.trans (hv' ▸ himp)
              · rwa [if_neg hv'] at hlt'
          · intro e he
            rcases out.qzb e he with he' | ⟨h1, h2⟩
            · rcases List.mem_append.1 he' with he'' | he''
              · exact Or.inl he''
              · rcases List.mem_singleton.1 he'' with rfl
                refine Or.inr ⟨?_, ?_⟩
                · show g' nd.id ≤ g u + (w : WithTop ℚ) + ((0 : ℚ) : WithTop ℚ)
                  rw [WithTop.coe_zero, add_zero]
                  exact hgnd
                · show g u + (w : WithTop ℚ) + ((0 : ℚ) : WithTop ℚ) ≠ ⊤
                  rw [WithTop.coe_zero, add_zero]
                  exact htne
            · exact Or.inr ⟨h1, h2⟩
        · rw [if_neg himp] at h
          have out := ih g pred queue h
          exact {
            pointwise := out.pointwise
            qzb := out.qzb }

/-! #### Branch equations for the A* loop -/

lemma astarLoop_emptyq {G : PGraph} {sq : ℚ → ℚ} {ht : HeuristicType}
    {sId gId : Nat} {goalN : Option PNode} {fuel : Nat}
    {g : Nat → WithTop ℚ} {pred : List (Nat × Nat)} {closed : List Nat}
    {queue : List (WithTop ℚ × Nat)} (hpop : popMin queue = none) :
    astarLoop G sq ht sId gId goalN (fuel + 1) g pred closed queue =
      .ok none := by
  rw [astarLoop_succ]
  simp only [hpop]

lemma astarLoop_goal {G : PGraph} {sq : ℚ → ℚ} {ht : HeuristicType}
    {sId gId : Nat} {gn : PNode} {fuel : Nat} {g : Nat → WithTop ℚ}
    {pred : List (Nat × Nat)} {closed : List Nat}
    {queue rest : List (WithTop ℚ × Nat)} {d₀ : WithTop ℚ} {u : Nat}
    (hpop : popMin queue = some ((d₀, u), rest)) (hgoal : u = gId) :
    astarLoop G sq ht sId gId (some gn) (fuel + 1) g pred closed queue =
      reconstructPath G sId gn.data.id pred := by
  rw [astarLoop_succ]
  simp only [hpop, if_pos hgoal]

lemma astarLoop_fresh_eq {G : PGraph} {sq : ℚ → ℚ} {ht : HeuristicType}
    {sId gId : Nat} {goalN : Option PNode} {fuel : Nat}
    {g g₁ : Nat → WithTop ℚ} {pred pred₁ : List (Nat × Nat)}
    {closed : List Nat} {queue rest queue₁ : List (WithTop ℚ × Nat)}
    {d₀ : WithTop ℚ} {u : Nat} {nbrs : List NodeData}
    (hpop : popMin queue = some ((d₀, u), rest)) (hne : ¬(u = gId))
    (huc : u ∉ closed) (hnb : G.getNeighbors u = .ok nbrs)
    (hrel : relaxA G sq ht (goalN.map PNode.data) u (u :: closed) nbrs g pred
      rest = some (g₁, pred₁, queue₁)) :
    astarLoop G sq ht sId gId goalN (fuel + 1) g pred closed queue =
      astarLoop G sq ht sId gId goalN fuel g₁ pred₁ (u :: closed) queue₁ := by
  rw [astarLoop_succ]
  simp only [hpop, if_neg hne, if_neg huc, hnb, hrel]

lemma astarLoop_stale_eq {G : PGraph} {sq : ℚ → ℚ} {ht : HeuristicType}
    {sId gId : Nat} {goalN : Option PNode} {fuel : Nat}
    {g g₁ : Nat → WithTop ℚ} {pred pred₁ : List (Nat × Nat)}
    {closed : List Nat} {queue rest queue₁ : List (WithTop ℚ × Nat)}
    {d₀ : WithTop ℚ} {u : Nat} {nbrs : List NodeData}
    (hpop : popMin queue = some ((d₀, u), rest)) (hne : ¬(u = gId))
    (huc : u ∈ closed) (hnb : G.getNeighbors u = .ok nbrs)
    (hrel : relaxA G sq ht (goalN.map PNode.data) u closed nbrs g pred
      rest = some (g₁, pred₁, queue₁)) :
    astarLoop G sq ht sId gId goalN (fuel + 1) g pred closed queue =
      astarLoop G sq ht sId gId goalN fuel g₁ pred₁ closed queue₁ := by
  rw [astarLoop_succ]
  simp only [hpop, if_neg hne, if_pos huc, hnb, hrel]

/-! #### From the predecessor walk to a path through the graph -/

lemma walksTo_stable {pred pred' : List (Nat × Nat)} {closed : List Nat}
    (hkeep : ∀ y ∈ closed, pred'.lookup y = pred.lookup y)
    (hval : ∀ y x, pred.lookup y = some x → x ∈ closed) :
    ∀ {y}, WalksTo pred y → y ∈ closed → WalksTo pred' y := by
  intro y h
  induction h with
  | done hl =>
      intro hy
      exact WalksTo.done (by rw [hkeep _ hy]; exact hl)
  | step hl htail ih =>
      intro hy
      exact WalksTo.step (by rw [hkeep _ hy]; exact hl) (ih (hval _ _ hl))

lemma IsWalk.last_lookup {pred : List (Nat × Nat)} :
    ∀ {v l t}, IsWalk pred v l t → l ≠ [] →
      ∃ y, pred.lookup y = some t := by
  intro v l t h
  induction h with
  | nil _ => intro hne; exact absurd rfl hne
  | cons hl htail ih =>
      rename_i v' u t' l'
      intro _
      cases htail with
      | nil hl2 => exact ⟨v', hl⟩
      | cons hl2 htail2 => exact ih (by simp)

lemma isWalk_steps {G : PGraph} {g : Nat → WithTop ℚ}
    {pred : List (Nat × Nat)}
    (hws : ∀ u v w, G.edgeWeightBetween u v = some w → G.EdgeStep u v w)
    (pb : ∀ v x, pred.lookup v = some x → ∃ w : ℚ,
      G.edgeWeightBetween x v = some w ∧ g v = g x + (w : WithTop ℚ)) :
    ∀ {v l t}, IsWalk pred v l t → l ≠ [] →
      ∃ c : ℚ, ListSteps G ((l ++ [t]).reverse) c ∧
        ((l ++ [t]).reverse).head? = some t ∧
        ((l ++ [t]).reverse).getLast? = some v ∧
        g v = g t + (c : WithTop ℚ) := by
  intro v l t h
  induction h with
  | nil _ => intro hne; exact absurd rfl hne
  | cons hl htail ih =>
      rename_i v' u t' l'
      intro _
      by_cases hl' : l' = []
      · subst hl'
        cases htail with
        | nil _ =>
            rcases pb v' u hl with ⟨w, hw, hgw⟩
            refine ⟨w, ?_, ?_, ?_, ?_⟩
            · show ListSteps G [u, v'] w
              have h1 := ListSteps.cons (hws u v' w hw) (ListSteps.single v')
              simpa using h1
            · rfl
            · rfl
            · exact hgw
      · have hstep : ∃ l'', l' = u :: l'' := by
          cases htail with
          | nil _ => exact absurd rfl hl'
          | cons hl2 htail2 => exact ⟨_, rfl⟩
        rcases ih hl' with ⟨c', hsteps, hhead, hlast, hcost⟩
        rcases pb v' u hl with ⟨w, hw, hgw⟩
        refine ⟨c' + w, ?_, ?_, ?_, ?_⟩
        · have h1 : ((v' :: l' ++ [t']).reverse) =
              (l' ++ [t']).reverse ++ [v'] := by simp
          rw [h1]
          exact hsteps.append_step hlast (hws u v' w hw)
        · have h1 : ((v' :: l' ++ [t']).reverse) =
              (l' ++ [t']).reverse ++ [v'] := by simp
          rw [h1]
          rcases hq : (l' ++ [t']).reverse with _ | ⟨a, rest2⟩
          · rw [hq] at hhead; cases hhead
          · rw [hq] at hhead
            have ha : a = t' := by simpa using hhead
            rw [ha]
            rfl
        · have h1 : ((v' :: l' ++ [t']).reverse) =
              (l' ++ [t']).reverse ++ [v'] := by simp
          rw [h1]
          exact List.getLast?_concat _
        · rw [hgw, hcost]
          rw [add_assoc]
          norm_cast

/-! #### The A* base invariant -/

lemma astar_init_base {G : PGraph} {sId : Nat} (hs : sId ∈ G.nodeIds) :
    ABase G sId (fun i => if i = sId then 0 else ⊤) [] []
      [((0 : WithTop ℚ), sId)] := by
  refine {
    closed_sub := fun v hv => absurd hv (List.not_mem_nil v)
    closed_nodup := List.nodup_nil
    q_sub := ?_
    q_reach := ?_
    q_gfin := ?_
    b_I8 := fun u hu => absurd hu (List.not_mem_nil u)
    b_g := ?_
    b_closed_pred := fun x hx => absurd hx (List.not_mem_nil x)
    b_walks := fun x hx => absurd hx (List.not_mem_nil x)
    b_init := Or.inl ⟨rfl, rfl, rfl⟩ }
  · intro e he
    rcases List.mem_singleton.1 he with rfl
    exact hs
  · intro e he
    rcases List.mem_singleton.1 he with rfl
    exact ⟨0, CostPath.refl sId⟩
  · intro e he
    rcases List.mem_singleton.1 he with rfl
    show (if sId = sId then (0 : WithTop ℚ) else ⊤) ≠ ⊤
    rw [if_pos rfl]
    simp
  · intro v x h
    cases h

lemma abase_stale {G : PGraph} (HG : Good G) {sq : ℚ → ℚ}
    {ht : HeuristicType} {goalD : Option NodeData} {sId : Nat}
    {g : Nat → WithTop ℚ} {pred : List (Nat × Nat)} {closed : List Nat}
    {queue rest : List (WithTop ℚ × Nat)} {d₀ : WithTop ℚ} {u : Nat}
    {nbrs : List NodeData}
    (inv : ABase G sId g pred closed queue)
    (hpop : popMin queue = some ((d₀, u), rest)) (huc : u ∈ closed)
    (hnb : G.getNeighbors u = .ok nbrs) :
    relaxA G sq ht goalD u closed nbrs g pred rest = some (g, pred, rest) ∧
    ABase G sId g pred closed rest := by
  constructor
  · apply relaxA_noop
    intro nd hnd hnc
    rcases HG.nbr_w u nbrs hnb nd hnd with ⟨w, hw⟩
    exact ⟨w, hw, not_lt.2 (inv.b_I8 u huc nd.id hnc w hw)⟩
  · refine { inv with
      q_sub := fun e he => inv.q_sub e (popMin_rest_subset hpop e he)
      q_reach := fun e he => inv.q_reach e (popMin_rest_subset hpop e he)
      q_gfin := fun e he => inv.q_gfin e (popMin_rest_subset hpop e he)
      b_init := ?_ }
    rcases inv.b_init with ⟨_, hc, _⟩ | ⟨hsc, hq⟩
    · rw [hc] at huc
      exact absurd huc (List.not_mem_nil u)
    · exact Or.inr ⟨hsc, fun e he => hq e (popMin_rest_subset hpop e he)⟩

lemma abase_fresh {G : PGraph} (HG : Good G) {sq : ℚ → ℚ}
    {ht : HeuristicType} {goalD : Option NodeData} {sId : Nat}
    {g g₁ : Nat → WithTop ℚ} {pred pred₁ : List (Nat × Nat)}
    {closed : List Nat} {queue rest queue₁ : List (WithTop ℚ × Nat)}
    {d₀ : WithTop ℚ} {u : Nat} {nbrs : List NodeData}
    (inv : ABase G sId g pred closed queue)
    (hpop : popMin queue = some ((d₀, u), rest)) (huc : u ∉ closed)
    (hnb : G.getNeighbors u = .ok nbrs)
    (hrel : relaxA G sq ht goalD u (u :: closed) nbrs g pred rest =
      some (g₁, pred₁, queue₁)) :
    ABase G sId g₁ pred₁ (u :: closed) queue₁ := by
  have hpopm := popMin_some hpop
  have humem : u ∈ G.nodeIds := inv.q_sub _ hpopm.1
  have hureach : G.Reachable sId u := inv.q_reach _ hpopm.1
  have out := relaxA_out (List.mem_cons_self u closed) nbrs g pred rest hrel
  have hkeep : ∀ y ∈ u :: closed, pred₁.lookup y = pred.lookup y :=
    fun y hy => out.keep y (out.frozen y hy)
  have hval : ∀ y x, pred.lookup y = some x → x ∈ u :: closed :=
    fun y x h => List.mem_cons_of_mem u (inv.b_g y x h).1
  refine {
    closed_sub := ?_
    closed_nodup := List.nodup_cons.2 ⟨huc, inv.closed_nodup⟩
    q_sub := ?_
    q_reach := ?_
    q_gfin := ?_
    b_I8 := ?_
    b_g := ?_
    b_closed_pred := ?_
    b_walks := ?_
    b_init := ?_ }
  · intro v hv
    rcases List.mem_cons.1 hv with rfl | hv
    · exact humem
    · exact inv.closed_sub v hv
  · intro e he
    rcases out.qnew e he with hold | ⟨_, _, _, nd, hnd, hid⟩
    · exact inv.q_sub e (popMin_rest_subset hpop e hold)
    · exact hid ▸ HG.nbr_mem u nbrs hnb nd hnd
  · intro e he
    rcases out.qnew e he with hold | ⟨_, _, _, nd, hnd, hid⟩
    · exact inv.q_reach e (popMin_rest_subset hpop e hold)
    · rcases HG.nbr_w u nbrs hnb nd hnd with ⟨w, hw⟩
      rcases hureach with ⟨c, hpath⟩
      exact ⟨c + w, hid ▸ hpath.snoc (HG.w_step u nd.id w hw)⟩
  · intro e he
    rcases out.qnew e he with hold | ⟨_, hsome, hlt, _, _, _⟩
    · have hfin := inv.q_gfin e (popMin_rest_subset hpop e hold)
      intro hcontra
      apply hfin
      have := out.mono e.2
      rw [hcontra] at this
      exact top_le_iff.1 this
    · rcases Option.isSome_iff_exists.1 hsome with ⟨x, hx⟩
      rcases out.pnew e.2 x hx with ⟨_, heq⟩ | ⟨_, _, _, _, _, hne⟩
      · exact absurd heq (ne_of_lt hlt)
      · exact hne
  · intro x hx v hv w hw
    rcases List.mem_cons.1 hx with rfl | hx
    · rcases HG.w_cover x nbrs hnb v w hw with ⟨nd, hnd, hid⟩
      have h1 := out.relaxed nd hnd (by rw [hid]; exact hv) w (by rw [hid]; exact hw)
      rw [hid] at h1
      rw [out.frozen x (List.mem_cons_self x closed)]
      exact h1
    · have hvnc : v ∉ closed := fun hc => hv (List.mem_cons_of_mem u hc)
      have h1 := inv.b_I8 x hx v hvnc w hw
      calc g₁ v ≤ g v := out.mono v
        _ ≤ g x + (w : WithTop ℚ) := h1
        _ = g₁ x + (w : WithTop ℚ) := by
            rw [out.frozen x (List.mem_cons_of_mem u hx)]
  · intro v x hvx
    rcases out.pnew v x hvx with ⟨h1, h2⟩ | ⟨hxu, hvnc, w, hww, heq, hne⟩
    · rcases inv.b_g v x h1 with ⟨hxc, w, hww, heq, hne⟩
      refine ⟨List.mem_cons_of_mem u hxc, w, hww, ?_, h2 ▸ hne⟩
      rw [h2, heq, out.frozen x (List.mem_cons_of_mem u hxc)]
    · subst hxu
      refine ⟨List.mem_cons_self x closed, w, hww, ?_, hne⟩
      rw [heq, out.frozen x (List.mem_cons_self x closed)]
  · intro x hx
    rcases List.mem_cons.1 hx with rfl | hx
    · rcases inv.b_init with ⟨_, _, hq⟩ | ⟨_, hq⟩
      · rw [hq] at hpopm
        rcases List.mem_singleton.1 hpopm.1 with heq
        exact Or.inl (congrArg Prod.snd heq)
      · exact Or.inr (out.dom x (hq _ hpopm.1))
    · rcases inv.b_closed_pred x hx with h' | h'
      · exact Or.inl h'
      · exact Or.inr (out.dom x h')
  · intro x hx
    rcases List.mem_cons.1 hx with rfl | hx
    · rcases hxl : pred.lookup x with _ | y
      · exact WalksTo.done (by rw [hkeep x (List.mem_cons_self x closed), hxl])
      · have hyc : y ∈ closed := (inv.b_g x y hxl).1
        have hwy : WalksTo pred₁ y :=
          walksTo_stable hkeep hval (inv.b_walks y hyc)
            (List.mem_cons_of_mem x hyc)
        exact WalksTo.step
          (by rw [hkeep x (List.mem_cons_self x closed), hxl]) hwy
    · exact walksTo_stable hkeep hval (inv.b_walks x hx)
        (List.mem_cons_of_mem u hx)
  · refine Or.inr ⟨?_, ?_⟩
    · rcases inv.b_init with ⟨_, _, hq⟩ | ⟨hsc, _⟩
      · rw [hq] at hpopm
        rcases List.mem_singleton.1 hpopm.1 with heq
        have : u = sId := congrArg Prod.snd heq
        rw [this]
        exact List.mem_cons_self sId closed
      · exact List.mem_cons_of_mem u hsc
    · intro e he
      rcases out.qnew e he with hold | ⟨_, hsome, _, _, _, _⟩
      · rcases inv.b_init with ⟨_, _, hq⟩ | ⟨_, hq⟩
        · rw [hq] at hpop
          rcases popMin_some hpop with ⟨_, hrest, _⟩
          have hrest' : rest = [] := by
            rw [hrest]
            rcases List.mem_singleton.1 ((hq ▸ hpopm).1) with heq
            rw [← heq]
            simp
          rw [hrest'] at hold
          exact absurd hold (List.not_mem_nil e)
        · exact out.dom e.2 (hq e (popMin_rest_subset hpop e hold))
      · exact hsome

/-! #### C4 core: any returned path is a genuine path from start to goal -/

lemma astarLoop_nogoal {G : PGraph} {sq : ℚ → ℚ} {ht : HeuristicType}
    {sId gId : Nat} {p : List Nat} :
    ∀ (fuel : Nat) (g : Nat → WithTop ℚ) (pred : List (Nat × Nat))
      (closed : List Nat) (queue : List (WithTop ℚ × Nat)),
      astarLoop G sq ht sId gId none fuel g pred closed queue ≠
        .ok (some p) := by
  intro fuel
  induction fuel with
  | zero => intro g pred closed queue h; cases h
  | succ fuel ih =>
      intro g pred closed queue h
      rcases hpop : popMin queue with _ | ⟨⟨d₀, u⟩, rest⟩
      · rw [astarLoop_emptyq hpop] at h
        have := Res.ok.inj h
        cases this
      by_cases hg : u = gId
      · rw [astarLoop_succ] at h
        simp only [hpop, if_pos hg] at h
        cases h
      · rcases hnb : G.getNeighbors u with err | nbrs
        · rw [astarLoop_succ] at h
          simp only [hpop, if_neg hg, hnb] at h
          cases h
        · rcases hrel : relaxA G sq ht ((none : Option PNode).map PNode.data) u
              (if u ∈ closed then closed else u :: closed) nbrs g pred rest
            with _ | ⟨g₁, pred₁, queue₁⟩
          · rw [astarLoop_succ] at h
            simp only [hpop, if_neg hg, hnb, hrel] at h
            cases h
          · rw [astarLoop_succ] at h
            simp only [hpop, if_neg hg, hnb, hrel] at h
            exact ih g₁ pred₁ _ queue₁ h

lemma astarLoop_path {G : PGraph} (HG : Good G) {sq : ℚ → ℚ}
    {ht : HeuristicType} {sId gId : Nat} {gn : PNode}
    (hgn : G.getNode gId = some gn) :
    ∀ (fuel : Nat) (g : Nat → WithTop ℚ) (pred : List (Nat × Nat))
      (closed : List Nat) (queue : List (WithTop ℚ × Nat)) {p : List Nat},
      ABase G sId g pred closed queue →
      astarLoop G sq ht sId gId (some gn) fuel g pred closed queue =
        .ok (some p) →
      ∃ c : ℚ, ListSteps G p c ∧ p.head? = some sId ∧
        p.getLast? = some gId := by
  intro fuel
  induction fuel with
  | zero => intro g pred closed queue p _ h; cases h
  | succ fuel ih =>
      intro g pred closed queue p inv h
      rcases hpop : popMin queue with _ | ⟨⟨d₀, u⟩, rest⟩
      · rw [astarLoop_emptyq hpop] at h
        have := Res.ok.inj h
        cases this
      by_cases hg : u = gId
      · rw [astarLoop_goal hpop hg] at h
        have hgid : gn.data.id = gId := (PGraph.getNode_mem_ids hgn).2
        rw [hgid] at h
        unfold reconstructPath at h
        by_cases hemp : pred.isEmpty
        · rw [if_pos hemp] at h
          have := Res.ok.inj h
          cases this
        · rw [if_neg hemp] at h
          rcases hwp : walkPred pred (G.nodeIds.length + 1) gId with _ | l
          · rw [hwp] at h; cases h
          rw [hwp] at h
          have hp : p = (l ++ [sId]).reverse :=
            (Option.some.inj (Res.ok.inj h)).symm
          rcases inv.b_init with ⟨hpe, _, _⟩ | ⟨_, hq⟩
          · rw [hpe] at hemp
            exact absurd rfl hemp
          have hpopm := popMin_some hpop
          have hgs : (pred.lookup gId).isSome := by
            have h2 : (pred.lookup u).isSome := hq _ hpopm.1
            rw [← hg]
            exact h2
          rcases walkPred_isWalk hwp with ⟨t, hwalk⟩
          rcases Option.isSome_iff_exists.1 hgs with ⟨x, hx⟩
          have hlne : l ≠ [] := by
            cases hwalk with
            | nil hl => rw [hl] at hx; cases hx
            | cons hl htail => simp
          rcases hwalk.last_lookup hlne with ⟨y, hy⟩
          have htc : t ∈ closed := (inv.b_g y t hy).1
          have hts : t = sId := by
            rcases inv.b_closed_pred t htc with h' | h'
            · exact h'
            · rw [hwalk.terminal_none] at h'
              cases h'
          subst hts
          have pb : ∀ v x, pred.lookup v = some x → ∃ w : ℚ,
              G.edgeWeightBetween x v = some w ∧
                g v = g x + (w : WithTop ℚ) := by
            intro v x h'
            rcases inv.b_g v x h' with ⟨_, w, hw, heq, _⟩
            exact ⟨w, hw, heq⟩
          rcases isWalk_steps HG.w_step pb hwalk hlne with
            ⟨c, hsteps, hhead, hlast, _⟩
          exact ⟨c, hp ▸ hsteps, hp ▸ hhead, hp ▸ hlast⟩
      · rcases hnb : G.getNeighbors u with err | nbrs
        · rw [astarLoop_succ] at h
          simp only [hpop, if_neg hg, hnb] at h
          cases h
        · by_cases huc : u ∈ closed
          · rcases abase_stale HG inv hpop huc hnb with ⟨hrel, inv'⟩
            rw [astarLoop_stale_eq hpop hg huc hnb hrel] at h
            exact ih g pred closed rest inv' h
          · rcases hrel : relaxA G sq ht ((some gn).map PNode.data) u
                (u :: closed) nbrs g pred rest with _ | ⟨g₁, pred₁, queue₁⟩
            · rw [astarLoop_succ] at h
              simp only [hpop, if_neg hg, if_neg huc, hnb, hrel] at h
              cases h
            · rw [astarLoop_fresh_eq hpop hg huc hnb hrel] at h
              exact ih g₁ pred₁ (u :: closed) queue₁
                (abase_fresh HG inv hpop huc hnb hrel) h

lemma astar_path_valid {G : PGraph} (hwf : G.WF) (sq : ℚ → ℚ)
    (ht : HeuristicType) (sId gId : Nat) {p : List Nat}
    (h : findShortestPath G sq ht sId gId = .ok (some p)) :
    ∃ c : ℚ, ListSteps G p c ∧ p.head? = some sId ∧
      p.getLast? = some gId := by
  have HG := PGraph.good_of_wf hwf
  unfold findShortestPath at h
  rcases hsn : G.getNode sId with _ | sn
  · rw [hsn] at h; cases h
  rw [hsn] at h
  rcases hgn : G.getNode gId with _ | gn
  · rw [hgn] at h
    exact absurd h (astarLoop_nogoal (astarFuel G) _ _ _ _)
  · rw [hgn] at h
    have hs : sId ∈ G.nodeIds := (PGraph.getNode_mem_ids hsn).1
    exact astarLoop_path HG hgn (astarFuel G) _ _ _ _ (astar_init_base hs) h

/-- **C4.**  On any well-formed graph (of either variant), whenever
`AStar.find_shortest_path(start_id, goal_id)` returns a path rather than
`None`, that path starts with `start_id`, ends with `goal_id`, and every
consecutive pair of its node ids is joined by an edge of the graph — with
the pair's first node as source and second as target when the graph is
directed (`EdgeStep` demands exactly that orientation on the `dir`
variant). -/
theorem astar_returned_path_valid (G : PGraph) (sq : ℚ → ℚ)
    (ht : HeuristicType) (sId gId : Nat) (p : List Nat) (hwf : G.WF)
    (h : findShortestPath G sq ht sId gId = .ok (some p)) :
    p.head? = some sId ∧ p.getLast? = some gId ∧
      ∃ c : ℚ, ListSteps G p c := by
  rcases astar_path_valid hwf sq ht sId gId h with ⟨c, hsteps, hhead, hlast⟩
  exact ⟨hhead, hlast, c, hsteps⟩

/-- **C4 witness**: on the A* test graph, the returned path `[1, 2, 3, 4]`
of `find_shortest_path(1, 4)` with the Manhattan heuristic starts at 1,
ends at 4 and follows edges of the graph. -/
theorem astar_returned_path_valid_witness :
    ((PGraph.dir gM).WF ∧
      findShortestPath (.dir gM) id .manhattan 1 4 =
        .ok (some [1, 2, 3, 4])) ∧
    ([1, 2, 3, 4].head? = some 1 ∧ [1, 2, 3, 4].getLast? = some 4 ∧
      ∃ c : ℚ, ListSteps (.dir gM) [1, 2, 3, 4] c) :=
  ⟨⟨by decide, by with_unfolding_all decide⟩,
    astar_returned_path_valid (.dir gM) id .manhattan 1 4 [1, 2, 3, 4]
      (by decide) (by with_unfolding_all decide)⟩

/-! #### C5 core: the loop drains the frontier and returns `None` -/

lemma filter_erase_closed {u : Nat} {closed : List Nat} :
    ∀ {l : List Nat}, l.Nodup → u ∉ closed →
      l.filter (fun v => v ∉ (u :: closed)) =
        (l.filter (fun v => v ∉ closed)).erase u := by
  intro l
  induction l with
  | nil => intro _ _; rfl
  | cons a tl ih =>
      intro hnd hc
      rcases List.nodup_cons.1 hnd with ⟨hna, hnd'⟩
      by_cases hau : a = u
      · subst hau
        have h1 : (decide (a ∉ (a :: closed))) = false := by
          simp [List.mem_cons]
        have h2 : (decide (a ∉ closed)) = true := by simp [hc]
        rw [List.filter_cons, List.filter_cons, h1, h2]
        simp only [Bool.false_eq_true, eq_self_iff_true, if_false, if_true]
        rw [List.erase_cons_head]
        refine List.filter_congr ?_
        intro v hv
        have hvne : v ≠ a := fun hh => hna (hh ▸ hv)
        simp [List.mem_cons, hvne]
      · by_cases hac : a ∈ closed
        · have h1 : (decide (a ∉ (u :: closed))) = false := by
            simp [List.mem_cons, hac]
          have h2 : (decide (a ∉ closed)) = false := by simp [hac]
          rw [List.filter_cons, List.filter_cons, h1, h2]
          simp only [Bool.false_eq_true, if_false]
          exact ih hnd' hc
        · have h1 : (decide (a ∉ (u :: closed))) = true := by
            simp [List.mem_cons, hac, hau]
          have h2 : (decide (a ∉ closed)) = true := by simp [hac]
          rw [List.filter_cons, List.filter_cons, h1, h2]
          simp only [eq_self_iff_true, if_true]
          rw [List.erase_cons_tail (by simp [hau]), ih hnd' hc]

lemma sum_filter_out {G : PGraph} (hnd : G.nodeIds.Nodup) {u : Nat}
    (hu : u ∈ G.nodeIds) {closed : List Nat} (hc : u ∉ closed) :
    ((G.nodeIds.filter (fun v => v ∉ closed)).map (nbrLen G)).sum =
      nbrLen G u +
        ((G.nodeIds.filter (fun v => v ∉ (u :: closed))).map (nbrLen G)).sum := by
  have hmem : u ∈ G.nodeIds.filter (fun v => v ∉ closed) := by
    rw [List.mem_filter]
    exact ⟨hu, by simp [hc]⟩
  rw [sum_map_erase (nbrLen G) hmem, filter_erase_closed hnd hc]

lemma nbrLen_eq {G : PGraph} {u : Nat} {nbrs : List NodeData}
    (hnb : G.getNeighbors u = .ok nbrs) : nbrLen G u = nbrs.length := by
  unfold nbrLen
  rw [hnb]

lemma astarLoop_exhausts {G : PGraph} (HG : Good G) {sq : ℚ → ℚ}
    {ht : HeuristicType} (hco : G.allCoords) {sId gId : Nat} {gn : PNode}
    (hgn : G.getNode gId = some gn) (hnr : ¬G.Reachable sId gId) :
    ∀ (fuel : Nat) (g : Nat → WithTop ℚ) (pred : List (Nat × Nat))
      (closed : List Nat) (queue : List (WithTop ℚ × Nat)),
      ABase G sId g pred closed queue →
      phiA G queue closed < fuel →
      astarLoop G sq ht sId gId (some gn) fuel g pred closed queue =
        .ok none := by
  intro fuel
  induction fuel with
  | zero => intro g pred closed queue _ hlt; omega
  | succ fuel ih =>
      intro g pred closed queue inv hlt
      rcases hpop : popMin queue with _ | ⟨⟨d₀, u⟩, rest⟩
      · exact astarLoop_emptyq hpop
      have hpopm := popMin_some hpop
      have humem : u ∈ G.nodeIds := inv.q_sub _ hpopm.1
      have hlen : rest.length + 1 = queue.length := popMin_length hpop
      have hg : ¬(u = gId) := by
        intro hcontra
        exact hnr (hcontra ▸ inv.q_reach _ hpopm.1)
      rcases HG.nbr_ok u humem with ⟨nbrs, hnb⟩
      have hgd : gn.data.x.isSome ∧ gn.data.y.isSome :=
        PGraph.getNode_coords hgn hco
      by_cases huc : u ∈ closed
      · rcases abase_stale HG inv hpop huc hnb with ⟨hrel, inv'⟩
        rw [astarLoop_stale_eq hpop hg huc hnb hrel]
        refine ih g pred closed rest inv' ?_
        unfold phiA at hlt ⊢
        omega
      · have hw : ∀ nd ∈ nbrs, nd.id ∉ (u :: closed) →
            ∃ w, G.edgeWeightBetween u nd.id = some w :=
          fun nd hnd _ => HG.nbr_w u nbrs hnb nd hnd
        have hh : ∀ nd ∈ nbrs, (heuristic sq ht nd gn.data).isSome := by
          intro nd hnd
          rcases HG.nbr_coords hco u nbrs hnb nd hnd with ⟨h1, h2⟩
          rw [heuristic_defined_iff_coords]
          exact ⟨h1, hgd.1, h2, hgd.2⟩
        rcases relaxA_total nbrs g pred rest hw hh with
          ⟨⟨g₁, pred₁, queue₁⟩, hrel⟩
        have hrel' : relaxA G sq ht ((some gn).map PNode.data) u (u :: closed)
            nbrs g pred rest = some (g₁, pred₁, queue₁) := hrel
        rw [astarLoop_fresh_eq hpop hg huc hnb hrel']
        have inv₁ := abase_fresh HG inv hpop huc hnb hrel'
        refine ih g₁ pred₁ (u :: closed) queue₁ inv₁ ?_
        have hsum := sum_filter_out HG.ids_nodup humem huc
        have hql := (relaxA_out (List.mem_cons_self u closed) nbrs g pred rest
          hrel').qlen
        have hnl : nbrLen G u = nbrs.length := nbrLen_eq hnb
        unfold phiA at hlt ⊢
        omega

/-- **C5 (amended).**  On a well-formed graph in which EVERY node carries
both coordinates, with start and goal present in the graph, an
unreachable goal makes `find_shortest_path` drain the frontier and return
`None` without raising.  (Without the all-nodes-have-coordinates
hypothesis the claim is false — see the counterexample.) -/
theorem astar_unreachable_none (G : PGraph) (sq : ℚ → ℚ)
    (ht : HeuristicType) (sId gId : Nat) (hwf : G.WF) (hco : G.allCoords)
    (hs : sId ∈ G.nodeIds) (hg : gId ∈ G.nodeIds)
    (hnr : ¬G.Reachable sId gId) :
    findShortestPath G sq ht sId gId = .ok none := by
  have HG := PGraph.good_of_wf hwf
  rcases PGraph.getNode_isSome hs with ⟨sn, hsn⟩
  rcases PGraph.getNode_isSome hg with ⟨gn, hgn⟩
  unfold findShortestPath
  rw [hsn, hgn]
  refine astarLoop_exhausts HG hco hgn hnr (astarFuel G) _ _ _ _
    (astar_init_base hs) ?_
  unfold phiA astarFuel
  have hfil : G.nodeIds.filter (fun v => v ∉ ([] : List Nat)) = G.nodeIds := by
    refine List.filter_eq_self.2 ?_
    intro a _
    simp
  rw [hfil]
  have htot := totalNbrLen_eq G
  simp only [List.length_cons, List.length_nil]
  omega

/-- **C5 counterexample.**  In the graph `gQ` (edge 1→2, isolated node 3,
where nodes 1 and 3 both carry coordinates but node 2 does not), the goal
3 is unreachable from the start 1, yet `find_shortest_path(1, 3)` raises
`TypeError` instead of returning `None`: before the frontier can drain,
the relaxation of the reachable neighbour 2 calls the heuristic, which
needs node 2's missing coordinates. -/
theorem astar_unreachable_counterexample :
    ((q1.x.isSome ∧ q1.y.isSome ∧ q3.x.isSome ∧ q3.y.isSome) ∧
      ¬(PGraph.dir gQ).Reachable 1 3) ∧
    findShortestPath (.dir gQ) id .manhattan 1 3 = .exn := by
  refine ⟨⟨by decide, ?_⟩, by with_unfolding_all decide⟩
  rintro ⟨c, hpath⟩
  rcases hpath.last_step (by decide) with ⟨u, w, hstep⟩
  rcases hstep with ⟨e, he, _, ht3, _⟩
  have he' : e ∈ [qe] := he
  rcases List.mem_singleton.1 he' with rfl
  exact absurd ht3 (by decide)

/-- **C5 witness**: on the A* test graph extended with the isolated
(but coordinate-carrying) node 5, `find_shortest_path(1, 5)` returns
`None`. -/
theorem astar_unreachable_none_witness :
    ((PGraph.dir gM5).WF ∧ (PGraph.dir gM5).allCoords ∧
      1 ∈ (PGraph.dir gM5).nodeIds ∧ 5 ∈ (PGraph.dir gM5).nodeIds ∧
      ¬(PGraph.dir gM5).Reachable 1 5) ∧
    findShortestPath (.dir gM5) id .manhattan 1 5 = .ok none := by
  have hnr : ¬(PGraph.dir gM5).Reachable 1 5 := by
    rintro ⟨c, hpath⟩
    rcases hpath.last_step (by decide) with ⟨u, w, hstep⟩
    rcases hstep with ⟨e, he, _, ht5, _⟩
    have he' : e ∈ [f12, f23, f34] := he
    simp only [List.mem_cons, List.not_mem_nil, or_false] at he'
    rcases he' with rfl | rfl | rfl <;> exact absurd ht5 (by decide)
  exact ⟨⟨by decide, by decide, by decide, by decide, hnr⟩,
    astar_unreachable_none (.dir gM5) id .manhattan 1 5 (by decide)
      (by decide) (by decide) (by decide) hnr⟩

/-! #### C3 core: in `Zero` mode the A* loop maintains Dijkstra's invariant -/

lemma AZInv.toDInv {G : PGraph} {sId : Nat} {g : Nat → WithTop ℚ}
    {pred : List (Nat × Nat)} {closed : List Nat}
    {queue : List (WithTop ℚ × Nat)} (hnd : G.nodeIds.Nodup)
    (inv : AZInv G sId g pred closed queue) :
    DInv G sId g queue (G.nodeIds.filter (fun v => v ∉ closed)) := by
  refine {
    unvis_sub := fun v hv => (List.mem_filter.1 hv).1
    unvis_nodup := hnd.filter _
    dist_s := inv.z_dist_s
    dist_nonneg := inv.z_nonneg
    ach := inv.z_ach
    settled := ?_
    relaxed := ?_
    qbound := ?_
    qexact := ?_ }
  · intro v hv hnv
    have hvc : v ∈ closed := by
      by_contra hcontra
      exact hnv (List.mem_filter.2 ⟨hv, by simp [hcontra]⟩)
    exact inv.z_settled v hvc
  · intro u hu hnu v w hstep
    have huc : u ∈ closed := by
      by_contra hcontra
      exact hnu (List.mem_filter.2 ⟨hu, by simp [hcontra]⟩)
    exact inv.z_relaxed u huc v w hstep
  · intro e he
    rcases inv.z_qbound e he with ⟨h1, h2⟩
    exact ⟨h1, h2, inv.q_sub e he⟩
  · intro v hv hne
    refine inv.z_qexact v (List.mem_filter.1 hv).1 ?_ hne
    have h2 := (List.mem_filter.1 hv).2
    simpa using h2

lemma astar_zero_init {G : PGraph} {sId : Nat} (hs : sId ∈ G.nodeIds) :
    AZInv G sId (fun i => if i = sId then 0 else ⊤) [] []
      [((0 : WithTop ℚ), sId)] := by
  refine {
    toABase := astar_init_base hs
    z_dist_s := if_pos rfl
    z_nonneg := ?_
    z_ach := ?_
    z_settled := fun v hv => absurd hv (List.not_mem_nil v)
    z_relaxed := fun u hu => absurd hu (List.not_mem_nil u)
    z_qbound := ?_
    z_qexact := ?_ }
  · intro v
    by_cases hv : v = sId <;> simp [hv]
  · intro v c hc
    by_cases hv : v = sId
    · subst hv
      rw [if_pos rfl] at hc
      have h0 : (0 : ℚ) = c := by exact_mod_cast hc
      rw [← h0]
      exact CostPath.refl v
    · rw [if_neg hv] at hc
      exact absurd hc.symm WithTop.coe_ne_top
  · intro e he
    rcases List.mem_singleton.1 he with rfl
    refine ⟨?_, by simp⟩
    show (if sId = sId then (0 : WithTop ℚ) else ⊤) ≤ 0
    rw [if_pos rfl]
  · intro v hv hnc hne
    by_cases hvs : v = sId
    · subst hvs
      show ((if v = v then (0 : WithTop ℚ) else ⊤), v) ∈ _
      rw [if_pos rfl]
      exact List.mem_singleton_self _
    · rw [if_neg hvs] at hne
      exact absurd rfl hne

lemma astar_zero_stale {G : PGraph} (HG : Good G) {sq : ℚ → ℚ}
    {ht : HeuristicType} {goalD : Option NodeData} {sId : Nat}
    {g : Nat → WithTop ℚ} {pred : List (Nat × Nat)} {closed : List Nat}
    {queue rest : List (WithTop ℚ × Nat)} {d₀ : WithTop ℚ} {u : Nat}
    {nbrs : List NodeData}
    (inv : AZInv G sId g pred closed queue)
    (hpop : popMin queue = some ((d₀, u), rest)) (huc : u ∈ closed)
    (hnb : G.getNeighbors u = .ok nbrs) :
    relaxA G sq ht goalD u closed nbrs g pred rest = some (g, pred, rest) ∧
    AZInv G sId g pred closed rest := by
  rcases abase_stale HG inv.toABase hpop huc hnb with ⟨hrel, base'⟩
  refine ⟨hrel, {
    toABase := base'
    z_dist_s := inv.z_dist_s
    z_nonneg := inv.z_nonneg
    z_ach := inv.z_ach
    z_settled := inv.z_settled
    z_relaxed := inv.z_relaxed
    z_qbound := fun e he => inv.z_qbound e (popMin_rest_subset hpop e he)
    z_qexact := ?_ }⟩
  intro v hv hvc hne
  refine popMin_rest_mem hpop _ (inv.z_qexact v hv hvc hne) ?_
  intro hcontra
  have : v = u := congrArg Prod.snd hcontra
  exact hvc (this ▸ huc)

lemma astar_zero_fresh {G : PGraph} (HG : Good G)
    (HP : ∀ u v w, G.EdgeStep u v w → G.edgeWeightBetween u v = some w)
    (Hnn : ∀ u v w, G.EdgeStep u v w → 0 ≤ w)
    {sq : ℚ → ℚ} {gd : NodeData} {sId : Nat} (hs : sId ∈ G.nodeIds)
    {g g₁ : Nat → WithTop ℚ} {pred pred₁ : List (Nat × Nat)}
    {closed : List Nat} {queue rest queue₁ : List (WithTop ℚ × Nat)}
    {d₀ : WithTop ℚ} {u : Nat} {nbrs : List NodeData}
    (inv : AZInv G sId g pred closed queue)
    (hpop : popMin queue = some ((d₀, u), rest)) (huc : u ∉ closed)
    (hnb : G.getNeighbors u = .ok nbrs)
    (hrel : relaxA G sq .zero (some gd) u (u :: closed) nbrs g pred rest =
      some (g₁, pred₁, queue₁)) :
    AZInv G sId g₁ pred₁ (u :: closed) queue₁ := by
  have HnnW : ∀ u' v w, G.edgeWeightBetween u' v = some w → 0 ≤ w :=
    fun u' v w h => Hnn u' v w (HG.w_step u' v w h)
  have base := abase_fresh HG inv.toABase hpop huc hnb hrel
  have out := relaxA_out (List.mem_cons_self u closed) nbrs g pred rest hrel
  have outZ := relaxA_zero_out (List.mem_cons_self u closed) nbrs g pred rest
    hrel
  have humem : u ∈ G.nodeIds := inv.q_sub _ (popMin_some hpop).1
  have hufilter : u ∈ G.nodeIds.filter (fun v => v ∉ closed) :=
    List.mem_filter.2 ⟨humem, by simp [huc]⟩
  rcases dijkstra_settles HG Hnn hs (inv.toDInv HG.ids_nodup) hpop hufilter
    with ⟨du, hdu, hleast⟩
  have hg1u : g₁ u = g u := out.frozen u (List.mem_cons_self u closed)
  have hnn₁ : ∀ v, 0 ≤ g₁ v := by
    intro v
    rcases outZ.pointwise v with hsame | ⟨_, _, w, hw, heqv, _⟩
    · rw [hsame]; exact inv.z_nonneg v
    · rw [heqv]
      exact add_nonneg (inv.z_nonneg u) (by exact_mod_cast HnnW _ _ _ hw)
  have hach₁ : ∀ v (c : ℚ), g₁ v = (c : WithTop ℚ) → CostPath G sId v c := by
    intro v c hc
    rcases outZ.pointwise v with hsame | ⟨_, _, w, hw, heqv, _⟩
    · exact inv.z_ach v c (hsame ▸ hc)
    · have h2 : g₁ v = ((du + w : ℚ) : WithTop ℚ) := by
        rw [heqv, hdu]
        exact_mod_cast rfl
      rw [hc] at h2
      have hcw : c = du + w := by exact_mod_cast h2
      rw [hcw]
      exact (inv.z_ach u du hdu).snoc (HG.w_step _ _ _ hw)
  refine {
    toABase := base
    z_dist_s := ?_
    z_nonneg := hnn₁
    z_ach := hach₁
    z_settled := ?_
    z_relaxed := ?_
    z_qbound := ?_
    z_qexact := ?_ }
  · rcases base.b_init with ⟨_, hc, _⟩ | ⟨hsc, _⟩
    · cases hc
    · rw [out.frozen sId hsc, inv.z_dist_s]
  · intro v hv
    rcases List.mem_cons.1 hv with rfl | hv
    · exact ⟨du, by rw [hg1u, hdu], hleast⟩
    · rcases inv.z_settled v hv with ⟨cv, hcv, hlv⟩
      exact ⟨cv, by rw [out.frozen v (List.mem_cons_of_mem u hv), hcv], hlv⟩
  · intro x hx v w hstep
    rcases List.mem_cons.1 hx with rfl | hx
    · by_cases hvc : v ∈ x :: closed
      · rcases List.mem_cons.1 hvc with rfl | hvc'
        · exact le_add_of_nonneg_right
            (by exact_mod_cast Hnn _ _ _ hstep)
        · rcases inv.z_settled v hvc' with ⟨cv, hcv, hlv⟩
          have hach : (du + w) ∈ costSet G sId v :=
            (inv.z_ach x du hdu).snoc hstep
          have h1 : cv ≤ du + w := hlv.2 hach
          have h2 : g₁ v = (cv : WithTop ℚ) :=
            by rw [out.frozen v (List.mem_cons_of_mem x hvc'), hcv]
          rw [h2, hg1u, hdu]
          calc ((cv : ℚ) : WithTop ℚ) ≤ ((du + w : ℚ) : WithTop ℚ) := by
                exact_mod_cast h1
            _ = (du : WithTop ℚ) + (w : WithTop ℚ) := by exact_mod_cast rfl
      · rcases HG.step_cover x nbrs hnb v w hstep with ⟨nd, hnd, hid⟩
        have h1 := out.relaxed nd hnd (by rw [hid]; exact hvc) w
          (by rw [hid]; exact HP x v w hstep)
        rw [hid] at h1
        rw [hg1u]
        exact h1
    · calc g₁ v ≤ g v := out.mono v
        _ ≤ g x + (w : WithTop ℚ) := inv.z_relaxed x hx v w hstep
        _ = g₁ x + (w : WithTop ℚ) := by
            rw [out.frozen x (List.mem_cons_of_mem u hx)]
  · intro e he
    rcases outZ.qzb e he with hold | ⟨h1, h2⟩
    · rcases inv.z_qbound e (popMin_rest_subset hpop e hold) with ⟨h1, h2⟩
      exact ⟨(out.mono e.2).trans h1, h2⟩
    · exact ⟨h1, h2⟩
  · intro v hv hvc hne
    have hvu : v ≠ u := fun hh => hvc (hh ▸ List.mem_cons_self u closed)
    have hvc' : v ∉ closed := fun hh => hvc (List.mem_cons_of_mem u hh)
    rcases outZ.pointwise v with hsame | ⟨hq, _, _, _, _, _⟩
    · rw [hsame]
      rw [hsame] at hne
      have h1 := inv.z_qexact v hv hvc' hne
      refine out.qold _ (popMin_rest_mem hpop _ h1 ?_)
      intro hcontra
      exact hvu (congrArg Prod.snd hcontra)
    · exact hq

lemma astarLoop_zero_ok {G : PGraph} (HG : Good G)
    (HP : ∀ u v w, G.EdgeStep u v w → G.edgeWeightBetween u v = some w)
    (Hnn : ∀ u v w, G.EdgeStep u v w → 0 ≤ w) (hco : G.allCoords)
    {sq : ℚ → ℚ} {sId gId : Nat} (hs : sId ∈ G.nodeIds) (hne : sId ≠ gId)
    {gn : PNode} (hgn : G.getNode gId = some gn)
    (hreach : G.Reachable sId gId) :
    ∀ (fuel : Nat) (g : Nat → WithTop ℚ) (pred : List (Nat × Nat))
      (closed : List Nat) (queue : List (WithTop ℚ × Nat)),
      AZInv G sId g pred closed queue → gId ∉ closed →
      phiA G queue closed < fuel →
      ∃ (p : List Nat) (c : ℚ),
        astarLoop G sq .zero sId gId (some gn) fuel g pred closed queue =
          .ok (some p) ∧ ListSteps G p c ∧
        IsLeast (costSet G sId gId) c := by
  intro fuel
  induction fuel with
  | zero => intro g pred closed queue _ _ hlt; omega
  | succ fuel ih =>
      intro g pred closed queue inv hgc hlt
      have hgmem : gId ∈ G.nodeIds := (PGraph.getNode_mem_ids hgn).1
      rcases hpop : popMin queue with _ | ⟨⟨d₀, u⟩, rest⟩
      · exfalso
        have hqnil : queue = [] := popMin_none.1 hpop
        have hqe : ∀ v ∈ G.nodeIds, v ∉ closed → g v = ⊤ := by
          intro v hv hvc
          by_contra hcontra
          have hmem := inv.z_qexact v hv hvc hcontra
          rw [hqnil] at hmem
          exact absurd hmem (List.not_mem_nil _)
        have hscl : sId ∈ closed := by
          by_contra hcontra
          have h0 := hqe sId hs hcontra
          rw [inv.z_dist_s] at h0
          simp at h0
        have hbound : ∀ a b c₀, CostPath G a b c₀ → a ∈ closed →
            b ∉ closed → False := by
          intro a b c₀ hp
          induction hp with
          | refl z => intro h1 h2; exact h2 h1
          | cons hstep htail ihp =>
              rename_i x m t w' c'
              intro h1 h2
              by_cases hm : m ∈ closed
              · exact ihp hm h2
              · have hrel := inv.z_relaxed x h1 m w' hstep
                rcases inv.z_settled x h1 with ⟨cx, hcx, _⟩
                have hm2 : g m = ⊤ := hqe m (HG.step_mem x m w' hstep).2 hm
                rw [hm2, hcx] at hrel
                have h3 : ((cx : WithTop ℚ) + (w' : WithTop ℚ)) = ⊤ :=
                  top_le_iff.1 hrel
                have h4 : ((cx + w' : ℚ) : WithTop ℚ) = ⊤ := by
                  exact_mod_cast h3
                exact WithTop.coe_ne_top h4
        rcases hreach with ⟨c₀, hpath⟩
        exact hbound sId gId c₀ hpath hscl hgc
      · have hpopm := popMin_some hpop
        have humem : u ∈ G.nodeIds := inv.q_sub _ hpopm.1
        by_cases hg : u = gId
        · have hgid : gn.data.id = gId := (PGraph.getNode_mem_ids hgn).2
          have huc : u ∉ closed := by rw [hg]; exact hgc
          have hufilter : u ∈ G.nodeIds.filter (fun v => v ∉ closed) :=
            List.mem_filter.2 ⟨humem, by simp [huc]⟩
          rcases dijkstra_settles HG Hnn hs (inv.toDInv HG.ids_nodup) hpop
            hufilter with ⟨du, hdu, hleast⟩
          rcases inv.b_init with ⟨_, _, hq⟩ | ⟨_, hq⟩
          · rw [hq] at hpopm
            rcases List.mem_singleton.1 hpopm.1 with heq
            have husid : u = sId := congrArg Prod.snd heq
            have : sId = gId := by rw [← husid, hg]
            exact absurd this hne
          · have hgs : (pred.lookup gId).isSome := by
              have h2 : (pred.lookup u).isSome := hq _ hpopm.1
              rw [← hg]
              exact h2
            rcases Option.isSome_iff_exists.1 hgs with ⟨x, hx⟩
            have hxclosed : x ∈ closed := (inv.b_g gId x hx).1
            have hwalksto : WalksTo pred gId :=
              WalksTo.step hx (inv.b_walks x hxclosed)
            rcases hwalksto.isWalk with ⟨l, t, hwalk⟩
            have hlne : l ≠ [] := by
              cases hwalk with
              | nil hl => rw [hl] at hx; cases hx
              | cons hl htail => simp
            have hsub : ∀ y ∈ l, y ∈ G.nodeIds := by
              intro y hy
              rcases hwalk.mem_struct y hy with rfl | ⟨z, hz⟩
              · exact hgmem
              · exact inv.closed_sub y (inv.b_g z y hz).1
            have hllen : l.length ≤ G.nodeIds.length :=
              (List.subperm_of_subset hwalk.nodup hsub).length_le
            have hwp : walkPred pred (G.nodeIds.length + 1) gId = some l :=
              hwalk.walkPred_eq (le_trans hllen (Nat.le_succ _))
            rcases hwalk.last_lookup hlne with ⟨y, hy⟩
            have htc : t ∈ closed := (inv.b_g y t hy).1
            have hts : t = sId := by
              rcases inv.b_closed_pred t htc with h' | h'
              · exact h'
              · rw [hwalk.terminal_none] at h'
                cases h'
            have hwalk' : IsWalk pred gId l sId := hts ▸ hwalk
            have pb : ∀ v x, pred.lookup v = some x → ∃ w : ℚ,
                G.edgeWeightBetween x v = some w ∧
                  g v = g x + (w : WithTop ℚ) := by
              intro v x h'
              rcases inv.b_g v x h' with ⟨_, w, hw, heq, _⟩
              exact ⟨w, hw, heq⟩
            rcases isWalk_steps HG.w_step pb hwalk' hlne with
              ⟨c, hsteps, _, _, hcost⟩
            have hcg : g gId = (c : WithTop ℚ) := by
              rw [hcost, inv.z_dist_s, zero_add]
            have hdu' : g gId = (du : WithTop ℚ) := by
              rw [← hg]
              exact hdu
            have hceq : c = du := by
              rw [hcg] at hdu'
              exact_mod_cast hdu'
            have hleast' : IsLeast (costSet G sId gId) c := by
              rw [hceq, ← hg]
              exact hleast
            have hpne : ¬pred.isEmpty := by
              intro hcontra
              have hnil : pred = [] := by simpa using hcontra
              rw [hnil] at hx
              cases hx
            refine ⟨(l ++ [sId]).reverse, c, ?_, hsteps, hleast'⟩
            rw [astarLoop_goal hpop hg, hgid]
            unfold reconstructPath
            rw [if_neg hpne, hwp]
        · rcases HG.nbr_ok u humem with ⟨nbrs, hnb⟩
          have hrlen : rest.length + 1 = queue.length := popMin_length hpop
          by_cases huc : u ∈ closed
          · rcases astar_zero_stale HG inv hpop huc hnb with ⟨hrel, inv'⟩
            rw [astarLoop_stale_eq hpop hg huc hnb hrel]
            refine ih g pred closed rest inv' hgc ?_
            unfold phiA at hlt ⊢
            omega
          · have hgd : gn.data.x.isSome ∧ gn.data.y.isSome :=
              PGraph.getNode_coords hgn hco
            have hw : ∀ nd ∈ nbrs, nd.id ∉ (u :: closed) →
                ∃ w, G.edgeWeightBetween u nd.id = some w :=
              fun nd hnd _ => HG.nbr_w u nbrs hnb nd hnd
            have hh : ∀ nd ∈ nbrs, (heuristic sq .zero nd gn.data).isSome := by
              intro nd hnd
              rcases HG.nbr_coords hco u nbrs hnb nd hnd with ⟨h1, h2⟩
              rw [heuristic_defined_iff_coords]
              exact ⟨h1, hgd.1, h2, hgd.2⟩
            rcases relaxA_total nbrs g pred rest hw hh with
              ⟨⟨g₁, pred₁, queue₁⟩, hrel⟩
            have hrel' : relaxA G sq .zero ((some gn).map PNode.data) u
                (u :: closed) nbrs g pred rest = some (g₁, pred₁, queue₁) :=
              hrel
            rw [astarLoop_fresh_eq hpop hg huc hnb hrel']
            have inv₁ := astar_zero_fresh HG HP Hnn hs inv hpop huc hnb hrel'
            have hgc' : gId ∉ u :: closed := by
              intro hcontra
              rcases List.mem_cons.1 hcontra with heq | hmem
              · exact hg heq.symm
              · exact hgc hmem
            refine ih g₁ pred₁ (u :: closed) queue₁ inv₁ hgc' ?_
            have hsum := sum_filter_out HG.ids_nodup humem huc
            have hql := (relaxA_out (List.mem_cons_self u closed) nbrs g pred
              rest hrel').qlen
            have hnl : nbrLen G u = nbrs.length := nbrLen_eq hnb
            unfold phiA at hlt ⊢
            omega

/-- **C3 (amended).**  On a well-formed graph with non-negative,
parallel-deterministic weights in which every node carries coordinates,
for distinct start and goal nodes (A* returns `None` when they coincide —
see C9) with the goal present in the graph, whenever Dijkstra's
`find_shortest_paths(start)` returns normally (which by C2 requires every
node to be reachable), A* in `Zero` heuristic mode returns a path whose
total edge-weight cost is exactly the distance Dijkstra reports for the
goal. -/
theorem astar_zero_matches_dijkstra (G : PGraph) (sq : ℚ → ℚ)
    (sId gId : Nat) (m : List (Nat × (WithTop ℚ × Option Nat)))
    (hwf : G.WF) (hnp : G.noParallelWeights) (hnn : G.nonnegWeights)
    (hco : G.allCoords) (hne : sId ≠ gId) (hg : gId ∈ G.nodeIds)
    (hm : findShortestPaths G sId = .ok m) :
    ∃ (p : List Nat) (c : ℚ) (pr : Option Nat),
      findShortestPath G sq .zero sId gId = .ok (some p) ∧
      ListSteps G p c ∧
      List.lookup gId m = some ((c : WithTop ℚ), pr) := by
  have HG := PGraph.good_of_wf hwf
  have HP := step_w_of_noParallel hwf hnp
  have Hnn := step_nonneg_of_nonnegWeights hnn
  rcases dijkstra_ok_least hwf hnp hnn hm with ⟨hs, hprops⟩
  rcases hprops gId hg with ⟨c₀, pr, hlook, hleast₀⟩
  have hreach : G.Reachable sId gId := ⟨c₀, hleast₀.1⟩
  rcases PGraph.getNode_isSome hs with ⟨sn, hsn⟩
  rcases PGraph.getNode_isSome hg with ⟨gn, hgn⟩
  have hphi : phiA G [((0 : WithTop ℚ), sId)] [] < astarFuel G := by
    unfold phiA astarFuel
    have hfil : G.nodeIds.filter (fun v => v ∉ ([] : List Nat)) =
        G.nodeIds := by
      refine List.filter_eq_self.2 ?_
      intro a _
      simp
    rw [hfil]
    have htot := totalNbrLen_eq G
    simp only [List.length_cons, List.length_nil]
    omega
  rcases astarLoop_zero_ok HG HP Hnn hco hs hne hgn hreach (astarFuel G)
      _ _ _ _ (astar_zero_init hs) (List.not_mem_nil gId) hphi with
    ⟨p, c, heq, hsteps, hleast⟩
  have hc : c = c₀ := le_antisymm (hleast.2 hleast₀.1) (hleast₀.2 hleast.1)
  refine ⟨p, c, pr, ?_, hsteps, ?_⟩
  · unfold findShortestPath
    rw [hsn, hgn]
    exact heq
  · rw [hc]
    exact hlook

/-- **C3 counterexample.**  The "returns `None` exactly when Dijkstra
reports +infinity" part of the claim fails when start = goal: on the
single-node graph `gS` (node 1 with coordinates), Dijkstra reports the
finite distance 0 for node 1, yet A* in `Zero` mode returns `None` for
`find_shortest_path(1, 1)` (C9's defensive empty-predecessors guard). -/
theorem astar_zero_claim_counterexample :
    ((PGraph.dir gS).WF ∧ (PGraph.dir gS).nonnegWeights ∧
      (PGraph.dir gS).allCoords ∧ 1 ∈ (PGraph.dir gS).nodeIds) ∧
    findShortestPaths (.dir gS) 1 = .ok [(1, ((0 : WithTop ℚ), none))] ∧
    findShortestPath (.dir gS) id .zero 1 1 = .ok none ∧
    ((0 : WithTop ℚ) ≠ ⊤) :=
  ⟨⟨by decide, by decide, by decide, by decide⟩,
    by with_unfolding_all decide, by with_unfolding_all decide, by decide⟩

/-- **C3 witness**: on the A* test graph, Dijkstra from node 1 reports
distance 4 for node 4, and A* in `Zero` mode returns a path of the same
cost. -/
theorem astar_zero_matches_dijkstra_witness :
    (((PGraph.dir gM).WF ∧ (PGraph.dir gM).noParallelWeights ∧
       (PGraph.dir gM).nonnegWeights ∧ (PGraph.dir gM).allCoords) ∧
      (1 : Nat) ≠ 4 ∧ 4 ∈ (PGraph.dir gM).nodeIds ∧
      findShortestPaths (.dir gM) 1 =
        .ok [(1, ((0 : WithTop ℚ), none)), (2, ((1 : WithTop ℚ), some 1)),
          (3, ((3 : WithTop ℚ), some 2)), (4, ((4 : WithTop ℚ), some 3))]) ∧
    (∃ (p : List Nat) (c : ℚ) (pr : Option Nat),
      findShortestPath (.dir gM) id .zero 1 4 = .ok (some p) ∧
      ListSteps (.dir gM) p c ∧
      List.lookup 4
        [(1, ((0 : WithTop ℚ), none)), (2, ((1 : WithTop ℚ), some 1)),
          (3, ((3 : WithTop ℚ), some 2)), (4, ((4 : WithTop ℚ), some 3))] =
        some ((c : WithTop ℚ), pr)) :=
  ⟨⟨⟨by decide, by decide, by decide, by decide⟩, by decide, by decide,
      by with_unfolding_all decide⟩,
    astar_zero_matches_dijkstra (.dir gM) id 1 4
      [(1, ((0 : WithTop ℚ), none)), (2, ((1 : WithTop ℚ), some 1)),
        (3, ((3 : WithTop ℚ), some 2)), (4, ((4 : WithTop ℚ), some 3))]
      (by decide) (by decide) (by decide) (by decide) (by decide) (by decide)
      (by with_unfolding_all decide)⟩

end PathPlanning
